import Mathlib

/-!
# dualmode-terminal: the agent action protocol of `server.js`

A shallow embedding of the per-connection state of `server.js`
(`currentMode`, `workingDirectory`, `pendingFiles`), of the directive
extraction done by the `command` handler on a model turn, and of the
`approvalResponse` handler that executes an approved batch.

JavaScript strings are lists of characters. The Node modules `path` and `fs`
are modelled in their POSIX flavour over a tree of absolute, normalised paths.
-/

namespace DualTerminal

/-! ## Strings -/

/-- JavaScript string: a list of characters. -/
abbrev Str := List Char

/-- Line terminators of ECMAScript: the characters the regex atom `.` refuses. -/
def isLineTerminator (c : Char) : Bool :=
  c.toNat = 0x0A || c.toNat = 0x0D || c.toNat = 0x2028 || c.toNat = 0x2029

/-- White space and line terminators: what `String.prototype.trim` strips. -/
def isJsWhitespace (c : Char) : Bool :=
  c.toNat = 0x09 || c.toNat = 0x0A || c.toNat = 0x0B || c.toNat = 0x0C || c.toNat = 0x0D ||
  c.toNat = 0x20 || c.toNat = 0xA0 || c.toNat = 0x1680 ||
  (0x2000 ≤ c.toNat && c.toNat ≤ 0x200A) ||
  c.toNat = 0x2028 || c.toNat = 0x2029 || c.toNat = 0x202F || c.toNat = 0x205F ||
  c.toNat = 0x3000 || c.toNat = 0xFEFF

/-- The method `s.trim()`. -/
def trim (s : Str) : Str :=
  ((s.dropWhile isJsWhitespace).reverse.dropWhile isJsWhitespace).reverse

/-- The method `s.split(sep)` for a one-character separator: consecutive separators give
empty strings, and the empty string gives one empty string. -/
def split (sep : Char) : Str → List Str
  | [] => [[]]
  | c :: s =>
    if c = sep then [] :: split sep s
    else match split sep s with
      | [] => [[c]]
      | h :: t => (c :: h) :: t

/-- The method `parts.join(sep)` for a one-character separator. -/
def join (sep : Char) : List Str → Str
  | [] => []
  | [a] => a
  | a :: b :: rest => a ++ sep :: join sep (b :: rest)

/-- One character of `toLowerCase`, as far as a comparison with an ASCII verb
can see it: ASCII capitals, and the Kelvin sign, whose lower case is `k`.
Every other letter is left as it is, so the result is exact where it is
compared with an ASCII text and on ASCII text. -/
def toLowerChar (c : Char) : Char :=
  if c.toNat = 0x212A then 'k' else c.toLower

/-- The method `s.toLowerCase()`, see `toLowerChar`. -/
def toLowerCase (s : Str) : Str := s.map toLowerChar

/-! ## The regular expressions of the `command` handler -/

/-- A literal of a regex at the head of the text: the text after it. -/
def dropPrefix? : Str → Str → Option Str
  | [], s => some s
  | _ :: _, [] => none
  | p :: ps, c :: s => if p = c then dropPrefix? ps s else none

/-- Literal `<<<FILE: `. -/
def fileOpen : Str := ['<', '<', '<', 'F', 'I', 'L', 'E', ':', ' ']
/-- Literal `>>>`. -/
def markClose : Str := ['>', '>', '>']
/-- Literal `<<<END>>>`. -/
def fileEnd : Str := ['<', '<', '<', 'E', 'N', 'D', '>', '>', '>']
/-- Literal `<<<OPERATION: `. -/
def opOpen : Str :=
  ['<', '<', '<', 'O', 'P', 'E', 'R', 'A', 'T', 'I', 'O', 'N', ':', ' ']
/-- Literal `<think>`. -/
def thinkOpen : Str := ['<', 't', 'h', 'i', 'n', 'k', '>']
/-- Literal `</think>`. -/
def thinkClose : Str := ['<', '/', 't', 'h', 'i', 'n', 'k', '>']

/-- The tail `([\s\S]*?)lit` of a regex: the lazy group takes one more
character, whatever it is, until the literal matches. Gives the group and the
text after the literal. -/
def lazyAny (lit : Str) : Str → Str → Option (Str × Str)
  | [], acc => (dropPrefix? lit []).map fun rest => (acc, rest)
  | c :: s, acc =>
    match dropPrefix? lit (c :: s) with
    | some rest => some (acc, rest)
    | none => lazyAny lit s (acc ++ [c])

/-- The tail `(.*?)>>>` of `operationRegex`: the lazy group takes one more
character that is no line terminator until `>>>` matches. -/
def lazyDot : Str → Str → Option (Str × Str)
  | [], _ => none
  | c :: s, acc =>
    match dropPrefix? markClose (c :: s) with
    | some rest => some (acc, rest)
    | none => if isLineTerminator c then none else lazyDot s (acc ++ [c])

/-- The tail `(.*?)>>>([\s\S]*?)<<<END>>>` of `fileRegex`: at each `>>>` the
rest of the pattern is tried, and when it fails the first group backtracks
into one more character that is no line terminator. -/
def lazyDotFile : Str → Str → Option (Str × Str × Str)
  | [], _ => none
  | c :: s, acc =>
    match (dropPrefix? markClose (c :: s)).bind fun r => lazyAny fileEnd r [] with
    | some (body, rest) => some (acc, body, rest)
    | none => if isLineTerminator c then none else lazyDotFile s (acc ++ [c])

/-- One match of a regex with the `g` flag: its `index` in the text and its
groups. -/
structure Match (α : Type) where
  index : Nat
  groups : α
deriving DecidableEq, Repr

/-- The regex `/<<<FILE: (.*?)>>>([\s\S]*?)<<<END>>>/` at the head of the text: the two
groups and the text after the match. -/
def fileRegex (s : Str) : Option ((Str × Str) × Str) :=
  (dropPrefix? fileOpen s).bind fun r =>
    (lazyDotFile r []).map fun (name, body, rest) => ((name, body), rest)

/-- The regex `/<<<OPERATION: (.*?)>>>/` at the head of the text. -/
def operationRegex (s : Str) : Option (Str × Str) :=
  (dropPrefix? opOpen s).bind fun r => lazyDot r []

/-- The regex `/<think>([\s\S]*?)<\/think>/` at the head of the text. -/
def thinkRegex (s : Str) : Option (Str × Str) :=
  (dropPrefix? thinkOpen s).bind fun r => lazyAny thinkClose r []

/-- The loop `while ((match = regex.exec(text)) !== null)` of a regex with the
`g` flag: the matches from left to right, each search starting where the
previous match ended. `pos` is the index of the head of the text, and `skip`
counts the characters of the text that still belong to the previous match. -/
def execAll {α : Type} (re : Str → Option (α × Str)) : Nat → Nat → Str → List (Match α)
  | _, _, [] => []
  | pos, skip + 1, _ :: s => execAll re (pos + 1) skip s
  | pos, 0, c :: s =>
    match re (c :: s) with
    | some (g, rest) => ⟨pos, g⟩ :: execAll re (pos + 1) (s.length - rest.length) s
    | none => execAll re (pos + 1) 0 s

/-- The call `text.replace(regex, '')` for a regex with the `g` flag: the text without
its matches. -/
def replaceAll {α : Type} (re : Str → Option (α × Str)) : Nat → Str → Str
  | _, [] => []
  | skip + 1, _ :: s => replaceAll re skip s
  | 0, c :: s =>
    match re (c :: s) with
    | some (_, rest) => replaceAll re (s.length - rest.length) s
    | none => c :: replaceAll re 0 s

/-! ## Paths and the filesystem (Node `path` and `fs`, POSIX flavour) -/

/-- Absolute normalised path: its segments below the root `/`. -/
abbrev Path := List Str

/-- Normalisation done by `path.join` and `path.resolve`: the segments are
walked from left to right, empty and `.` segments are dropped, and `..` steps
to the parent (the root is its own parent). -/
def normalize : Path → List Str → Path
  | base, [] => base
  | base, seg :: segs =>
    if seg = [] ∨ seg = ['.'] then normalize base segs
    else if seg = ['.', '.'] then normalize base.dropLast segs
    else normalize (base ++ [seg]) segs

/-- The call `path.join(dir, rel)` for a normalised absolute `dir`: the
segments of the joined path. `path.join` keeps a trailing slash of `rel`,
which is not a segment: see `joinedSlash`. -/
def pathJoin (dir : Path) (rel : Str) : Path := normalize dir (split '/' rel)

/-- Whether the text of `path.join(dir, rel)` ends in `/` after its last
segment: it does when `rel` does. -/
def joinedSlash (rel : Str) : Bool := rel.getLast? = some '/'

/-- The call `path.resolve(dir, arg)` for a normalised absolute `dir`: an `arg` that
starts with `/` is absolute and replaces `dir`. -/
def pathResolve (dir : Path) (arg : Str) : Path :=
  if arg.head? = some '/' then normalize [] (split '/' arg)
  else normalize dir (split '/' arg)

/-- The call `path.dirname(dir)` for a normalised absolute `dir`. -/
def pathDirname (dir : Path) : Path := dir.dropLast

/-- What a path names: a regular file with its content, or a directory. -/
inductive Node where
  | file (content : Str)
  | dir
deriving DecidableEq, Repr

/-- The filesystem: the existing paths, each with its node. The first entry
with a given path is the one that counts. -/
abbrev FS := List (Path × Node)

/-- The node at a path, when the path exists. -/
def FS.get (fs : FS) (p : Path) : Option Node :=
  (fs.find? fun e => e.1 = p).map Prod.snd

/-- The filesystem with the node at `p` created or replaced. -/
def FS.set (fs : FS) (p : Path) (n : Node) : FS :=
  (p, n) :: fs.filter fun e => ¬ e.1 = p

/-- The call `fs.existsSync(p)`. -/
def existsSync (fs : FS) (p : Path) : Bool := (fs.get p).isSome

/-- The call `fs.statSync(p).isDirectory()` for an existing `p`. -/
def isDirectory (fs : FS) (p : Path) : Bool := fs.get p = some Node.dir

/-- The errors that the modelled calls throw: the error codes of `fs`, the
`TypeError` of `path.join` on an `undefined` argument, and the
`ERR_INVALID_ARG_VALUE` of `fs` for a path with a NUL character. -/
inductive Errno where
  | ENOENT | EISDIR | ENOTDIR | EEXIST | ENOTEMPTY | EINVAL | typeError
  | ENAMETOOLONG | ELOOP | invalidArg
deriving DecidableEq, Repr

/-- The number of bytes of a character in UTF-8. -/
def utf8Size (c : Char) : Nat :=
  if c.toNat < 0x80 then 1 else if c.toNat < 0x800 then 2 else if c.toNat < 0x10000 then 3 else 4

/-- The number of bytes of a text in UTF-8. -/
def utf8Length (s : Str) : Nat := (s.map utf8Size).sum

/-- The error that a call of `fs` raises for a path that it cannot hand to the
system, whatever the filesystem holds: `ERR_INVALID_ARG_VALUE` for a NUL
character in the path, `ENAMETOOLONG` for a name of more than 255 bytes or a
path of more than 4095 bytes (the limits of Linux). -/
def pathFault (p : Path) : Option Errno :=
  if p.any (fun seg => decide ('\x00' ∈ seg)) = true then some Errno.invalidArg
  else if p.any (fun seg => decide (255 < utf8Length seg)) = true
      ∨ 4095 < (p.map fun seg => utf8Length seg + 1).sum then some Errno.ENAMETOOLONG
  else none

/-- The error of a walk to the path `q`, which does not name a directory: the
first of `/`, ..., `q` that is no directory decides, `ENOTDIR` when it is a
file and `ENOENT` when it does not exist. -/
def walkError (fs : FS) (q : Path) : Errno :=
  match q.inits.find? fun r => decide (fs.get r ≠ some Node.dir) with
  | some r =>
    match fs.get r with
    | some (Node.file _) => Errno.ENOTDIR
    | some Node.dir => Errno.ENOENT
    | none => Errno.ENOENT
  | none => Errno.ENOENT

/-- The call `fs.writeFileSync(p, data)` for a path without a trailing slash:
throws on a path that cannot be handed to the system, on a directory, and on
a new path whose parent is no directory; otherwise the file is created, or
truncated and replaced. -/
def writeFileSync (fs : FS) (p : Path) (data : Str) : Except Errno FS :=
  match pathFault p with
  | some e => .error e
  | none =>
    match fs.get p with
    | some Node.dir => .error Errno.EISDIR
    | some (Node.file _) => .ok (fs.set p (Node.file data))
    | none =>
      match fs.get p.dropLast with
      | some Node.dir => .ok (fs.set p (Node.file data))
      | some (Node.file _) => .error Errno.ENOTDIR
      | none => .error (walkError fs p.dropLast)

/-- The call `fs.writeFileSync(path.join(dir, rel), data)`. A joined path
that ends in `/` names a directory, and opening it for writing fails whatever
is there; otherwise the call is `writeFileSync` on the segments. -/
def writeFileAt (fs : FS) (dir : Path) (rel data : Str) : Except Errno FS :=
  if joinedSlash rel = true then
    match pathFault (pathJoin dir rel) with
    | some e => .error e
    | none =>
      match fs.get (pathJoin dir rel) with
      | some Node.dir => .error Errno.EISDIR
      | some (Node.file _) => .error Errno.ENOTDIR
      | none =>
        match fs.get (pathJoin dir rel).dropLast with
        | some Node.dir => .error Errno.EISDIR
        | some (Node.file _) => .error Errno.ENOTDIR
        | none => .error (walkError fs (pathJoin dir rel).dropLast)
  else writeFileSync fs (pathJoin dir rel) data

/-- The call `fs.mkdirSync(p, { recursive: true })`: throws when `p` or one of its
ancestors is a file; otherwise `p` and its missing ancestors become
directories. -/
def mkdirSync (fs : FS) (p : Path) : Except Errno FS :=
  match pathFault p with
  | some e => .error e
  | none =>
    if p.inits.all fun q => fs.get q = none ∨ fs.get q = some Node.dir then
      .ok ((p.inits.filter fun q => fs.get q = none).foldl (fun f q => f.set q Node.dir) fs)
    else if fs.get p = none ∨ fs.get p = some Node.dir then .error Errno.ENOTDIR
    else .error Errno.EEXIST

/-- The call `fs.copyFileSync(src, dest)`: the source has to be a file, and the
destination is written as by `writeFileSync`. -/
def copyFileSync (fs : FS) (src dest : Path) : Except Errno FS :=
  match pathFault src with
  | some e => .error e
  | none =>
    match fs.get src with
    | some (Node.file data) => writeFileSync fs dest data
    | some Node.dir => .error Errno.EISDIR
    | none => .error Errno.ENOENT

/-- The call `fs.renameSync(src, dest)` for two paths that can be handed to
the system: the source and what lies below it move to the destination, which
may be absent (in an existing directory), a file when the source is a file,
or an empty directory when the source is a directory. -/
def renameNodes (fs : FS) (src dest : Path) : Except Errno FS :=
  match fs.get src with
  | none => .error Errno.ENOENT
  | some n =>
    if src = dest then .ok fs
    else if src <+: dest then
      match n with
      | Node.dir => .error Errno.EINVAL
      | Node.file _ => .error Errno.ENOTDIR
    else
      let moved : FS := fs.filterMap fun e =>
        if src <+: e.1 then some (dest ++ e.1.drop src.length, e.2) else none
      let kept : FS := fs.filter fun e => ¬ src <+: e.1 ∧ ¬ dest <+: e.1
      match fs.get dest, n with
      | none, _ =>
        if isDirectory fs dest.dropLast then .ok (moved ++ kept) else .error Errno.ENOENT
      | some (Node.file _), Node.file _ => .ok (moved ++ kept)
      | some (Node.file _), Node.dir => .error Errno.ENOTDIR
      | some Node.dir, Node.file _ => .error Errno.EISDIR
      | some Node.dir, Node.dir =>
        if fs.any fun e => dest <+: e.1 ∧ ¬ e.1 = dest then .error Errno.ENOTEMPTY
        else .ok (moved ++ kept)

/-- The call `fs.renameSync(src, dest)`: a path that cannot be handed to the
system is refused first. -/
def renameSync (fs : FS) (src dest : Path) : Except Errno FS :=
  match pathFault src with
  | some e => .error e
  | none =>
    match pathFault dest with
    | some e => .error e
    | none => renameNodes fs src dest

/-! ## Session state, actions and outputs -/

/-- One pending action: `{ type: 'file', name, content }` or
`{ type: 'operation', command }`. -/
inductive Action where
  | file (name content : Str)
  | operation (command : Str)
deriving DecidableEq, Repr

/-- The variables of one connection: `currentMode`, `workingDirectory` and
`pendingFiles`. -/
structure Session where
  currentMode : Str
  workingDirectory : Path
  pendingFiles : List Action
deriving DecidableEq, Repr

/-- What the two handlers send to the client with `socket.emit`: the
`termOutput` lines, one constructor for each template of the source, and the
`approvalRequest` event. -/
inductive Out where
  /-- The line `✔ SAVED: name`. -/
  | saved (name : Str)
  /-- The line `✔ EXECUTED: cmd`. -/
  | executed (cmd : Str)
  /-- The line `✗ Directory not found: args`. -/
  | directoryNotFound (args : Str)
  /-- The line `⚠ Unknown operation: cmd`. -/
  | unknownOperation (cmd : Str)
  /-- The line `✗ Error executing cmd: message`. -/
  | errorExecuting (cmd : Str) (err : Errno)
  /-- The line `✓ Completed: n file(s), m operation(s)`. -/
  | completed (files ops : Nat)
  /-- The line `✖ Cancelled. No actions performed.` -/
  | cancelled
  /-- The prompt `$ `. -/
  | prompt
  /-- The line `(Thinking...)`. -/
  | thinking
  /-- The three lines that show one `<think>` block, trimmed. -/
  | reasoning (thinking : Str)
  /-- The model text, line ends as `\r\n`, when no action was staged. -/
  | modelText (text : Str)
  /-- The model text without its directives, shown before the approval. -/
  | cleanText (text : Str)
  /-- The line `━━━ ACTIONS DETECTED ━━━` and the line about the approval popup. -/
  | actionsDetected
  /-- The event `approvalRequest` with `{ files: pendingFiles }`. -/
  | approvalRequest (files : List Action)
  /-- The line `Error connecting to Pi: message`. -/
  | connectError (message : Str)
  /-- The line `✗ Failed to delete: args`, sent by the callback of an approved
  `/rm` or `/rmdir`. -/
  | failedToDelete (args : Str)
  /-- The line `✔ EXECUTED: cmd (moved to Recycle Bin)`, sent by the callback of
  an approved `/rm` or `/rmdir`. -/
  | executedRecycleBin (cmd : Str)
  /-- The line `Usage: synopsis` of a user command without its arguments. -/
  | usage (synopsis : Str)
  /-- The line `✓ Changed to: workingDirectory` of the user command `/cd`. -/
  | changedTo (dir : Path)
  /-- The line `✗ Directory not found` of the user command `/cd`. -/
  | userDirectoryNotFound
  /-- The working directory, as `/pwd` prints it. -/
  | pwd (dir : Path)
  /-- The header `━━━ FILES IN name ━━━` of `/ls`. -/
  | filesIn (name : Str)
  /-- One line of `/ls`: the icon of a directory or of a file, and the name. -/
  | entry (isDir : Bool) (file : Str)
  /-- The empty line that closes a listing. -/
  | blank
  /-- The line `✓ Created: args` of `/mkdir` and `/touch`. -/
  | created (args : Str)
  /-- The header `━━━ args ━━━` of `/cat`. -/
  | viewHeader (args : Str)
  /-- The content of the file, as `/cat` prints it. -/
  | viewContent (content : Str)
  /-- The rule that closes the output of `/cat`. -/
  | viewFooter
  /-- The line `✗ File not found`. -/
  | fileNotFound
  /-- The escape code that clears the screen. -/
  | clearScreen
  /-- The line `✓ Copied: source → dest`. -/
  | copied (source dest : Str)
  /-- The line `✓ Moved: source → dest`. -/
  | moved (source dest : Str)
  /-- The line `✗ Source file not found`. -/
  | sourceNotFound
  /-- The header `━━━ SEARCH RESULTS FOR "pattern" ━━━` of `/find`. -/
  | searchResults (pattern : Str)
  /-- The line `No matches found`. -/
  | noMatches
  /-- One line of `/find`: the icon and the name. -/
  | found (isDir : Bool) (file : Str)
  /-- The text that `/echo` prints. -/
  | echo (text : Str)
  /-- The header `━━━ DIRECTORY TREE ━━━`. -/
  | treeHeader
  /-- The first line of the tree: the name of the working directory. -/
  | treeRoot (name : Str)
  /-- One line of `showTree`: the indentation, the branch (`└── ` for the last
  name of a directory, `├── ` otherwise), the icon and the name. -/
  | treeLine (indent : Str) (isLast isDir : Bool) (file : Str)
  /-- The lines of `/help`, from the header to the closing empty line. -/
  | help
  /-- The line `Unknown command: command`, where `command` is the lower case
  of `token`, the first token of the line as it was typed. -/
  | unknownCommand (token : Str)
  /-- The line `Type /help for available commands`. -/
  | helpHint
  /-- The line `Error: message` of the `catch` of the slash commands. -/
  | commandError (e : Errno)
  /-- The line `✗ Error moving to Recycle Bin: message`. -/
  | recycleBinError
  /-- The line `✓ Moved to Recycle Bin: args`. -/
  | movedToRecycleBin (args : Str)
deriving DecidableEq, Repr

/-- The text of a normalised absolute path: `/` before each segment, and `/`
alone for the root. -/
def pathString (p : Path) : Str :=
  if p = [] then ['/'] else (p.map fun seg => '/' :: seg).flatten

/-- The text of `path.join(dir, rel)`, from its segments `p` and from `rel`:
the trailing slash of `rel` is kept, except at the root. -/
def joinedString (p : Path) (rel : Str) : Str :=
  if joinedSlash rel = true ∧ p ≠ [] then pathString p ++ ['/'] else pathString p

/-- The call `filePath.replace(/'/g, "''")`: each apostrophe (character 39) is
doubled, and every other character stays as it is. -/
def escapeQuotes (s : Str) : Str :=
  (s.map fun c => if c = Char.ofNat 39 then [Char.ofNat 39, Char.ofNat 39] else [c]).flatten

/-- The command line that the `/rm` and `/rmdir` branches hand to `exec`, which
runs it in a shell: the PowerShell call of `method` (`DeleteFile` or
`DeleteDirectory`) with the escaped path between apostrophes, the whole
script between double quotes (character 34). -/
def recycleCommand (method filePath : Str) : Str :=
  "powershell -Command ".toList ++ [Char.ofNat 34]
    ++ "Add-Type -AssemblyName Microsoft.VisualBasic; ".toList
    ++ "[Microsoft.VisualBasic.FileIO.FileSystem]::".toList ++ method ++ "('".toList
    ++ escapeQuotes filePath ++ "', 'OnlyErrorDialogs', 'SendToRecycleBin')".toList
    ++ [Char.ofNat 34]

/-- A process started with `exec`: the PowerShell call that sends a file or a
directory to the Recycle Bin. `path` holds the segments of the joined path
and `args` the text it was joined from; the command line that `exec` hands
to the shell is `Spawn.shellCommand`. The callback runs after the handler
has returned; `args` and `cmd` are what the callback prints. -/
inductive Spawn where
  | deleteFile (path : Path) (args cmd : Str)
  | deleteDirectory (path : Path) (args cmd : Str)
  /-- The process that the user command `/rm` starts. -/
  | userDeleteFile (path : Path) (args : Str)
  /-- The process that the user command `/rmdir` starts. -/
  | userDeleteDirectory (path : Path) (args : Str)
deriving DecidableEq, Repr

/-- The command line that `exec` hands to the shell for a started process. -/
def Spawn.shellCommand : Spawn → Str
  | Spawn.deleteFile path args _ =>
    recycleCommand "DeleteFile".toList (joinedString path args)
  | Spawn.deleteDirectory path args _ =>
    recycleCommand "DeleteDirectory".toList (joinedString path args)
  | Spawn.userDeleteFile path args =>
    recycleCommand "DeleteFile".toList (joinedString path args)
  | Spawn.userDeleteDirectory path args =>
    recycleCommand "DeleteDirectory".toList (joinedString path args)

/-- What the callback of a started process sends once the process has ended;
`err` tells whether `exec` reported an error. -/
def Spawn.callback : Spawn → Bool → Out
  | Spawn.deleteFile _ args _, true => Out.failedToDelete args
  | Spawn.deleteFile _ _ cmd, false => Out.executedRecycleBin cmd
  | Spawn.deleteDirectory _ args _, true => Out.failedToDelete args
  | Spawn.deleteDirectory _ _ cmd, false => Out.executedRecycleBin cmd
  | Spawn.userDeleteFile _ _, true => Out.recycleBinError
  | Spawn.userDeleteFile _ args, false => Out.movedToRecycleBin args
  | Spawn.userDeleteDirectory _ _, true => Out.recycleBinError
  | Spawn.userDeleteDirectory _ args, false => Out.movedToRecycleBin args

/-- Everything that the callback sends: the callbacks of the user commands
send the prompt after their line, those of the approved operations do not. -/
def Spawn.callbackOut : Spawn → Bool → List Out
  | Spawn.deleteFile path args cmd, err => [(Spawn.deleteFile path args cmd).callback err]
  | Spawn.deleteDirectory path args cmd, err =>
    [(Spawn.deleteDirectory path args cmd).callback err]
  | Spawn.userDeleteFile path args, err =>
    [(Spawn.userDeleteFile path args).callback err, Out.prompt]
  | Spawn.userDeleteDirectory path args, err =>
    [(Spawn.userDeleteDirectory path args).callback err, Out.prompt]

/-! ## The `approvalResponse` handler -/

/-- The local variables of the loop over `pendingFiles`, with the filesystem
and the processes started so far. `visited` lists the actions whose
iteration has begun, in the order of the loop. -/
structure ExecState where
  workingDirectory : Path
  fs : FS
  filesCount : Nat
  opsCount : Nat
  out : List Out
  spawned : List Spawn
  visited : List Action
deriving DecidableEq, Repr

/-- The verb `/cd`. -/
def verbCd : Str := ['/', 'c', 'd']
/-- The verb `/mkdir`. -/
def verbMkdir : Str := ['/', 'm', 'k', 'd', 'i', 'r']
/-- The verb `/touch`. -/
def verbTouch : Str := ['/', 't', 'o', 'u', 'c', 'h']
/-- The verb `/rm`. -/
def verbRm : Str := ['/', 'r', 'm']
/-- The verb `/rmdir`. -/
def verbRmdir : Str := ['/', 'r', 'm', 'd', 'i', 'r']
/-- The verb `/cp`. -/
def verbCp : Str := ['/', 'c', 'p']
/-- The verb `/mv`. -/
def verbMv : Str := ['/', 'm', 'v']

/-- The call `path.join(workingDirectory, arg)` where `arg` is `args[0]` or `args[1]`,
which is `undefined` past the end of `args`: `path.join` then throws. -/
def pathJoinArg (dir : Path) (arg : Option Str) : Except Errno Path :=
  match arg with
  | some a => .ok (pathJoin dir a)
  | none => .error Errno.typeError

/-- The body of the `try` of one operation, before `opsCount++`: the chain of
`if (command === ...)` of the `approvalResponse` handler. An error is what
the `catch` receives; every call that can throw comes first in its branch, so
the state at the `catch` is the state at the start. The branches `/rm` and
`/rmdir` start a process: `exec` is handed the command line
`Spawn.shellCommand` and runs it in a shell. -/
def operationBody (cmd command : Str) (args : List Str) (st : ExecState) :
    Except Errno ExecState :=
  if command = verbCd then
    let targetDir :=
      if args.head? = some ['.', '.'] then pathDirname st.workingDirectory
      else pathResolve st.workingDirectory (join ' ' args)
    if existsSync st.fs targetDir && isDirectory st.fs targetDir then
      .ok { st with workingDirectory := targetDir, out := st.out ++ [Out.executed cmd] }
    else
      .ok { st with out := st.out ++ [Out.directoryNotFound (join ' ' args)] }
  else if command = verbMkdir then
    (mkdirSync st.fs (pathJoin st.workingDirectory (join ' ' args))).map fun fs =>
      { st with fs := fs, out := st.out ++ [Out.executed cmd] }
  else if command = verbTouch then
    (writeFileAt st.fs st.workingDirectory (join ' ' args) []).map fun fs =>
      { st with fs := fs, out := st.out ++ [Out.executed cmd] }
  else if command = verbRm then
    .ok { st with spawned := st.spawned ++
      [Spawn.deleteFile (pathJoin st.workingDirectory (join ' ' args)) (join ' ' args) cmd] }
  else if command = verbRmdir then
    .ok { st with spawned := st.spawned ++
      [Spawn.deleteDirectory (pathJoin st.workingDirectory (join ' ' args)) (join ' ' args) cmd] }
  else if command = verbCp then
    (pathJoinArg st.workingDirectory args[0]?).bind fun source =>
    (pathJoinArg st.workingDirectory args[1]?).bind fun dest =>
    (copyFileSync st.fs source dest).map fun fs =>
      { st with fs := fs, out := st.out ++ [Out.executed cmd] }
  else if command = verbMv then
    (pathJoinArg st.workingDirectory args[0]?).bind fun source =>
    (pathJoinArg st.workingDirectory args[1]?).bind fun dest =>
    (renameSync st.fs source dest).map fun fs =>
      { st with fs := fs, out := st.out ++ [Out.executed cmd] }
  else
    .ok { st with out := st.out ++ [Out.unknownOperation cmd] }

/-- The branch `action.type === 'operation'` of the loop: the command is
trimmed and split on single spaces, the `try` runs `operationBody` and counts
the operation, and the `catch` prints the error. -/
def runOperation (rawCommand : Str) (st : ExecState) : ExecState :=
  let cmd := trim rawCommand
  let parts := split ' ' cmd
  let command := toLowerCase (parts.headD [])
  let args := parts.tail
  match operationBody cmd command args st with
  | .ok st1 => { st1 with opsCount := st1.opsCount + 1 }
  | .error e => { st with out := st.out ++ [Out.errorExecuting cmd e] }

/-- One iteration of `for (const action of pendingFiles)`. The write of a
file stands outside every `try`: an error of `writeFileSync` leaves the loop
and the handler, with the state as it was before the write. -/
def runAction (action : Action) (st : ExecState) : Except (Errno × ExecState) ExecState :=
  let st0 := { st with visited := st.visited ++ [action] }
  match action with
  | Action.file name content =>
    match writeFileAt st0.fs st0.workingDirectory name content with
    | .ok fs =>
      .ok { st0 with fs := fs, out := st0.out ++ [Out.saved name], filesCount := st0.filesCount + 1 }
    | .error e => .error (e, st0)
  | Action.operation command => .ok (runOperation command st0)

/-- The loop `for (const action of pendingFiles)`. -/
def runBatch : List Action → ExecState → Except (Errno × ExecState) ExecState
  | [], st => .ok st
  | a :: rest, st =>
    match runAction a st with
    | .ok st1 => runBatch rest st1
    | .error e => .error e

/-- What a handler leaves behind: the session variables, the filesystem, the
events sent to the client, the processes started, and the error that left the
handler uncaught, if one did. -/
structure Result where
  session : Session
  fs : FS
  out : List Out
  spawned : List Spawn
  thrown : Option Errno
  visited : List Action
deriving DecidableEq, Repr

/-- The state of the loop at its start: `filesCount = 0`, `opsCount = 0`. -/
def ExecState.init (s : Session) (fs : FS) : ExecState :=
  { workingDirectory := s.workingDirectory, fs := fs, filesCount := 0, opsCount := 0,
    out := [], spawned := [], visited := [] }

/-- The handler `socket.on('approvalResponse', ({ approved }) => ...)`. When
a file write throws, the lines after the loop are not reached: no summary,
`pendingFiles` is not cleared and no prompt is sent. -/
def approvalResponse (approved : Bool) (s : Session) (fs : FS) : Result :=
  if approved then
    match runBatch s.pendingFiles (ExecState.init s fs) with
    | .ok st =>
      { session := { s with workingDirectory := st.workingDirectory, pendingFiles := [] },
        fs := st.fs,
        out := (if st.filesCount > 0 ∨ st.opsCount > 0
                then st.out ++ [Out.completed st.filesCount st.opsCount] else st.out)
               ++ [Out.prompt],
        spawned := st.spawned, thrown := none, visited := st.visited }
    | .error (e, st) =>
      { session := { s with workingDirectory := st.workingDirectory },
        fs := st.fs, out := st.out, spawned := st.spawned, thrown := some e,
        visited := st.visited }
  else
    { session := { s with pendingFiles := [] }, fs := fs,
      out := [Out.cancelled, Out.prompt], spawned := [], thrown := none, visited := [] }

/-! ## The model turn of the `command` handler -/

/-- The mode `agent`. -/
def modeAgent : Str := ['a', 'g', 'e', 'n', 't']

/-- The files found by the loop over `fileRegex.exec(aiText)`: both groups
trimmed. -/
def extractFiles (aiText : Str) : List Action :=
  (execAll fileRegex 0 0 aiText).map fun m => Action.file (trim m.groups.1) (trim m.groups.2)

/-- The operations found by the loop over `operationRegex.exec(aiText)`. -/
def extractOperations (aiText : Str) : List Action :=
  (execAll operationRegex 0 0 aiText).map fun m => Action.operation (trim m.groups)

/-- The text `aiText.replace(fileRegex, '').replace(operationRegex, '')`. -/
def cleanText (aiText : Str) : Str :=
  replaceAll operationRegex 0 (replaceAll fileRegex 0 aiText)

/-- The array `[...operations, ...files]`: what the handler stores in `pendingFiles`. -/
def stagedBatch (aiText : Str) : List Action :=
  extractOperations aiText ++ extractFiles aiText

/-- The `command` handler on a line that does not start with `/`, from the
answer of the model on: `response` is the text `response.data.response`, or
the message of the error that `axios.post` or the code after it threw. The
handler calls no function of `fs` on this path, so the filesystem is passed
through as it is. -/
def commandModelTurn (s : Session) (fs : FS) (response : Except Str Str) : Result :=
  match response with
  | .error message =>
    { session := s, fs := fs,
      out := [Out.thinking, Out.connectError message, Out.prompt],
      spawned := [], thrown := none, visited := [] }
  | .ok rawText =>
    let thinkOut := (execAll thinkRegex 0 0 rawText).map fun m => Out.reasoning (trim m.groups)
    let aiText := replaceAll thinkRegex 0 rawText
    if s.currentMode = modeAgent then
      let files := extractFiles aiText
      let operations := extractOperations aiText
      if files.length + operations.length > 0 then
        let clean := cleanText aiText
        let pending := operations ++ files
        { session := { s with pendingFiles := pending }, fs := fs,
          out := [Out.thinking] ++ thinkOut
            ++ (if trim clean ≠ [] then [Out.cleanText clean] else [])
            ++ [Out.actionsDetected, Out.approvalRequest pending],
          spawned := [], thrown := none, visited := [] }
      else
        { session := s, fs := fs,
          out := [Out.thinking] ++ thinkOut ++ [Out.modelText aiText, Out.prompt],
          spawned := [], thrown := none, visited := [] }
    else
      { session := s, fs := fs,
        out := [Out.thinking] ++ thinkOut ++ [Out.modelText aiText, Out.prompt],
        spawned := [], thrown := none, visited := [] }

/-! ## The user command `/cd` of the `command` handler -/

/-- The branch `if (command === '/cd')` of the `command` handler, which a line
that starts with `/` reaches when its lower-cased first token is `/cd`;
`args` is `parts.slice(1)` for `parts = cmd.trim().split(' ')`. Without
arguments the usage line is sent; otherwise the target is found as in the
approved operation, and the working directory changes when the target is a
directory. The prompt follows in every case. -/
def commandCd (s : Session) (fs : FS) (args : List Str) : Result :=
  if args.length = 0 then
    { session := s, fs := fs,
      out := [Out.usage ['/', 'c', 'd', ' ', '<', 'd', 'i', 'r', 'e', 'c', 't', 'o', 'r', 'y', '>'],
              Out.prompt],
      spawned := [], thrown := none, visited := [] }
  else
    let targetDir :=
      if args.head? = some ['.', '.'] then pathDirname s.workingDirectory
      else pathResolve s.workingDirectory (join ' ' args)
    if existsSync fs targetDir && isDirectory fs targetDir then
      { session := { s with workingDirectory := targetDir }, fs := fs,
        out := [Out.changedTo targetDir, Out.prompt],
        spawned := [], thrown := none, visited := [] }
    else
      { session := s, fs := fs,
        out := [Out.userDirectoryNotFound, Out.prompt],
        spawned := [], thrown := none, visited := [] }

/-- The command `/cd ..`. -/
def cdUp : Str := ['/', 'c', 'd', ' ', '.', '.']

/-- The literal `<<<END>>>` at the head of the text, in the shape of a regex:
a text in which it matches nowhere has no end marker. -/
def endRegex (s : Str) : Option (Unit × Str) :=
  (dropPrefix? fileEnd s).map fun rest => ((), rest)

/-- The unterminated start marker `<<<FILE: name>>>`. -/
def fileStart (name : Str) : Str := fileOpen ++ (name ++ markClose)

/-- The verbs that the loop of `approvalResponse` knows. -/
def knownVerbs : List Str :=
  [verbCd, verbMkdir, verbTouch, verbRm, verbRmdir, verbCp, verbMv]

/-! ## Texts without matches, and sample data -/

/-- No match of `re` starts inside `pre` when `pre` is followed by `rest`. -/
def NoMatch {α : Type} (re : Str → Option (α × Str)) : Str → Str → Prop
  | [], _ => True
  | c :: pre, rest => re (c :: (pre ++ rest)) = none ∧ NoMatch re pre rest

/-- The directory `/w`. -/
def sampleDir : Path := ["w".toList]

/-- A filesystem with the directories `/`, `/w`, `/w/site` and `/w/site/img`. -/
def sampleFs : FS :=
  [([], Node.dir), (["w".toList], Node.dir), (["w".toList, "site".toList], Node.dir),
   (["w".toList, "site".toList, "img".toList], Node.dir)]

/-! ## Well-formed texts -/

/-- The directive `<<<FILE: name>>>body<<<END>>>` of the agent prompt. -/
def fileDirective (name body : Str) : Str :=
  fileOpen ++ (name ++ (markClose ++ (body ++ fileEnd)))

/-- The directive `<<<OPERATION: command>>>` of the agent prompt. -/
def operationDirective (command : Str) : Str :=
  opOpen ++ (command ++ markClose)

/-- A piece of a model text: prose, a file-write directive or an operation
directive. -/
inductive Piece where
  | prose (text : Str)
  | file (name body : Str)
  | operation (command : Str)
deriving DecidableEq, Repr

/-- The characters of a piece. -/
def Piece.render : Piece → Str
  | Piece.prose text => text
  | Piece.file name body => fileDirective name body
  | Piece.operation command => operationDirective command

/-- The text made of the pieces, one after the other. -/
def renderPieces : List Piece → Str
  | [] => []
  | p :: ps => p.render ++ renderPieces ps

/-- Prose or a file body that cannot be read as part of a marker: it has no
`<<<` in it and no `<` at its end. -/
def PlainText (s : Str) : Prop :=
  ¬ ['<', '<', '<'] <:+: s ∧ s.getLast? ≠ some '<'

instance (s : Str) : Decidable (PlainText s) := by
  unfold PlainText
  infer_instance

/-- A file name or a command that cannot be read as part of a marker: it has
no `<`, no `>` and no line terminator. -/
def PlainName (s : Str) : Prop :=
  ∀ c ∈ s, c ≠ '<' ∧ c ≠ '>' ∧ isLineTerminator c = false

instance (s : Str) : Decidable (PlainName s) := by
  unfold PlainName
  infer_instance

/-- A piece whose parts are plain. -/
def Piece.WellFormed : Piece → Prop
  | Piece.prose text => PlainText text
  | Piece.file name body => PlainName name ∧ PlainText body
  | Piece.operation command => PlainName command

instance (p : Piece) : Decidable p.WellFormed := by
  cases p <;> unfold Piece.WellFormed <;> infer_instance

/-- The prose pieces of a text. -/
def Piece.isProse : Piece → Bool
  | Piece.prose _ => true
  | _ => false

/-- The operation actions that the directives of the pieces stand for. -/
def piecesOperations : List Piece → List Action
  | [] => []
  | Piece.operation command :: ps => Action.operation (trim command) :: piecesOperations ps
  | Piece.prose _ :: ps => piecesOperations ps
  | Piece.file _ _ :: ps => piecesOperations ps

/-- The file-write actions that the directives of the pieces stand for. -/
def piecesFiles : List Piece → List Action
  | [] => []
  | Piece.file name body :: ps => Action.file (trim name) (trim body) :: piecesFiles ps
  | Piece.prose _ :: ps => piecesFiles ps
  | Piece.operation _ :: ps => piecesFiles ps

/-- The pieces without the file-write directives. -/
def withoutFiles : List Piece → List Piece
  | [] => []
  | Piece.file _ _ :: ps => withoutFiles ps
  | Piece.prose text :: ps => Piece.prose text :: withoutFiles ps
  | Piece.operation command :: ps => Piece.operation command :: withoutFiles ps

/-- The prose of the pieces, one text after the other. -/
def proseOf : List Piece → Str
  | [] => []
  | Piece.prose text :: ps => text ++ proseOf ps
  | Piece.file _ _ :: ps => proseOf ps
  | Piece.operation _ :: ps => proseOf ps

/-- A plain name of a file or directory: one path segment other than `.` and
`..`, without white space and without `<` or `>`. -/
def PlainSegment (s : Str) : Prop :=
  s ≠ [] ∧ s ≠ ['.'] ∧ s ≠ ['.', '.'] ∧
  ∀ c ∈ s, c ≠ '/' ∧ c ≠ '<' ∧ c ≠ '>' ∧ isJsWhitespace c = false

instance (s : Str) : Decidable (PlainSegment s) := by
  unfold PlainSegment
  infer_instance

/-- The command `/cd dir`. -/
def cdCommand (dir : Str) : Str := ['/', 'c', 'd', ' '] ++ dir

/-- The pieces that are no file-write directive. -/
def Piece.notFile : Piece → Bool
  | Piece.file _ _ => false
  | Piece.prose _ => true
  | Piece.operation _ => true


/-! ## The slash commands of the `command` handler -/

/-- The call `fs.statSync(p).isFile()` for an existing `p`. -/
def isFile (fs : FS) (p : Path) : Bool :=
  match fs.get p with
  | some (Node.file _) => true
  | some Node.dir => false
  | none => false

/-- The call `fs.readFileSync(p, 'utf-8')`. -/
def readFileSync (fs : FS) (p : Path) : Except Errno Str :=
  match fs.get p with
  | some (Node.file content) => .ok content
  | some Node.dir => .error Errno.EISDIR
  | none => .error Errno.ENOENT

/-- The call `fs.statSync(p).isDirectory()`, which throws when `p` does not exist. -/
def statSync (fs : FS) (p : Path) : Except Errno Bool :=
  match fs.get p with
  | some Node.dir => .ok true
  | some (Node.file _) => .ok false
  | none => .error Errno.ENOENT

/-- The order of `strcmp` on names, which is the order of their code points:
`a` comes before `b` or is `b`. -/
def nameLe : Str → Str → Bool
  | [], _ => true
  | _ :: _, [] => false
  | a :: as, b :: bs =>
    if a.toNat < b.toNat then true
    else if b.toNat < a.toNat then false
    else nameLe as bs

/-- The call `fs.readdirSync(dir)`: the names directly below `dir`, each once,
in the order of `strcmp`, in which `scandir` hands them over. -/
def readdirSync (fs : FS) (dir : Path) : Except Errno (List Str) :=
  match fs.get dir with
  | some Node.dir =>
    .ok ((fs.filterMap fun e =>
      if e.1 ≠ [] ∧ e.1.dropLast = dir then e.1.getLast? else none).dedup.insertionSort
        fun a b => nameLe a b = true)
  | some (Node.file _) => .error Errno.ENOTDIR
  | none => .error Errno.ENOENT

/-- The call `path.basename(dir)` for a normalised absolute `dir`. -/
def pathBasename (dir : Path) : Str := dir.getLast?.getD []

/-- What a branch of the slash commands leaves behind when it ends without an
error: nothing is started and nothing is thrown. -/
def reply (s : Session) (fs : FS) (out : List Out) : Result :=
  { session := s, fs := fs, out := out, spawned := [], thrown := none, visited := [] }

/-- The `catch` of the slash commands, after the lines `out` were sent: the
error line and the prompt. Every call that can throw comes before the first
change of its branch, so the session and the filesystem are those of the
start. -/
def caught (s : Session) (fs : FS) (out : List Out) (e : Errno) : Result :=
  reply s fs (out ++ [Out.commandError e, Out.prompt])

/-- The loop `files.forEach(file => ...)` of `/ls` and of `/find`: each name
is looked up with `statSync` and one line is sent for it. An error of
`statSync` leaves the loop with the lines sent so far. -/
def listEntries (fs : FS) (dir : Path) (line : Bool → Str → Out) :
    List Str → List Out → Except (Errno × List Out) (List Out)
  | [], out => .ok out
  | file :: rest, out =>
    match statSync fs (pathJoin dir file) with
    | .ok isDir => listEntries fs dir line rest (out ++ [line isDir file])
    | .error e => .error (e, out)

/-- The branch `/pwd`. -/
def commandPwd (s : Session) (fs : FS) : Result :=
  reply s fs [Out.pwd s.workingDirectory, Out.prompt]

/-- The branch `/ls`, `/files`. -/
def commandLs (s : Session) (fs : FS) : Result :=
  match readdirSync fs s.workingDirectory with
  | .error e => caught s fs [] e
  | .ok files =>
    match listEntries fs s.workingDirectory Out.entry files
        [Out.filesIn (pathBasename s.workingDirectory)] with
    | .ok out => reply s fs (out ++ [Out.blank, Out.prompt])
    | .error (e, out) => caught s fs out e

/-- The branch `/mkdir`. -/
def commandMkdir (s : Session) (fs : FS) (args : List Str) : Result :=
  if args.length = 0 then
    reply s fs [Out.usage "/mkdir <directory_name>".toList, Out.prompt]
  else
    match mkdirSync fs (pathJoin s.workingDirectory (join ' ' args)) with
    | .ok fs1 => reply s fs1 [Out.created (join ' ' args), Out.prompt]
    | .error e => caught s fs [] e

/-- The branch `/cat`, `/view`. -/
def commandCat (s : Session) (fs : FS) (args : List Str) : Result :=
  if args.length = 0 then
    reply s fs [Out.usage "/cat <filename>".toList, Out.prompt]
  else
    let filePath := pathJoin s.workingDirectory (join ' ' args)
    if existsSync fs filePath && isFile fs filePath then
      match readFileSync fs filePath with
      | .ok content =>
        reply s fs [Out.viewHeader (join ' ' args), Out.viewContent content, Out.viewFooter,
          Out.prompt]
      | .error e => caught s fs [] e
    else
      reply s fs [Out.fileNotFound, Out.prompt]

/-- The branch `/clear`, `/cls`. -/
def commandClear (s : Session) (fs : FS) : Result :=
  reply s fs [Out.clearScreen, Out.prompt]

/-- The branch `/touch`. -/
def commandTouch (s : Session) (fs : FS) (args : List Str) : Result :=
  if args.length = 0 then
    reply s fs [Out.usage "/touch <filename>".toList, Out.prompt]
  else
    match writeFileAt fs s.workingDirectory (join ' ' args) [] with
    | .ok fs1 => reply s fs1 [Out.created (join ' ' args), Out.prompt]
    | .error e => caught s fs [] e

/-- The branch `/cp`, `/copy`; `source :: dest :: _` are the lists `args` with
`args.length < 2` false, and then `args[0]` is `source` and `args[1]` is `dest`. -/
def commandCp (s : Session) (fs : FS) : List Str → Result
  | source :: dest :: _ =>
    let srcPath := pathJoin s.workingDirectory source
    let destPath := pathJoin s.workingDirectory dest
    if existsSync fs srcPath then
      match copyFileSync fs srcPath destPath with
      | .ok fs1 => reply s fs1 [Out.copied source dest, Out.prompt]
      | .error e => caught s fs [] e
    else
      reply s fs [Out.sourceNotFound, Out.prompt]
  | [_] => reply s fs [Out.usage "/cp <source> <destination>".toList, Out.prompt]
  | [] => reply s fs [Out.usage "/cp <source> <destination>".toList, Out.prompt]

/-- The branch `/mv`, `/move`, `/rename`. -/
def commandMv (s : Session) (fs : FS) : List Str → Result
  | source :: dest :: _ =>
    let srcPath := pathJoin s.workingDirectory source
    let destPath := pathJoin s.workingDirectory dest
    if existsSync fs srcPath then
      match renameSync fs srcPath destPath with
      | .ok fs1 => reply s fs1 [Out.moved source dest, Out.prompt]
      | .error e => caught s fs [] e
    else
      reply s fs [Out.sourceNotFound, Out.prompt]
  | [_] => reply s fs [Out.usage "/mv <source> <destination>".toList, Out.prompt]
  | [] => reply s fs [Out.usage "/mv <source> <destination>".toList, Out.prompt]

/-- The branch `/find`, `/search`: the names of the working directory that
contain the lower-cased pattern. Pattern and names are lower-cased by
`toLowerCase`, which is exact on ASCII text only. -/
def commandFind (s : Session) (fs : FS) (args : List Str) : Result :=
  if args.length = 0 then
    reply s fs [Out.usage "/find <pattern>".toList, Out.prompt]
  else
    let pattern := toLowerCase (join ' ' args)
    match readdirSync fs s.workingDirectory with
    | .error e => caught s fs [] e
    | .ok files =>
      let found := files.filter fun f => decide (pattern <:+: toLowerCase f)
      if found.length = 0 then
        reply s fs [Out.searchResults pattern, Out.noMatches, Out.blank, Out.prompt]
      else
        match listEntries fs s.workingDirectory Out.found found
            [Out.searchResults pattern] with
        | .ok out => reply s fs (out ++ [Out.blank, Out.prompt])
        | .error (e, out) => caught s fs out e

/-- The branch `/echo`. -/
def commandEcho (s : Session) (fs : FS) (args : List Str) : Result :=
  reply s fs [Out.echo (join ' ' args), Out.prompt]

/-- How a run of `showTree` ends: it is still descending when the allowed depth
of recursion is used up, it throws after the lines `out` were sent, or it
returns after the lines `out` were sent. -/
inductive TreeRun where
  | outOfFuel
  | thrown (e : Errno) (out : List Out)
  | done (out : List Out)
deriving DecidableEq, Repr

/-- The loop `files.forEach((file, index) => ...)` of `showTree(dir, indent)`
over the names not yet visited; `descend` is the recursive call of `showTree`.
The name is looked up with `statSync`, its line is sent, and `showTree`
descends into it when it is a directory whose name is neither `node_modules`
nor `.git`. The name is the last one when no name follows it. -/
def showTreeLoop (stat : Path → Except Errno Bool)
    (descend : Path → Str → List Out → TreeRun) (dir : Path) (indent : Str) :
    List Str → List Out → TreeRun
  | [], out => TreeRun.done out
  | file :: rest, out =>
    match stat (pathJoin dir file) with
    | .error e => TreeRun.thrown e out
    | .ok isDir =>
      if isDir = true ∧ file ≠ "node_modules".toList ∧ file ≠ ".git".toList then
        match descend (pathJoin dir file)
            (indent ++ (if rest.isEmpty then "    ".toList else "│   ".toList))
            (out ++ [Out.treeLine indent rest.isEmpty isDir file]) with
        | TreeRun.done out1 => showTreeLoop stat descend dir indent rest out1
        | TreeRun.thrown e out1 => TreeRun.thrown e out1
        | TreeRun.outOfFuel => TreeRun.outOfFuel
      else
        showTreeLoop stat descend dir indent rest
          (out ++ [Out.treeLine indent rest.isEmpty isDir file])

/-- The function `showTree(dir, indent)` of `/tree`, over what `readdirSync`
and `statSync` answer (both follow symbolic links), with the lines sent so
far. The first argument bounds the depth of the recursion; the function of
the source has no such bound, and keeps no record of the directories it has
visited. -/
def showTree (readdir : Path → Except Errno (List Str)) (stat : Path → Except Errno Bool) :
    Nat → Path → Str → List Out → TreeRun
  | 0, _, _, _ => TreeRun.outOfFuel
  | fuel + 1, dir, indent, out =>
    match readdir dir with
    | .error e => TreeRun.thrown e out
    | .ok files => showTreeLoop stat (showTree readdir stat fuel) dir indent files out

/-- The branch `/tree`, over what `readdirSync` and `statSync` answer; no
result when `showTree` is still descending at depth `fuel`. An error that
`showTree` throws reaches the `catch` of the slash commands. -/
def commandTreeWith (readdir : Path → Except Errno (List Str))
    (stat : Path → Except Errno Bool) (fuel : Nat) (s : Session) (fs : FS) : Option Result :=
  match showTree readdir stat fuel s.workingDirectory []
      [Out.treeHeader, Out.treeRoot (pathBasename s.workingDirectory)] with
  | TreeRun.outOfFuel => none
  | TreeRun.thrown e out => some (caught s fs out e)
  | TreeRun.done out => some (reply s fs (out ++ [Out.blank, Out.prompt]))

/-- The branch `/tree` on the modelled filesystem, which has no links. -/
def commandTree (fuel : Nat) (s : Session) (fs : FS) : Option Result :=
  commandTreeWith (readdirSync fs) (statSync fs) fuel s fs

/-- The branch `/rm`, `/del`: for an existing file the PowerShell call that
sends it to the Recycle Bin is started (`exec` runs the command line
`Spawn.shellCommand` in a shell) and the handler returns; the callback sends
the outcome and the prompt. -/
def commandRm (s : Session) (fs : FS) (args : List Str) : Result :=
  if args.length = 0 then
    reply s fs [Out.usage "/rm <filename>".toList, Out.prompt]
  else
    let filePath := pathJoin s.workingDirectory (join ' ' args)
    if existsSync fs filePath && isFile fs filePath then
      { session := s, fs := fs, out := [],
        spawned := [Spawn.userDeleteFile filePath (join ' ' args)],
        thrown := none, visited := [] }
    else
      reply s fs [Out.fileNotFound, Out.prompt]

/-- The branch `/rmdir`, for an existing directory. -/
def commandRmdir (s : Session) (fs : FS) (args : List Str) : Result :=
  if args.length = 0 then
    reply s fs [Out.usage "/rmdir <directory>".toList, Out.prompt]
  else
    let dirPath := pathJoin s.workingDirectory (join ' ' args)
    if existsSync fs dirPath && isDirectory fs dirPath then
      { session := s, fs := fs, out := [],
        spawned := [Spawn.userDeleteDirectory dirPath (join ' ' args)],
        thrown := none, visited := [] }
    else
      reply s fs [Out.userDirectoryNotFound, Out.prompt]

/-- The branch `/help`, `/?`. -/
def commandHelp (s : Session) (fs : FS) : Result :=
  reply s fs [Out.help, Out.prompt]

/-- The end of the chain: no branch took the command, whose lower case is
shown; `token` is `parts[0]`. -/
def commandUnknown (s : Session) (fs : FS) (token : Str) : Result :=
  reply s fs [Out.unknownCommand token, Out.helpHint, Out.prompt]

/-- The part `if (cmd.startsWith('/')) { ... }` of the `command` handler, for
a line that starts with `/`: the line is trimmed and split on single spaces,
the first token is lower-cased, and the chain of `if (command === ...)`
runs; every branch returns from the handler. -/
def commandSlash (fuel : Nat) (s : Session) (fs : FS) (cmd : Str) : Option Result :=
  let parts := split ' ' (trim cmd)
  let command := toLowerCase (parts.headD [])
  let args := parts.tail
  if command = "/pwd".toList then some (commandPwd s fs)
  else if command = "/ls".toList ∨ command = "/files".toList then some (commandLs s fs)
  else if command = verbCd then some (commandCd s fs args)
  else if command = verbMkdir then some (commandMkdir s fs args)
  else if command = "/cat".toList ∨ command = "/view".toList then some (commandCat s fs args)
  else if command = "/clear".toList ∨ command = "/cls".toList then some (commandClear s fs)
  else if command = verbTouch then some (commandTouch s fs args)
  else if command = verbCp ∨ command = "/copy".toList then some (commandCp s fs args)
  else if command = verbMv ∨ command = "/move".toList ∨ command = "/rename".toList then
    some (commandMv s fs args)
  else if command = "/find".toList ∨ command = "/search".toList then
    some (commandFind s fs args)
  else if command = "/echo".toList then some (commandEcho s fs args)
  else if command = "/tree".toList then commandTree fuel s fs
  else if command = verbRm ∨ command = "/del".toList then some (commandRm s fs args)
  else if command = verbRmdir then some (commandRmdir s fs args)
  else if command = "/help".toList ∨ command = "/?".toList then some (commandHelp s fs)
  else some (commandUnknown s fs (parts.headD []))

/-- The handler `socket.on('command', async (cmd) => ...)`: a line that starts
with `/` is a slash command, every other line goes to the model, whose answer
is `response`. -/
def command (fuel : Nat) (s : Session) (fs : FS) (cmd : Str) (response : Except Str Str) :
    Option Result :=
  if cmd.head? = some '/' then commandSlash fuel s fs cmd
  else some (commandModelTurn s fs response)

/-- The verbs and aliases that the chain of the slash commands knows. -/
def userVerbs : List Str :=
  ["/pwd".toList, "/ls".toList, "/files".toList, verbCd, verbMkdir, "/cat".toList,
   "/view".toList, "/clear".toList, "/cls".toList, verbTouch, verbCp, "/copy".toList,
   verbMv, "/move".toList, "/rename".toList, "/find".toList, "/search".toList,
   "/echo".toList, "/tree".toList, verbRm, "/del".toList, verbRmdir, "/help".toList,
   "/?".toList]

/-- The first token of a line as it was typed: `parts[0]`. -/
def tokenOf (cmd : Str) : Str := (split ' ' (trim cmd)).headD []

/-- The first token of a line, lower-cased: `parts[0].toLowerCase()`. -/
def commandOf (cmd : Str) : Str := toLowerCase ((split ' ' (trim cmd)).headD [])

/-- The tokens after the first: `parts.slice(1)`. -/
def argsOf (cmd : Str) : List Str := (split ' ' (trim cmd)).tail

/-- The usage line of each verb that takes arguments, and the number of
arguments below which the verb sends it. -/
def usageOf (command : Str) : Option (Str × Nat) :=
  if command = verbCd then some ("/cd <directory>".toList, 1)
  else if command = verbMkdir then some ("/mkdir <directory_name>".toList, 1)
  else if command = "/cat".toList then some ("/cat <filename>".toList, 1)
  else if command = verbTouch then some ("/touch <filename>".toList, 1)
  else if command = "/find".toList then some ("/find <pattern>".toList, 1)
  else if command = verbRm then some ("/rm <filename>".toList, 1)
  else if command = verbRmdir then some ("/rmdir <directory>".toList, 1)
  else if command = verbCp then some ("/cp <source> <destination>".toList, 2)
  else if command = verbMv then some ("/mv <source> <destination>".toList, 2)
  else none

/-! ## The mode of a connection -/

/-- The mode `chat`. -/
def modeChat : Str := ['c', 'h', 'a', 't']

/-- The variables of a new connection: `currentMode = 'chat'`,
`workingDirectory = __dirname`, `pendingFiles = []`. -/
def connection (dirname : Path) : Session :=
  { currentMode := modeChat, workingDirectory := dirname, pendingFiles := [] }

/-- The handler `socket.on('switchMode', (newMode) => { currentMode = newMode; })`. -/
def switchMode (s : Session) (newMode : Str) : Session :=
  { s with currentMode := newMode }

/-- A directory `/w` that holds one name, `loop`, a symbolic link to `/w`
itself: what `readdirSync` answers for `/w`, `/w/loop`, `/w/loop/loop`, ...
The system follows at most 40 links on one path (the limit of Linux) and
answers `ELOOP` beyond that. -/
def loopReaddir (p : Path) : Except Errno (List Str) :=
  if p.head? = some "w".toList ∧ p.tail.all (fun x => decide (x = "loop".toList)) = true then
    if p.tail.length ≤ 40 then .ok ["loop".toList] else .error Errno.ELOOP
  else .error Errno.ENOENT

/-- What `statSync(p).isDirectory()` answers in the directory with the link
`loop`: a path `/w/loop/.../loop` with at most 40 links is the directory
`/w`, and a longer one is refused with `ELOOP`. -/
def loopStat (p : Path) : Except Errno Bool :=
  if p.head? = some "w".toList ∧ p.tail.all (fun x => decide (x = "loop".toList)) = true then
    if p.tail.length ≤ 40 then .ok true else .error Errno.ELOOP
  else .error Errno.ENOENT

/-- The lines that `showTree` sends in the directory with the link `loop`
before `statSync` refuses the path: one line for `loop` at each of the depths
0 to 39, each four columns further in. -/
def loopLines : List Out :=
  (List.range 40).map fun k => Out.treeLine (List.replicate (4 * k) ' ') true true "loop".toList

/-! ## The terminal history of the browser (`public/scripts/terminal.js`) -/

/-- One entry of `terminalHistory`. -/
structure HistoryEntry where
  type : Str
  text : Str
  timestamp : Nat
deriving DecidableEq, Repr

/-- The part `[0-9;]*m` of the colour regex: the star is greedy, and gives
characters back until an `m` follows. -/
def ansiTail : Str → Option Str
  | [] => none
  | c :: s =>
    match (if c.isDigit = true ∨ c = ';' then ansiTail s else none) with
    | some rest => some rest
    | none => if c = 'm' then some s else none

/-- The regex `/\x1b\[[0-9;]*m/` at the head of the text. -/
def ansiRegex (s : Str) : Option (Unit × Str) :=
  (dropPrefix? ['\x1b', '['] s).bind fun r => (ansiTail r).map fun rest => ((), rest)

/-- The regex `/\r\n/` at the head of the text. -/
def crlfRegex (s : Str) : Option (Unit × Str) :=
  (dropPrefix? ['\r', '\n'] s).map fun rest => ((), rest)

/-- The call `text.replace(regex, sub)` for a regex with the `g` flag and a
replacement without patterns. -/
def replaceAllBy {α : Type} (re : Str → Option (α × Str)) (sub : Str) : Nat → Str → Str
  | _, [] => []
  | skip + 1, _ :: s => replaceAllBy re sub skip s
  | 0, c :: s =>
    match re (c :: s) with
    | some (_, rest) => sub ++ replaceAllBy re sub (s.length - rest.length) s
    | none => c :: replaceAllBy re sub 0 s

/-- The text `data.replace(/\x1b\[[0-9;]*m/g, '').replace(/\r\n/g, '\n').trim()`. -/
def cleanData (data : Str) : Str :=
  trim (replaceAllBy crlfRegex ['\n'] 0 (replaceAll ansiRegex 0 data))

/-- The history after the `push` of the handler of `termOutput`: an entry is
added unless the cleaned text is empty or is the prompt `$`. -/
def termOutputPush (history : List HistoryEntry) (data : Str) (now : Nat) :
    List HistoryEntry :=
  if cleanData data ≠ [] ∧ cleanData data ≠ ['$'] then
    history ++ [{ type := "output".toList, text := cleanData data, timestamp := now }]
  else history

/-- The handler `socket.on('termOutput', (data) => ...)` on `terminalHistory`;
`now` is `Date.now()`. After the `push`, `splice(0, length - 100)` removes the
oldest entries of a history of more than 100. -/
def termOutput (history : List HistoryEntry) (data : Str) (now : Nat) : List HistoryEntry :=
  let pushed := termOutputPush history data now
  if pushed.length > 100 then pushed.drop (pushed.length - 100) else pushed

/-! ## The chat store of the browser (`public/scripts/storage.js`) -/

/-- One chat of the store; `createdAt` is a time stamp of `Date.now()`, a
whole number far below the range where numbers of the script lose
precision. -/
structure Chat where
  id : Str
  createdAt : Nat
  messages : List Str
  mode : Str
  terminalHistory : List HistoryEntry
deriving DecidableEq, Repr

/-- The object kept under `STORAGE_KEY`. The object `chats` is the list of
its keys with their values, in the order of `Object.keys`. -/
structure StorageData where
  chats : List (Str × Chat)
  currentChatId : Option Str
  currentMode : Str
deriving DecidableEq, Repr

/-- The item of `localStorage` under `STORAGE_KEY`: the object that its text
parses to, or nothing when the item is absent or does not parse. -/
abbrev LocalStorage := Option StorageData

/-- The function `loadFromStorage()`. -/
def loadFromStorage (store : LocalStorage) : StorageData :=
  match store with
  | some data => data
  | none => { chats := [], currentChatId := none, currentMode := modeChat }

/-- The function `saveToStorage(data)`, for a `setItem` that succeeds. -/
def saveToStorage (_store : LocalStorage) (data : StorageData) : LocalStorage := some data

/-- The expression `data.chats[chatId]`: `none` stands for `undefined`. -/
def chatsGet (chats : List (Str × Chat)) (chatId : Str) : Option Chat :=
  (chats.find? fun e => e.1 = chatId).map Prod.snd

/-- The statement `delete data.chats[chatId]`. -/
def chatsDelete (chats : List (Str × Chat)) (chatId : Str) : List (Str × Chat) :=
  chats.filter fun e => ¬ e.1 = chatId

/-- What `deleteChatFromStorage` returns: `null`, or the new current chat. -/
structure DeleteResult where
  chatId : Str
  chat : Option Chat
deriving DecidableEq, Repr

/-- The function `deleteChatFromStorage(chatId)`: the store it leaves and the
value it returns; `freshId` is what `generateChatId()` gives. The two
branches for the current chat return before `saveToStorage(data)` is
reached, so the store stays as it was. -/
def deleteChatFromStorage (store : LocalStorage) (chatId freshId : Str) :
    LocalStorage × Option DeleteResult :=
  let data := loadFromStorage store
  let data1 := { data with chats := chatsDelete data.chats chatId }
  if some chatId = data1.currentChatId then
    match data1.chats with
    | (first, _) :: _ =>
      let data2 := { data1 with currentChatId := some first }
      (store, some { chatId := first, chat := chatsGet data2.chats first })
    | [] => (store, some { chatId := freshId, chat := none })
  else
    (saveToStorage store data1, none)

/-- The function `getAllChats()`: the chats, newest first. -/
def getAllChats (store : LocalStorage) : List Chat :=
  ((loadFromStorage store).chats.map Prod.snd).insertionSort
    fun a b => b.createdAt ≤ a.createdAt

/-- The function `getChat(chatId)`. -/
def getChat (store : LocalStorage) (chatId : Str) : Option Chat :=
  chatsGet (loadFromStorage store).chats chatId

/-- A store with the chats `a` and `b`, of which `a` is the current one. -/
def sampleStore : LocalStorage :=
  some { chats := [("a".toList, ⟨"a".toList, 2, [], modeChat, []⟩),
                   ("b".toList, ⟨"b".toList, 1, [], modeChat, []⟩)],
         currentChatId := some "a".toList, currentMode := modeChat }

/-- A filesystem whose names are names: no path has an empty segment, a
segment `.` or `..`, or a segment with `/` in it. Such a filesystem is a tree
without links: no directory lies below itself. -/
def FS.PlainNames (fs : FS) : Prop :=
  ∀ e ∈ fs, ∀ seg ∈ e.1, seg ≠ [] ∧ seg ≠ ['.'] ∧ seg ≠ ['.', '.'] ∧ '/' ∉ seg

instance (fs : FS) : Decidable (FS.PlainNames fs) := by
  unfold FS.PlainNames
  infer_instance

/-- The length of the longest path of the filesystem. -/
def FS.depth (fs : FS) : Nat := (fs.map fun e => e.1.length).foldr max 0

/-! ## Lemmas -/

/-! ### The filesystem and the loop over the batch -/

theorem FS.get_set_self (fs : FS) (p : Path) (n : Node) : (fs.set p n).get p = some n := by
  simp [FS.get, FS.set]

theorem FS.get_set_of_ne (fs : FS) (p q : Path) (n : Node) (h : q ≠ p) :
    (fs.set p n).get q = fs.get q := by
  have hp : p ≠ q := fun e => h e.symm
  have hfun : (fun a : Path × Node => !decide (a.1 = p) && decide (a.1 = q))
      = (fun e => decide (e.1 = q)) := by
    funext a
    by_cases hq : a.1 = q
    · have : a.1 ≠ p := fun e' => h (hq.symm.trans e')
      simp [hq, h]
    · simp [hq]
  simp [FS.get, FS.set, List.find?_cons, hp, List.find?_filter, hfun]

/-- Frame of one operation: it leaves `visited` and `filesCount` alone. -/
theorem operationBody_frame (cmd command : Str) (args : List Str) (st st1 : ExecState)
    (h : operationBody cmd command args st = .ok st1) :
    st1.visited = st.visited ∧ st1.filesCount = st.filesCount ∧ st1.opsCount = st.opsCount := by
  simp only [operationBody] at h
  split_ifs at h
  all_goals first
    | (cases h; exact ⟨rfl, rfl, rfl⟩)
    | (cases hm : mkdirSync st.fs (pathJoin st.workingDirectory (join ' ' args)) <;>
        simp [hm, Except.map] at h
       subst h; exact ⟨rfl, rfl, rfl⟩)
    | (cases hm : writeFileAt st.fs st.workingDirectory (join ' ' args) [] <;>
        simp [hm, Except.map] at h
       subst h; exact ⟨rfl, rfl, rfl⟩)
    | (cases h0 : pathJoinArg st.workingDirectory args[0]? <;>
        simp [h0, Except.bind] at h
       cases h1 : pathJoinArg st.workingDirectory args[1]? <;>
        simp [h1, Except.bind] at h
       rename_i a b
       first
        | (cases hm : copyFileSync st.fs a b <;> simp [hm, Except.map] at h
           subst h; exact ⟨rfl, rfl, rfl⟩)
        | (cases hm : renameSync st.fs a b <;> simp [hm, Except.map] at h
           subst h; exact ⟨rfl, rfl, rfl⟩))

theorem runOperation_frame (raw : Str) (st : ExecState) :
    (runOperation raw st).visited = st.visited ∧
    (runOperation raw st).filesCount = st.filesCount := by
  simp only [runOperation]
  split
  · next st1 h => exact ⟨(operationBody_frame _ _ _ _ _ h).1, (operationBody_frame _ _ _ _ _ h).2.1⟩
  · exact ⟨rfl, rfl⟩

theorem runAction_ok_visited (a : Action) (st st2 : ExecState) (h : runAction a st = .ok st2) :
    st2.visited = st.visited ++ [a] := by
  cases a with
  | file name content =>
    simp only [runAction] at h
    split at h
    · cases h; rfl
    · cases h
  | operation c =>
    simp only [runAction, Except.ok.injEq] at h
    subst h
    exact (runOperation_frame _ _).1

theorem runAction_error_visited (a : Action) (st st2 : ExecState) (e : Errno)
    (h : runAction a st = .error (e, st2)) : st2.visited = st.visited ++ [a] := by
  cases a with
  | file name content =>
    simp only [runAction] at h
    split at h
    · cases h
    · cases h; rfl
  | operation c => simp [runAction] at h

theorem runBatch_ok_visited (acts : List Action) :
    ∀ st st1 : ExecState, runBatch acts st = .ok st1 → st1.visited = st.visited ++ acts := by
  induction acts with
  | nil =>
    intro st st1 h
    simp only [runBatch, Except.ok.injEq] at h
    simp [← h]
  | cons a rest ih =>
    intro st st1 h
    simp only [runBatch] at h
    split at h
    · next st2 hra =>
      rw [ih st2 st1 h, runAction_ok_visited a st st2 hra]
      simp
    · cases h

theorem runBatch_error_visited (acts : List Action) :
    ∀ (st st1 : ExecState) (e : Errno), runBatch acts st = .error (e, st1) →
      ∃ pre a post, acts = pre ++ a :: post ∧ st1.visited = st.visited ++ (pre ++ [a]) := by
  induction acts with
  | nil =>
    intro st st1 e h
    simp [runBatch] at h
  | cons a rest ih =>
    intro st st1 e h
    simp only [runBatch] at h
    split at h
    · next st2 hra =>
      obtain ⟨pre, b, post, hacts, hvis⟩ := ih st2 st1 e h
      refine ⟨a :: pre, b, post, by simp [hacts], ?_⟩
      rw [hvis, runAction_ok_visited a st st2 hra]
      simp
    · next err hra =>
      cases h
      exact ⟨[], a, rest, rfl, by simpa using runAction_error_visited a st st1 e hra⟩

/-! ### The literal at the head of a text -/

theorem dropPrefix?_eq_some (p s r : Str) : dropPrefix? p s = some r ↔ s = p ++ r := by
  induction p generalizing s with
  | nil => simp [dropPrefix?, eq_comm]
  | cons a p ih =>
    cases s with
    | nil => simp [dropPrefix?]
    | cons c s =>
      simp only [dropPrefix?]
      by_cases h : a = c
      · simp [h, ih]
      · have h2 : ¬ c = a := fun e => h e.symm
        simp [h, h2]

theorem dropPrefix?_append (p r : Str) : dropPrefix? p (p ++ r) = some r :=
  (dropPrefix?_eq_some p (p ++ r) r).2 rfl

theorem dropPrefix?_eq_none (p s : Str) (h : ¬ p <+: s) : dropPrefix? p s = none := by
  cases hd : dropPrefix? p s with
  | none => rfl
  | some r => exact absurd ⟨r, ((dropPrefix?_eq_some p s r).1 hd).symm⟩ h

/-! ### The loops over the matches -/

theorem execAll_nil {α : Type} (re : Str → Option (α × Str)) (pos skip : Nat) :
    execAll re pos skip [] = [] := by
  cases skip <;> rfl

theorem execAll_cons_succ {α : Type} (re : Str → Option (α × Str)) (pos skip : Nat)
    (c : Char) (s : Str) :
    execAll re pos (skip + 1) (c :: s) = execAll re (pos + 1) skip s := rfl

theorem execAll_cons_none {α : Type} (re : Str → Option (α × Str)) (pos : Nat)
    (c : Char) (s : Str) (h : re (c :: s) = none) :
    execAll re pos 0 (c :: s) = execAll re (pos + 1) 0 s := by
  rw [execAll, h]

theorem execAll_cons_some {α : Type} (re : Str → Option (α × Str)) (pos : Nat)
    (c : Char) (s rest : Str) (g : α) (h : re (c :: s) = some (g, rest)) :
    execAll re pos 0 (c :: s) = ⟨pos, g⟩ :: execAll re (pos + 1) (s.length - rest.length) s := by
  rw [execAll, h]

theorem replaceAll_cons_succ {α : Type} (re : Str → Option (α × Str)) (skip : Nat)
    (c : Char) (s : Str) :
    replaceAll re (skip + 1) (c :: s) = replaceAll re skip s := rfl

theorem replaceAll_cons_none {α : Type} (re : Str → Option (α × Str))
    (c : Char) (s : Str) (h : re (c :: s) = none) :
    replaceAll re 0 (c :: s) = c :: replaceAll re 0 s := by
  rw [replaceAll, h]

theorem replaceAll_cons_some {α : Type} (re : Str → Option (α × Str))
    (c : Char) (s rest : Str) (g : α) (h : re (c :: s) = some (g, rest)) :
    replaceAll re 0 (c :: s) = replaceAll re (s.length - rest.length) s := by
  rw [replaceAll, h]

theorem execAll_skip {α : Type} (re : Str → Option (α × Str)) (pre rest : Str) (pos : Nat) :
    execAll re pos pre.length (pre ++ rest) = execAll re (pos + pre.length) 0 rest := by
  induction pre generalizing pos with
  | nil => rfl
  | cons c pre ih =>
    rw [List.length_cons, List.cons_append, execAll_cons_succ, ih]
    congr 1
    omega

theorem replaceAll_skip {α : Type} (re : Str → Option (α × Str)) (pre rest : Str) :
    replaceAll re pre.length (pre ++ rest) = replaceAll re 0 rest := by
  induction pre with
  | nil => rfl
  | cons c pre ih => rw [List.length_cons, List.cons_append, replaceAll_cons_succ, ih]


theorem NoMatch.append {α : Type} {re : Str → Option (α × Str)} {p q rest : Str}
    (hp : NoMatch re p (q ++ rest)) (hq : NoMatch re q rest) : NoMatch re (p ++ q) rest := by
  induction p with
  | nil => exact hq
  | cons c p ih =>
    obtain ⟨h1, h2⟩ := hp
    exact ⟨by simpa using h1, ih h2⟩

theorem execAll_noMatch {α : Type} (re : Str → Option (α × Str)) (pre rest : Str) (pos : Nat)
    (h : NoMatch re pre rest) :
    execAll re pos 0 (pre ++ rest) = execAll re (pos + pre.length) 0 rest := by
  induction pre generalizing pos with
  | nil => rfl
  | cons c pre ih =>
    obtain ⟨h1, h2⟩ := h
    rw [List.cons_append, execAll_cons_none re pos c _ h1, ih _ h2, List.length_cons]
    congr 1
    omega

theorem replaceAll_noMatch {α : Type} (re : Str → Option (α × Str)) (pre rest : Str)
    (h : NoMatch re pre rest) :
    replaceAll re 0 (pre ++ rest) = pre ++ replaceAll re 0 rest := by
  induction pre with
  | nil => rfl
  | cons c pre ih =>
    obtain ⟨h1, h2⟩ := h
    rw [List.cons_append, replaceAll_cons_none re c _ h1, ih h2, List.cons_append]

theorem execAll_match {α : Type} (re : Str → Option (α × Str)) (c : Char) (m rest : Str)
    (g : α) (pos : Nat) (h : re (c :: (m ++ rest)) = some (g, rest)) :
    execAll re pos 0 (c :: (m ++ rest))
      = ⟨pos, g⟩ :: execAll re (pos + 1 + m.length) 0 rest := by
  rw [execAll_cons_some re pos c _ rest g h, List.length_append, Nat.add_sub_cancel,
    execAll_skip]

theorem replaceAll_match {α : Type} (re : Str → Option (α × Str)) (c : Char) (m rest : Str)
    (g : α) (h : re (c :: (m ++ rest)) = some (g, rest)) :
    replaceAll re 0 (c :: (m ++ rest)) = replaceAll re 0 rest := by
  rw [replaceAll_cons_some re c _ rest g h, List.length_append, Nat.add_sub_cancel,
    replaceAll_skip]

/-- Indices found by the loop are at or after the position it starts from. -/
theorem execAll_index_ge {α : Type} (re : Str → Option (α × Str)) (s : Str) :
    ∀ (pos skip : Nat) (m : Match α), m ∈ execAll re pos skip s → pos ≤ m.index := by
  induction s with
  | nil => intro pos skip m h; simp [execAll_nil] at h
  | cons c s ih =>
    intro pos skip m h
    cases skip with
    | succ k =>
      rw [execAll_cons_succ] at h
      exact Nat.le_of_succ_le (ih _ _ m h)
    | zero =>
      cases hre : re (c :: s) with
      | none =>
        rw [execAll_cons_none re pos c s hre] at h
        exact Nat.le_of_succ_le (ih _ _ m h)
      | some x =>
        rw [execAll_cons_some re pos c s x.2 x.1 hre] at h
        rcases List.mem_cons.1 h with h | h
        · simp [h]
        · exact Nat.le_of_succ_le (ih _ _ m h)

theorem execAll_pairwise {α : Type} (re : Str → Option (α × Str)) (s : Str) :
    ∀ (pos skip : Nat), (execAll re pos skip s).Pairwise fun a b => a.index < b.index := by
  induction s with
  | nil => intro pos skip; simp [execAll_nil]
  | cons c s ih =>
    intro pos skip
    cases skip with
    | succ k => rw [execAll_cons_succ]; exact ih _ _
    | zero =>
      cases hre : re (c :: s) with
      | none => rw [execAll_cons_none re pos c s hre]; exact ih _ _
      | some x =>
        rw [execAll_cons_some re pos c s x.2 x.1 hre]
        refine List.Pairwise.cons ?_ (ih _ _)
        intro m hm
        exact execAll_index_ge re s _ _ m hm

/-- Each match found by the loop is a match of the regex at its index. -/
theorem execAll_sound {α : Type} (re : Str → Option (α × Str)) (s : Str) :
    ∀ (pos skip : Nat) (m : Match α), m ∈ execAll re pos skip s →
      ∃ rest, re (s.drop (m.index - pos)) = some (m.groups, rest) := by
  induction s with
  | nil => intro pos skip m h; simp [execAll_nil] at h
  | cons c s ih =>
    intro pos skip m h
    have step : ∀ k, m ∈ execAll re (pos + 1) k s →
        ∃ rest, re ((c :: s).drop (m.index - pos)) = some (m.groups, rest) := by
      intro k hk
      obtain ⟨rest, hr⟩ := ih _ _ m hk
      have hge := execAll_index_ge re s _ _ m hk
      refine ⟨rest, ?_⟩
      have : m.index - pos = (m.index - (pos + 1)) + 1 := by omega
      rw [this, List.drop_succ_cons]
      exact hr
    cases skip with
    | succ k =>
      rw [execAll_cons_succ] at h
      exact step _ h
    | zero =>
      cases hre : re (c :: s) with
      | none =>
        rw [execAll_cons_none re pos c s hre] at h
        exact step _ h
      | some x =>
        rw [execAll_cons_some re pos c s x.2 x.1 hre] at h
        rcases List.mem_cons.1 h with h | h
        · subst h
          exact ⟨x.2, by simpa using hre⟩
        · exact step _ h

/-! ### The handlers -/

theorem isDirectory_existsSync (fs : FS) (p : Path) (h : isDirectory fs p = true) :
    existsSync fs p = true := by
  simp only [isDirectory, decide_eq_true_eq] at h
  simp [existsSync, h]


theorem approvalResponse_mode (approved : Bool) (s : Session) (fs : FS) :
    (approvalResponse approved s fs).session.currentMode = s.currentMode := by
  simp only [approvalResponse]
  repeat' split
  all_goals rfl


/-- Staging in agent mode: a text with a directive makes its batch pending. -/
theorem commandModelTurn_staged (s : Session) (fs : FS) (raw : Str)
    (hmode : s.currentMode = modeAgent)
    (hne : stagedBatch (replaceAll thinkRegex 0 raw) ≠ []) :
    (commandModelTurn s fs (.ok raw)).thrown = none ∧
    (commandModelTurn s fs (.ok raw)).session.pendingFiles
      = stagedBatch (replaceAll thinkRegex 0 raw) := by
  have hpos : (extractFiles (replaceAll thinkRegex 0 raw)).length
      + (extractOperations (replaceAll thinkRegex 0 raw)).length > 0 := by
    by_contra hcon
    apply hne
    simp only [gt_iff_lt, not_lt, Nat.le_zero, Nat.add_eq_zero, List.length_eq_zero] at hcon
    simp [stagedBatch, hcon.1, hcon.2]
  simp [commandModelTurn, hmode, hpos, stagedBatch]

/-- The loop visits the pending actions from the first on, in their order. -/
theorem approvalResponse_visited_prefix (s : Session) (fs : FS) :
    (approvalResponse true s fs).visited <+: s.pendingFiles := by
  simp only [approvalResponse, if_true]
  cases hrun : runBatch s.pendingFiles (ExecState.init s fs) with
  | ok st =>
    have h := runBatch_ok_visited _ _ _ hrun
    simp only [ExecState.init, List.nil_append] at h
    simp [h]
  | error e =>
    obtain ⟨err, st⟩ := e
    obtain ⟨pre, a, post, hacts, hvis⟩ := runBatch_error_visited _ _ _ _ hrun
    simp only [ExecState.init, List.nil_append] at hvis
    simp only [hvis, hacts]
    exact ⟨post, by simp⟩

/-- When nothing is thrown, the loop has visited every pending action. -/
theorem approvalResponse_visited_all (s : Session) (fs : FS)
    (h : (approvalResponse true s fs).thrown = none) :
    (approvalResponse true s fs).visited = s.pendingFiles := by
  simp only [approvalResponse, if_true] at h ⊢
  cases hrun : runBatch s.pendingFiles (ExecState.init s fs) with
  | ok st =>
    have hv := runBatch_ok_visited _ _ _ hrun
    simp only [ExecState.init, List.nil_append] at hv
    simp [hv]
  | error e =>
    obtain ⟨err, st⟩ := e
    simp [hrun] at h

/-! ### The regular expressions on well-formed texts -/

theorem PlainText.tail {c : Char} {s : Str} (h : PlainText (c :: s)) : PlainText s := by
  refine ⟨fun hin => h.1 (hin.trans (List.suffix_cons c s).isInfix), ?_⟩
  cases s with
  | nil => simp
  | cons d s =>
    have := h.2
    simpa [List.getLast?_cons_cons] using this

theorem PlainText.head {c : Char} {s : Str} (h : PlainText (c :: s)) (t : Str) :
    ¬ ['<', '<', '<'] <+: c :: (s ++ t) := by
  intro hp
  obtain ⟨h1, h2⟩ := h
  match s, hp, h1, h2 with
  | [], hp, _, h2 =>
    have : c = '<' := by
      obtain ⟨r, hr⟩ := hp
      simp at hr
      exact hr.1.symm
    simp [this] at h2
  | [d], hp, _, h2 =>
    have : d = '<' := by
      obtain ⟨r, hr⟩ := hp
      simp at hr
      exact hr.2.1.symm
    simp [this] at h2
  | d :: e :: s, hp, h1, _ =>
    apply h1
    obtain ⟨r, hr⟩ := hp
    simp at hr
    obtain ⟨hc, hd, he, _⟩ := hr
    subst hc hd he
    exact (List.prefix_append ['<', '<', '<'] s).isInfix

theorem noMatch_of_plainText {α : Type} (re : Str → Option (α × Str))
    (hre : ∀ s, ¬ ['<', '<', '<'] <+: s → re s = none) (p rest : Str) (h : PlainText p) :
    NoMatch re p rest := by
  induction p with
  | nil => trivial
  | cons c p ih => exact ⟨hre _ (h.head rest), ih h.tail⟩

theorem noMatch_of_plainName {α : Type} (re : Str → Option (α × Str))
    (hre : ∀ s, ¬ ['<', '<', '<'] <+: s → re s = none) (n rest : Str) (h : PlainName n) :
    NoMatch re n rest := by
  induction n with
  | nil => trivial
  | cons c n ih =>
    refine ⟨hre _ ?_, ih fun d hd => h d (List.mem_cons_of_mem c hd)⟩
    intro hp
    obtain ⟨r, hr⟩ := hp
    simp at hr
    exact (h c (List.mem_cons_self c n)).1 hr.1.symm

theorem operationRegex_none (s : Str) (h : ¬ ['<', '<', '<'] <+: s) : operationRegex s = none := by
  have : dropPrefix? opOpen s = none := by
    apply dropPrefix?_eq_none
    intro hp
    exact h ((List.prefix_append ['<', '<', '<'] _).trans hp)
  simp [operationRegex, this]

theorem fileRegex_none (s : Str) (h : ¬ ['<', '<', '<'] <+: s) : fileRegex s = none := by
  have : dropPrefix? fileOpen s = none := by
    apply dropPrefix?_eq_none
    intro hp
    exact h ((List.prefix_append ['<', '<', '<'] _).trans hp)
  simp [fileRegex, this]

theorem lazyDot_plainName (cmd rest : Str) (h : PlainName cmd) :
    ∀ acc, lazyDot (cmd ++ (markClose ++ rest)) acc = some (acc ++ cmd, rest) := by
  induction cmd with
  | nil =>
    intro acc
    simp [markClose, lazyDot, dropPrefix?]
  | cons c cmd ih =>
    intro acc
    obtain ⟨_, h2, h3⟩ := h c (List.mem_cons_self c cmd)
    have hc : ¬ '>' = c := fun e => h2 e.symm
    rw [List.cons_append, lazyDot]
    simp only [markClose, dropPrefix?, hc, if_false, h3]
    rw [← markClose, ih (fun d hd => h d (List.mem_cons_of_mem c hd))]
    simp

theorem operationRegex_directive (cmd rest : Str) (h : PlainName cmd) :
    operationRegex (operationDirective cmd ++ rest) = some (cmd, rest) := by
  have e : operationDirective cmd ++ rest = opOpen ++ (cmd ++ (markClose ++ rest)) := by
    simp [operationDirective]
  rw [e, operationRegex, dropPrefix?_append]
  simpa using lazyDot_plainName cmd rest h []

theorem lazyAny_plainText (body rest : Str) (h : PlainText body) :
    ∀ acc, lazyAny fileEnd (body ++ (fileEnd ++ rest)) acc = some (acc ++ body, rest) := by
  induction body with
  | nil =>
    intro acc
    simp [fileEnd, lazyAny, dropPrefix?]
  | cons c body ih =>
    intro acc
    have hnone : dropPrefix? fileEnd (c :: (body ++ (fileEnd ++ rest))) = none := by
      apply dropPrefix?_eq_none
      intro hp
      exact h.head (fileEnd ++ rest) ((List.prefix_append ['<', '<', '<'] _).trans hp)
    rw [List.cons_append, lazyAny, hnone]
    simp only
    rw [ih h.tail]
    simp

theorem lazyDotFile_plain (name body rest : Str) (hn : PlainName name) (hb : PlainText body) :
    ∀ acc, lazyDotFile (name ++ (markClose ++ (body ++ (fileEnd ++ rest)))) acc
      = some (acc ++ name, body, rest) := by
  induction name with
  | nil =>
    intro acc
    have := lazyAny_plainText body rest hb []
    simp only [List.nil_append] at this
    simp [markClose, lazyDotFile, dropPrefix?, this]
  | cons c name ih =>
    intro acc
    obtain ⟨_, h2, h3⟩ := hn c (List.mem_cons_self c name)
    have hc : ¬ '>' = c := fun e => h2 e.symm
    rw [List.cons_append, lazyDotFile]
    simp only [markClose, dropPrefix?, hc, if_false, h3, Option.bind]
    rw [← markClose, ih (fun d hd => hn d (List.mem_cons_of_mem c hd))]
    simp

theorem fileRegex_directive (name body rest : Str) (hn : PlainName name) (hb : PlainText body) :
    fileRegex (fileDirective name body ++ rest) = some ((name, body), rest) := by
  have e : fileDirective name body ++ rest
      = fileOpen ++ (name ++ (markClose ++ (body ++ (fileEnd ++ rest)))) := by
    simp [fileDirective]
  rw [e, fileRegex, dropPrefix?_append]
  simp [lazyDotFile_plain name body rest hn hb []]

theorem noMatch_operationRegex_fileDirective (name body rest : Str)
    (hn : PlainName name) (hb : PlainText body) :
    NoMatch operationRegex (fileDirective name body) rest := by
  unfold fileDirective
  refine NoMatch.append ?_ (NoMatch.append ?_ (NoMatch.append ?_ (NoMatch.append ?_ ?_)))
  · simp [NoMatch, fileOpen, operationRegex, opOpen, dropPrefix?]
  · exact noMatch_of_plainName _ operationRegex_none _ _ hn
  · simp [NoMatch, markClose, operationRegex, opOpen, dropPrefix?]
  · exact noMatch_of_plainText _ operationRegex_none _ _ hb
  · simp [NoMatch, fileEnd, operationRegex, opOpen, dropPrefix?]

theorem noMatch_fileRegex_operationDirective (cmd rest : Str) (h : PlainName cmd) :
    NoMatch fileRegex (operationDirective cmd) rest := by
  unfold operationDirective
  refine NoMatch.append ?_ (NoMatch.append ?_ ?_)
  · simp [NoMatch, opOpen, fileRegex, fileOpen, dropPrefix?]
  · exact noMatch_of_plainName _ fileRegex_none _ _ h
  · simp [NoMatch, markClose, fileRegex, fileOpen, dropPrefix?]

theorem execAll_match_append {α : Type} (re : Str → Option (α × Str)) (d rest : Str)
    (g : α) (pos : Nat) (hd : d ≠ []) (h : re (d ++ rest) = some (g, rest)) :
    execAll re pos 0 (d ++ rest) = ⟨pos, g⟩ :: execAll re (pos + d.length) 0 rest := by
  cases d with
  | nil => exact absurd rfl hd
  | cons c m =>
    rw [List.cons_append] at h ⊢
    rw [execAll_match re c m rest g pos h, List.length_cons]
    congr 2
    omega

theorem replaceAll_match_append {α : Type} (re : Str → Option (α × Str)) (d rest : Str)
    (g : α) (hd : d ≠ []) (h : re (d ++ rest) = some (g, rest)) :
    replaceAll re 0 (d ++ rest) = replaceAll re 0 rest := by
  cases d with
  | nil => exact absurd rfl hd
  | cons c m =>
    rw [List.cons_append] at h ⊢
    exact replaceAll_match re c m rest g h

theorem operationDirective_ne_nil (cmd : Str) : operationDirective cmd ≠ [] := by
  simp [operationDirective, opOpen]

theorem fileDirective_ne_nil (name body : Str) : fileDirective name body ≠ [] := by
  simp [fileDirective, fileOpen]

theorem execAll_operationRegex_renderPieces (ps : List Piece) (h : ∀ p ∈ ps, p.WellFormed) :
    ∀ pos, (execAll operationRegex pos 0 (renderPieces ps)).map
      (fun m => Action.operation (trim m.groups)) = piecesOperations ps := by
  induction ps with
  | nil => intro pos; rfl
  | cons p ps ih =>
    intro pos
    have hp := h p (List.mem_cons_self p ps)
    have ih := ih fun q hq => h q (List.mem_cons_of_mem p hq)
    cases p with
    | prose t =>
      rw [renderPieces, Piece.render,
        execAll_noMatch _ _ _ _ (noMatch_of_plainText _ operationRegex_none t _ hp), ih]
      rfl
    | file n b =>
      rw [renderPieces, Piece.render,
        execAll_noMatch _ _ _ _ (noMatch_operationRegex_fileDirective n b _ hp.1 hp.2), ih]
      rfl
    | operation c =>
      rw [renderPieces, Piece.render,
        execAll_match_append _ _ _ c pos (operationDirective_ne_nil c)
          (operationRegex_directive c _ hp), List.map_cons, ih]
      rfl

theorem execAll_fileRegex_renderPieces (ps : List Piece) (h : ∀ p ∈ ps, p.WellFormed) :
    ∀ pos, (execAll fileRegex pos 0 (renderPieces ps)).map
      (fun m => Action.file (trim m.groups.1) (trim m.groups.2)) = piecesFiles ps := by
  induction ps with
  | nil => intro pos; rfl
  | cons p ps ih =>
    intro pos
    have hp := h p (List.mem_cons_self p ps)
    have ih := ih fun q hq => h q (List.mem_cons_of_mem p hq)
    cases p with
    | prose t =>
      rw [renderPieces, Piece.render,
        execAll_noMatch _ _ _ _ (noMatch_of_plainText _ fileRegex_none t _ hp), ih]
      rfl
    | file n b =>
      rw [renderPieces, Piece.render,
        execAll_match_append _ _ _ (n, b) pos (fileDirective_ne_nil n b)
          (fileRegex_directive n b _ hp.1 hp.2), List.map_cons, ih]
      rfl
    | operation c =>
      rw [renderPieces, Piece.render,
        execAll_noMatch _ _ _ _ (noMatch_fileRegex_operationDirective c _ hp), ih]
      rfl

/-- The batch staged for a well-formed text: its operation directives, then
its file-write directives. -/
theorem stagedBatch_renderPieces (ps : List Piece) (h : ∀ p ∈ ps, p.WellFormed) :
    stagedBatch (renderPieces ps) = piecesOperations ps ++ piecesFiles ps := by
  rw [stagedBatch, extractOperations, extractFiles,
    execAll_operationRegex_renderPieces ps h 0, execAll_fileRegex_renderPieces ps h 0]

theorem replaceAll_fileRegex_renderPieces (ps : List Piece) (h : ∀ p ∈ ps, p.WellFormed) :
    replaceAll fileRegex 0 (renderPieces ps) = renderPieces (withoutFiles ps) := by
  induction ps with
  | nil => rfl
  | cons p ps ih =>
    have hp := h p (List.mem_cons_self p ps)
    have ih := ih fun q hq => h q (List.mem_cons_of_mem p hq)
    cases p with
    | prose t =>
      rw [renderPieces, Piece.render,
        replaceAll_noMatch _ _ _ (noMatch_of_plainText _ fileRegex_none t _ hp), ih]
      rfl
    | file n b =>
      rw [renderPieces, Piece.render,
        replaceAll_match_append _ _ _ (n, b) (fileDirective_ne_nil n b)
          (fileRegex_directive n b _ hp.1 hp.2), ih]
      rfl
    | operation c =>
      rw [renderPieces, Piece.render,
        replaceAll_noMatch _ _ _ (noMatch_fileRegex_operationDirective c _ hp), ih]
      rfl

theorem replaceAll_operationRegex_withoutFiles (ps : List Piece)
    (h : ∀ p ∈ ps, p.WellFormed) :
    replaceAll operationRegex 0 (renderPieces (withoutFiles ps)) = proseOf ps := by
  induction ps with
  | nil => rfl
  | cons p ps ih =>
    have hp := h p (List.mem_cons_self p ps)
    have ih := ih fun q hq => h q (List.mem_cons_of_mem p hq)
    cases p with
    | prose t =>
      rw [withoutFiles, renderPieces, Piece.render,
        replaceAll_noMatch _ _ _ (noMatch_of_plainText _ operationRegex_none t _ hp), ih]
      rfl
    | file n b =>
      rw [withoutFiles, ih]
      rfl
    | operation c =>
      rw [withoutFiles, renderPieces, Piece.render,
        replaceAll_match_append _ _ _ c (operationDirective_ne_nil c)
          (operationRegex_directive c _ hp), ih]
      rfl

/-- The cleaned text of a well-formed text is its prose. -/
theorem cleanText_renderPieces (ps : List Piece) (h : ∀ p ∈ ps, p.WellFormed) :
    cleanText (renderPieces ps) = proseOf ps := by
  rw [cleanText, replaceAll_fileRegex_renderPieces ps h,
    replaceAll_operationRegex_withoutFiles ps h]

theorem noMatch_proseOf {α : Type} (re : Str → Option (α × Str))
    (hre : ∀ s, ¬ ['<', '<', '<'] <+: s → re s = none) (ps : List Piece)
    (h : ∀ p ∈ ps, p.WellFormed) : NoMatch re (proseOf ps) [] := by
  induction ps with
  | nil => trivial
  | cons p ps ih =>
    have hp := h p (List.mem_cons_self p ps)
    have ih := ih fun q hq => h q (List.mem_cons_of_mem p hq)
    cases p with
    | prose t => exact NoMatch.append (noMatch_of_plainText re hre t _ hp) ih
    | file n b => exact ih
    | operation c => exact ih

theorem execAll_of_noMatch_all {α : Type} (re : Str → Option (α × Str)) (s : Str)
    (h : NoMatch re s []) (pos : Nat) : execAll re pos 0 s = [] := by
  have := execAll_noMatch re s [] pos h
  rw [List.append_nil] at this
  rw [this, execAll_nil]


/-! ### Plain names, and the `/cd` followed by a write -/

theorem noMatch_thinkRegex (pre rest : Str) (h : ¬ thinkOpen <:+: pre ++ rest) :
    NoMatch thinkRegex pre rest := by
  induction pre with
  | nil => trivial
  | cons c pre ih =>
    refine ⟨?_, ih fun hin => h (hin.trans (List.suffix_cons c _).isInfix)⟩
    have : dropPrefix? thinkOpen (c :: (pre ++ rest)) = none := by
      apply dropPrefix?_eq_none
      intro hp
      exact h hp.isInfix
    simp [thinkRegex, this]

theorem replaceAll_thinkRegex_of_no_think (t : Str) (h : ¬ thinkOpen <:+: t) :
    replaceAll thinkRegex 0 t = t := by
  have hn : NoMatch thinkRegex t [] := noMatch_thinkRegex t [] (by simpa using h)
  have := replaceAll_noMatch thinkRegex t [] hn
  simpa [replaceAll] using this

theorem dropWhile_of_head {p : Char → Bool} {s : Str}
    (h : ∀ c, s.head? = some c → p c = false) : s.dropWhile p = s := by
  cases s with
  | nil => rfl
  | cons c s => simp [List.dropWhile, h c rfl]

theorem trim_of_plain_ends (s : Str)
    (h0 : ∀ c, s.head? = some c → isJsWhitespace c = false)
    (h1 : ∀ c, s.getLast? = some c → isJsWhitespace c = false) : trim s = s := by
  have hr : s.reverse.dropWhile isJsWhitespace = s.reverse :=
    dropWhile_of_head (by simpa [List.head?_reverse] using h1)
  rw [trim, dropWhile_of_head h0, hr, List.reverse_reverse]

theorem split_of_no_sep (sep : Char) (s : Str) (h : ∀ c ∈ s, c ≠ sep) : split sep s = [s] := by
  induction s with
  | nil => rfl
  | cons c s ih =>
    have hc : c ≠ sep := h c (List.mem_cons_self c s)
    rw [split, if_neg hc, ih fun d hd => h d (List.mem_cons_of_mem c hd)]

theorem isLineTerminator_of_not_whitespace (c : Char) (h : isJsWhitespace c = false) :
    isLineTerminator c = false := by
  simp only [isJsWhitespace, Bool.or_eq_false_iff, decide_eq_false_iff_not] at h
  simp only [isLineTerminator, Bool.or_eq_false_iff, decide_eq_false_iff_not]
  tauto

theorem PlainSegment.plainName {s : Str} (h : PlainSegment s) : PlainName s :=
  fun c hc => ⟨(h.2.2.2 c hc).2.1, (h.2.2.2 c hc).2.2.1,
    isLineTerminator_of_not_whitespace c (h.2.2.2 c hc).2.2.2⟩

theorem PlainSegment.trim_eq {s : Str} (h : PlainSegment s) : trim s = s := by
  apply trim_of_plain_ends
  · intro c hc
    exact (h.2.2.2 c (List.mem_of_mem_head? hc)).2.2.2
  · intro c hc
    exact (h.2.2.2 c (List.mem_of_mem_getLast? hc)).2.2.2

theorem PlainSegment.cd_plainName {d : Str} (h : PlainSegment d) : PlainName (cdCommand d) := by
  intro c hc
  simp only [cdCommand, List.mem_append, List.mem_cons, List.mem_singleton] at hc
  rcases hc with (hc | hc | hc | hc | hc) | hc
  · subst hc; decide
  · subst hc; decide
  · subst hc; decide
  · subst hc; decide
  · simp at hc
  · exact h.plainName c hc

theorem PlainSegment.trim_cd {d : Str} (h : PlainSegment d) : trim (cdCommand d) = cdCommand d := by
  apply trim_of_plain_ends
  · intro c hc
    simp only [cdCommand, List.cons_append, List.head?_cons, Option.some.injEq] at hc
    subst hc
    decide
  · intro c hc
    have hne : d ≠ [] := h.1
    rw [cdCommand, List.getLast?_append_of_ne_nil _ hne] at hc
    exact (h.2.2.2 c (List.mem_of_mem_getLast? hc)).2.2.2

theorem PlainSegment.split_cd {d : Str} (h : PlainSegment d) :
    split ' ' (cdCommand d) = [verbCd, d] := by
  have hd : split ' ' d = [d] := by
    apply split_of_no_sep
    intro c hc e
    subst e
    have := (h.2.2.2 ' ' hc).2.2.2
    simp [isJsWhitespace] at this
  simp [cdCommand, split, hd, verbCd]

theorem PlainSegment.normalize {d : Str} (h : PlainSegment d) (W : Path) :
    normalize W (split '/' d) = W ++ [d] := by
  have hd : split '/' d = [d] := split_of_no_sep _ _ fun c hc => (h.2.2.2 c hc).1
  rw [hd]
  simp [DualTerminal.normalize, h.1, h.2.1, h.2.2.1]

theorem PlainSegment.pathJoin {d : Str} (h : PlainSegment d) (W : Path) :
    pathJoin W d = W ++ [d] := h.normalize W

theorem PlainSegment.pathResolve {d : Str} (h : PlainSegment d) (W : Path) :
    pathResolve W d = W ++ [d] := by
  have hh : ¬ d.head? = some '/' := by
    intro e
    exact (h.2.2.2 '/' (List.mem_of_mem_head? e)).1 rfl
  rw [DualTerminal.pathResolve, if_neg hh, h.normalize W]

/-- The `/cd` branch of an operation, as one equation. -/
theorem runOperation_cd (st : ExecState) (raw : Str)
    (hverb : toLowerCase ((split ' ' (trim raw)).headD []) = verbCd) :
    runOperation raw st =
      if isDirectory st.fs
          (if (split ' ' (trim raw)).tail.head? = some ['.', '.']
            then pathDirname st.workingDirectory
            else pathResolve st.workingDirectory (join ' ' (split ' ' (trim raw)).tail)) = true
      then { st with
        workingDirectory :=
          (if (split ' ' (trim raw)).tail.head? = some ['.', '.']
            then pathDirname st.workingDirectory
            else pathResolve st.workingDirectory (join ' ' (split ' ' (trim raw)).tail)),
        out := st.out ++ [Out.executed (trim raw)], opsCount := st.opsCount + 1 }
      else { st with
        out := st.out ++ [Out.directoryNotFound (join ' ' (split ' ' (trim raw)).tail)],
        opsCount := st.opsCount + 1 } := by
  simp only [runOperation, hverb, operationBody, if_true]
  generalize (if (split ' ' (trim raw)).tail.head? = some ['.', '.']
      then pathDirname st.workingDirectory
      else pathResolve st.workingDirectory (join ' ' (split ' ' (trim raw)).tail)) = target
  by_cases hd : isDirectory st.fs target = true
  · have he := isDirectory_existsSync _ _ hd
    simp [hd, he]
  · simp only [Bool.not_eq_true] at hd
    simp [hd]

theorem runOperation_cd_plain (st : ExecState) (d : Str) (hd : PlainSegment d)
    (hdir : isDirectory st.fs (st.workingDirectory ++ [d]) = true) :
    runOperation (cdCommand d) st =
      { st with workingDirectory := st.workingDirectory ++ [d],
                out := st.out ++ [Out.executed (cdCommand d)],
                opsCount := st.opsCount + 1 } := by
  have hverb : toLowerCase ((split ' ' (trim (cdCommand d))).headD []) = verbCd := by
    rw [hd.trim_cd, hd.split_cd]
    exact (by decide : toLowerCase verbCd = verbCd)
  have hne : ¬ d = ['.', '.'] := hd.2.2.1
  rw [runOperation_cd st _ hverb, hd.trim_cd, hd.split_cd]
  simp [join, hne, hd.pathResolve, hdir]

theorem writeFileSync_ok (fs : FS) (p : Path) (data : Str)
    (hvalid : pathFault p = none)
    (hnodir : fs.get p ≠ some Node.dir)
    (hparent : fs.get p = none → isDirectory fs p.dropLast = true) :
    writeFileSync fs p data = .ok (fs.set p (Node.file data)) := by
  simp only [writeFileSync, hvalid]
  split
  · next h => exact absurd h hnodir
  · rfl
  · next h =>
    have hd := hparent h
    simp only [isDirectory, decide_eq_true_eq] at hd
    rw [hd]

/-- A write that succeeds leaves the file at its path. -/
theorem writeFileSync_eq_ok (fs fs1 : FS) (p : Path) (data : Str)
    (h : writeFileSync fs p data = .ok fs1) : fs1 = fs.set p (Node.file data) := by
  simp only [writeFileSync] at h
  split at h
  · cases h
  · split at h
    · cases h
    · cases h; rfl
    · split at h
      · cases h; rfl
      · cases h
      · cases h

theorem writeFileAt_eq_ok (fs fs1 : FS) (dir : Path) (rel data : Str)
    (h : writeFileAt fs dir rel data = .ok fs1) :
    fs1 = fs.set (pathJoin dir rel) (Node.file data) := by
  unfold writeFileAt at h
  split at h
  · split at h
    · cases h
    · split at h
      · cases h
      · cases h
      · split at h <;> cases h
  · exact writeFileSync_eq_ok _ _ _ _ h

theorem writeFileAt_of_no_slash (fs : FS) (dir : Path) (rel data : Str)
    (h : joinedSlash rel = false) :
    writeFileAt fs dir rel data = writeFileSync fs (pathJoin dir rel) data := by
  unfold writeFileAt
  rw [if_neg (by rw [h]; exact Bool.false_ne_true)]

theorem PlainSegment.joinedSlash {d : Str} (h : PlainSegment d) : joinedSlash d = false := by
  unfold DualTerminal.joinedSlash
  rw [decide_eq_false_iff_not]
  intro e
  exact (h.2.2.2 '/' (List.mem_of_mem_getLast? e)).1 rfl

theorem approvalResponse_cd_write (t : Session) (fs : FS) (d n data : Str)
    (hp : t.pendingFiles = [Action.operation (cdCommand d), Action.file n data])
    (hd : PlainSegment d) (hn : PlainSegment n)
    (hdir : isDirectory fs (t.workingDirectory ++ [d]) = true)
    (hvalid : pathFault (t.workingDirectory ++ [d] ++ [n]) = none)
    (hfile : fs.get (t.workingDirectory ++ [d] ++ [n]) ≠ some Node.dir) :
    approvalResponse true t fs =
      { session := { t with workingDirectory := t.workingDirectory ++ [d], pendingFiles := [] },
        fs := fs.set (t.workingDirectory ++ [d] ++ [n]) (Node.file data),
        out := [Out.executed (cdCommand d), Out.saved n, Out.completed 1 1, Out.prompt],
        spawned := [], thrown := none,
        visited := [Action.operation (cdCommand d), Action.file n data] } := by
  have h1 : runOperation (cdCommand d)
      { ExecState.init t fs with visited := [Action.operation (cdCommand d)] }
      = { workingDirectory := t.workingDirectory ++ [d], fs := fs, filesCount := 0,
          opsCount := 1, out := [Out.executed (cdCommand d)], spawned := [],
          visited := [Action.operation (cdCommand d)] } := by
    rw [runOperation_cd_plain _ d hd (by simpa [ExecState.init] using hdir)]
    simp [ExecState.init]
  have hw : writeFileSync fs (t.workingDirectory ++ [d] ++ [n]) data
      = .ok (fs.set (t.workingDirectory ++ [d] ++ [n]) (Node.file data)) := by
    apply writeFileSync_ok _ _ _ hvalid hfile
    intro _
    simpa using hdir
  have hrun : runBatch t.pendingFiles (ExecState.init t fs)
      = .ok { workingDirectory := t.workingDirectory ++ [d],
              fs := fs.set (t.workingDirectory ++ [d] ++ [n]) (Node.file data),
              filesCount := 1, opsCount := 1,
              out := [Out.executed (cdCommand d), Out.saved n], spawned := [],
              visited := [Action.operation (cdCommand d), Action.file n data] } := by
    rw [hp]
    simp only [runBatch, runAction]
    have e : ({ ExecState.init t fs with
        visited := (ExecState.init t fs).visited ++ [Action.operation (cdCommand d)] } : ExecState)
        = { ExecState.init t fs with visited := [Action.operation (cdCommand d)] } := by
      simp [ExecState.init]
    rw [e, h1]
    simp only [writeFileAt_of_no_slash _ _ _ _ hn.joinedSlash, hn.pathJoin, hw]
    simp
  simp [approvalResponse, hrun]

theorem commandModelTurn_workingDirectory (s : Session) (fs : FS) (response : Except Str Str) :
    (commandModelTurn s fs response).session.workingDirectory = s.workingDirectory := by
  cases response with
  | error m => rfl
  | ok raw =>
    simp only [commandModelTurn]
    repeat' split
    all_goals rfl

/-! ### The executor, the splitting of commands and `/cd ..` -/

theorem runBatch_append (a b : List Action) :
    ∀ st : ExecState, runBatch (a ++ b) st =
      match runBatch a st with
      | .ok st1 => runBatch b st1
      | .error e => .error e := by
  induction a with
  | nil => intro st; rfl
  | cons x a ih =>
    intro st
    simp only [List.cons_append, runBatch]
    cases runAction x st with
    | ok st2 => exact ih st2
    | error e => rfl

theorem operationBody_unknown (cmd command : Str) (args : List Str) (st : ExecState)
    (h : command ∉ knownVerbs) :
    operationBody cmd command args st
      = .ok { st with out := st.out ++ [Out.unknownOperation cmd] } := by
  simp only [knownVerbs, List.mem_cons, List.mem_singleton, List.not_mem_nil, or_false,
    not_or] at h
  obtain ⟨h1, h2, h3, h4, h5, h6, h7⟩ := h
  simp only [operationBody, h1, h2, h3, h4, h5, h6, h7, if_false]

theorem runOperation_unknown (raw : Str) (st : ExecState)
    (h : toLowerCase ((split ' ' (trim raw)).headD []) ∉ knownVerbs) :
    runOperation raw st
      = { st with out := st.out ++ [Out.unknownOperation (trim raw)],
                  opsCount := st.opsCount + 1 } := by
  simp only [runOperation, operationBody_unknown _ _ _ _ h]

theorem head?_dropWhile_false (p : Char → Bool) (s : Str) (c : Char)
    (h : (s.dropWhile p).head? = some c) : p c = false := by
  induction s with
  | nil => simp at h
  | cons x s ih =>
    by_cases hx : p x = true
    · rw [List.dropWhile_cons_of_pos hx] at h
      exact ih h
    · simp only [Bool.not_eq_true] at hx
      have hx' : ¬ p x = true := by simp [hx]
      rw [List.dropWhile_cons_of_neg hx'] at h
      simp only [List.head?_cons, Option.some.injEq] at h
      exact h ▸ hx

theorem getLast?_dropWhile (p : Char → Bool) (s : Str) (c : Char)
    (h : (s.dropWhile p).getLast? = some c) : s.getLast? = some c := by
  induction s with
  | nil => simp at h
  | cons x s ih =>
    by_cases hx : p x = true
    · rw [List.dropWhile_cons_of_pos hx] at h
      have hs := ih h
      cases s with
      | nil => simp at hs
      | cons y s => simpa [List.getLast?_cons_cons] using hs
    · rw [List.dropWhile_cons_of_neg hx] at h
      exact h

/-- The result of `trim` has no white space at either end. -/
theorem trim_ends (s : Str) :
    (∀ c, (trim s).head? = some c → isJsWhitespace c = false) ∧
    (∀ c, (trim s).getLast? = some c → isJsWhitespace c = false) := by
  constructor
  · intro c hc
    rw [trim, List.head?_reverse] at hc
    have h1 := getLast?_dropWhile _ _ _ hc
    rw [List.getLast?_reverse] at h1
    exact head?_dropWhile_false _ _ _ h1
  · intro c hc
    rw [trim, List.getLast?_reverse] at hc
    exact head?_dropWhile_false _ _ _ hc

theorem trim_trim (s : Str) : trim (trim s) = trim s :=
  trim_of_plain_ends _ (trim_ends s).1 (trim_ends s).2

theorem split_ne_nil (sep : Char) (s : Str) : split sep s ≠ [] := by
  induction s with
  | nil => simp [split]
  | cons c s ih =>
    rw [split]
    split_ifs
    · simp
    · cases h : split sep s <;> simp

theorem join_cons_cons (sep : Char) (a b : Str) (rest : List Str) :
    join sep (a :: b :: rest) = a ++ sep :: join sep (b :: rest) := rfl

theorem join_split (sep : Char) (s : Str) : join sep (split sep s) = s := by
  induction s with
  | nil => rfl
  | cons c s ih =>
    rw [split]
    split_ifs with hc
    · cases h : split sep s with
      | nil => exact absurd h (split_ne_nil sep s)
      | cons a rest =>
        rw [h] at ih
        rw [join_cons_cons, ih, hc]
        rfl
    · cases h : split sep s with
      | nil => exact absurd h (split_ne_nil sep s)
      | cons a rest =>
        rw [h] at ih
        cases rest with
        | nil =>
          simp only [join] at ih ⊢
          rw [ih]
        | cons b rest =>
          rw [join_cons_cons] at ih
          simp only
          rw [join_cons_cons, List.cons_append, ih]

theorem split_no_sep (sep : Char) (s : Str) : ∀ p ∈ split sep s, sep ∉ p := by
  induction s with
  | nil => simp [split]
  | cons c s ih =>
    rw [split]
    split_ifs with hc
    · intro p hp
      rcases List.mem_cons.1 hp with rfl | hp
      · simp
      · exact ih p hp
    · cases h : split sep s with
      | nil => exact absurd h (split_ne_nil sep s)
      | cons a rest =>
        rw [h] at ih
        intro p hp
        simp only at hp
        rcases List.mem_cons.1 hp with rfl | hp
        · intro hmem
          rcases List.mem_cons.1 hmem with e | e
          · exact hc e.symm
          · exact ih a (List.mem_cons_self a rest) e
        · exact ih p (List.mem_cons_of_mem a hp)

theorem split_length (sep : Char) (s : Str) : (split sep s).length = s.count sep + 1 := by
  induction s with
  | nil => rfl
  | cons c s ih =>
    rw [split]
    split_ifs with hc
    · subst hc
      simp [ih]
    · cases h : split sep s with
      | nil => exact absurd h (split_ne_nil sep s)
      | cons a rest =>
        rw [h] at ih
        simp only [List.length_cons] at ih ⊢
        rw [List.count_cons_of_ne (fun e => hc e.symm), ih]

theorem pathDirname_iterate (k : Nat) : ∀ D : Path, pathDirname^[k] D = D.take (D.length - k) := by
  induction k with
  | zero => intro D; simp
  | succ k ih =>
    intro D
    rw [Function.iterate_succ_apply, ih, pathDirname, List.dropLast_eq_take, List.take_take,
      List.length_take]
    congr 1
    omega

theorem prefix_dropLast {q D : Path} (h : q <+: D.dropLast) : q <+: D :=
  h.trans (List.dropLast_prefix D)

theorem commandCd_up (s : Session) (fs : FS)
    (h : isDirectory fs (pathDirname s.workingDirectory) = true) :
    commandCd s fs (split ' ' (trim cdUp)).tail
      = { session := { s with workingDirectory := pathDirname s.workingDirectory }, fs := fs,
          out := [Out.changedTo (pathDirname s.workingDirectory), Out.prompt],
          spawned := [], thrown := none, visited := [] } := by
  have e : (split ' ' (trim cdUp)).tail = [['.', '.']] := by decide
  rw [e]
  simp [commandCd, h, isDirectory_existsSync _ _ h]

theorem runOperation_up (st : ExecState)
    (h : isDirectory st.fs (pathDirname st.workingDirectory) = true) :
    runOperation cdUp st
      = { st with workingDirectory := pathDirname st.workingDirectory,
                  out := st.out ++ [Out.executed cdUp],
                  opsCount := st.opsCount + 1 } := by
  have hverb : toLowerCase ((split ' ' (trim cdUp)).headD []) = verbCd := by decide
  have e : (split ' ' (trim cdUp)).tail = [['.', '.']] := by decide
  have e2 : trim cdUp = cdUp := by decide
  rw [runOperation_cd st cdUp hverb, e, e2]
  simp [h]

theorem commandCd_up_iterate (fs : FS) (k : Nat) :
    ∀ s : Session, (∀ q ∈ (pathDirname s.workingDirectory).inits, isDirectory fs q = true) →
      ((fun t => (commandCd t fs (split ' ' (trim cdUp)).tail).session)^[k] s).workingDirectory
        = pathDirname^[k] s.workingDirectory := by
  induction k with
  | zero => intro s _; rfl
  | succ k ih =>
    intro s h
    rw [Function.iterate_succ_apply, Function.iterate_succ_apply,
      commandCd_up s fs (h _ ((List.mem_inits _ _).2 (List.prefix_refl _)))]
    exact ih _ fun q hq => h q ((List.mem_inits _ _).2 (prefix_dropLast ((List.mem_inits _ _).1 hq)))

theorem runOperation_up_iterate (k : Nat) :
    ∀ st : ExecState,
      (∀ q ∈ (pathDirname st.workingDirectory).inits, isDirectory st.fs q = true) →
      ((runOperation cdUp)^[k] st).workingDirectory = pathDirname^[k] st.workingDirectory := by
  induction k with
  | zero => intro st _; rfl
  | succ k ih =>
    intro st h
    rw [Function.iterate_succ_apply, Function.iterate_succ_apply,
      runOperation_up st (h _ ((List.mem_inits _ _).2 (List.prefix_refl _)))]
    exact ih _ fun q hq => h q ((List.mem_inits _ _).2 (prefix_dropLast ((List.mem_inits _ _).1 hq)))

theorem runAction_file_ok (n c : Str) (st st1 : ExecState)
    (h : runAction (Action.file n c) st = .ok st1) :
    st1.fs = st.fs.set (pathJoin st.workingDirectory n) (Node.file c) ∧
    st1.workingDirectory = st.workingDirectory := by
  simp only [runAction] at h
  split at h
  · next fs1 hw =>
    cases h
    exact ⟨writeFileAt_eq_ok _ _ _ _ _ hw, rfl⟩
  · cases h

theorem runBatch_files_workingDirectory (post : List Action)
    (hfiles : ∀ a ∈ post, ∃ n c, a = Action.file n c) :
    ∀ st st1 : ExecState, runBatch post st = .ok st1 →
      st1.workingDirectory = st.workingDirectory := by
  induction post with
  | nil =>
    intro st st1 h
    simp only [runBatch, Except.ok.injEq] at h
    rw [h]
  | cons a post ih =>
    intro st st1 h
    obtain ⟨n, c, rfl⟩ := hfiles a (List.mem_cons_self a post)
    simp only [runBatch] at h
    split at h
    · next st2 hra =>
      rw [ih (fun b hb => hfiles b (List.mem_cons_of_mem _ hb)) st2 st1 h,
        (runAction_file_ok n c st st2 hra).2]
    · cases h

theorem runBatch_files_get (p : Path) (post : List Action)
    (hfiles : ∀ a ∈ post, ∃ n c, a = Action.file n c) :
    ∀ st st1 : ExecState,
      (∀ n c, Action.file n c ∈ post → pathJoin st.workingDirectory n ≠ p) →
      runBatch post st = .ok st1 → st1.fs.get p = st.fs.get p := by
  induction post with
  | nil =>
    intro st st1 _ h
    simp only [runBatch, Except.ok.injEq] at h
    rw [h]
  | cons a post ih =>
    intro st st1 hpath h
    obtain ⟨n, c, rfl⟩ := hfiles a (List.mem_cons_self _ post)
    simp only [runBatch] at h
    split at h
    · next st2 hra =>
      obtain ⟨hfs, hwd⟩ := runAction_file_ok n c st st2 hra
      rw [ih (fun b hb => hfiles b (List.mem_cons_of_mem _ hb)) st2 st1
        (fun n1 c1 h1 => by rw [hwd]; exact hpath n1 c1 (List.mem_cons_of_mem _ h1)) h, hfs]
      exact FS.get_set_of_ne _ _ _ _ (hpath n c (List.mem_cons_self _ _)).symm
    · cases h

theorem runBatch_last_write (pre post : List Action) (n c : Str) (st st1 : ExecState)
    (hfiles : ∀ a ∈ post, ∃ n1 c1, a = Action.file n1 c1)
    (hpath : ∀ n1 c1, Action.file n1 c1 ∈ post →
      pathJoin st1.workingDirectory n1 ≠ pathJoin st1.workingDirectory n)
    (h : runBatch (pre ++ Action.file n c :: post) st = .ok st1) :
    st1.fs.get (pathJoin st1.workingDirectory n) = some (Node.file c) := by
  rw [runBatch_append] at h
  split at h
  · next st2 _ =>
    simp only [runBatch] at h
    split at h
    · next st3 hra =>
      obtain ⟨hfs, hwd⟩ := runAction_file_ok n c st2 st3 hra
      have hw := runBatch_files_workingDirectory post hfiles st3 st1 h
      rw [runBatch_files_get _ post hfiles st3 st1
        (fun n1 c1 h1 => by rw [← hw]; exact hpath n1 c1 h1) h, hfs, hw, hwd]
      exact FS.get_set_self _ _ _
    · cases h
  · cases h

/-! ### The shape of a match -/

theorem lazyAny_some (lit : Str) (s : Str) :
    ∀ (acc g rest : Str), lazyAny lit s acc = some (g, rest) →
      ∃ b, g = acc ++ b ∧ s = b ++ (lit ++ rest) := by
  induction s with
  | nil =>
    intro acc g rest h
    simp only [lazyAny, Option.map_eq_some'] at h
    obtain ⟨r, hr, he⟩ := h
    cases he
    exact ⟨[], by simp, by simpa using (dropPrefix?_eq_some lit [] rest).1 hr⟩
  | cons c s ih =>
    intro acc g rest h
    rw [lazyAny] at h
    split at h
    · next r hr =>
      cases h
      exact ⟨[], by simp, by simpa using (dropPrefix?_eq_some lit (c :: s) rest).1 hr⟩
    · obtain ⟨b, hg, hs⟩ := ih _ _ _ h
      exact ⟨c :: b, by simp [hg], by simp [hs]⟩

theorem lazyDotFile_some (s : Str) :
    ∀ (acc nm body rest : Str), lazyDotFile s acc = some (nm, body, rest) →
      ∃ n, nm = acc ++ n ∧ s = n ++ (markClose ++ (body ++ (fileEnd ++ rest))) := by
  induction s with
  | nil => intro acc nm body rest h; simp [lazyDotFile] at h
  | cons c s ih =>
    intro acc nm body rest h
    rw [lazyDotFile] at h
    split at h
    · next b r hb =>
      cases h
      rw [Option.bind_eq_some] at hb
      obtain ⟨r1, hr1, hl⟩ := hb
      obtain ⟨b1, hb1, hs1⟩ := lazyAny_some _ _ _ _ _ hl
      have hcs := (dropPrefix?_eq_some markClose (c :: s) r1).1 hr1
      refine ⟨[], by simp, ?_⟩
      rw [hcs, hs1]
      simp at hb1
      simp [hb1]
    · split at h
      · cases h
      · obtain ⟨n, hn, hs⟩ := ih _ _ _ _ h
        exact ⟨c :: n, by simp [hn], by simp [hs]⟩

/-- A match of `fileRegex` runs from a start marker through `<<<END>>>`. -/
theorem fileRegex_some (s name body rest : Str)
    (h : fileRegex s = some ((name, body), rest)) :
    s = fileOpen ++ (name ++ (markClose ++ (body ++ (fileEnd ++ rest)))) := by
  simp only [fileRegex, Option.bind_eq_some, Option.map_eq_some'] at h
  obtain ⟨r, hr, ⟨nm, b, r2⟩, hl, he⟩ := h
  cases he
  obtain ⟨n, hn, hs⟩ := lazyDotFile_some _ _ _ _ _ hl
  rw [(dropPrefix?_eq_some fileOpen s r).1 hr, hs]
  simp at hn
  simp [hn]

theorem fileRegex_none_of_no_end (s : Str) (h : ¬ fileEnd <:+: s) : fileRegex s = none := by
  cases hf : fileRegex s with
  | none => rfl
  | some x =>
    obtain ⟨⟨n, b⟩, rest⟩ := x
    exfalso
    apply h
    rw [fileRegex_some s n b rest hf]
    exact ⟨fileOpen ++ (n ++ (markClose ++ b)), rest, by simp⟩

theorem noMatch_fileRegex_of_no_end (pre rest : Str) (h : ¬ fileEnd <:+: pre ++ rest) :
    NoMatch fileRegex pre rest := by
  induction pre with
  | nil => trivial
  | cons c pre ih =>
    exact ⟨fileRegex_none_of_no_end _ h,
      ih fun hin => h (hin.trans (List.suffix_cons c _).isInfix)⟩

theorem endRegex_none (s : Str) (h : ¬ ['<', '<', '<'] <+: s) : endRegex s = none := by
  have : dropPrefix? fileEnd s = none := by
    apply dropPrefix?_eq_none
    intro hp
    exact h ((List.prefix_append ['<', '<', '<'] _).trans hp)
  simp [endRegex, this]

theorem no_end_of_noMatch (s : Str) (h : NoMatch endRegex s []) : ¬ fileEnd <:+: s := by
  induction s with
  | nil => simp [fileEnd]
  | cons c s ih =>
    obtain ⟨h1, h2⟩ := h
    rw [List.infix_cons_iff]
    rintro (hp | hi)
    · obtain ⟨r, hr⟩ := hp
      have := (dropPrefix?_eq_some fileEnd (c :: s) r).2 hr.symm
      simp [endRegex, this] at h1
    · exact ih h2 hi

theorem noMatch_endRegex_fileStart (name rest : Str) (hn : PlainName name) :
    NoMatch endRegex (fileStart name) rest := by
  unfold fileStart
  refine NoMatch.append ?_ (NoMatch.append ?_ ?_)
  · simp [NoMatch, fileOpen, endRegex, fileEnd, dropPrefix?]
  · exact noMatch_of_plainName _ endRegex_none _ _ hn
  · simp [NoMatch, markClose, endRegex, fileEnd, dropPrefix?]

theorem noMatch_endRegex_operationDirective (cmd rest : Str) (h : PlainName cmd) :
    NoMatch endRegex (operationDirective cmd) rest := by
  unfold operationDirective
  refine NoMatch.append ?_ (NoMatch.append ?_ ?_)
  · simp [NoMatch, opOpen, endRegex, fileEnd, dropPrefix?]
  · exact noMatch_of_plainName _ endRegex_none _ _ h
  · simp [NoMatch, markClose, endRegex, fileEnd, dropPrefix?]

theorem noMatch_endRegex_renderPieces (qs : List Piece) (rest : Str)
    (h : ∀ p ∈ qs, p.WellFormed) (hnf : ∀ p ∈ qs, p.notFile = true) :
    NoMatch endRegex (renderPieces qs) rest := by
  induction qs with
  | nil => trivial
  | cons p qs ih =>
    have hp := h p (List.mem_cons_self p qs)
    have hf := hnf p (List.mem_cons_self p qs)
    have ih := ih (fun q hq => h q (List.mem_cons_of_mem p hq))
      (fun q hq => hnf q (List.mem_cons_of_mem p hq))
    cases p with
    | prose t => exact NoMatch.append (noMatch_of_plainText _ endRegex_none t _ hp) ih
    | file n b => simp [Piece.notFile] at hf
    | operation c => exact NoMatch.append (noMatch_endRegex_operationDirective c _ hp) ih

theorem noMatch_operationRegex_fileStart (name rest : Str) (hn : PlainName name) :
    NoMatch operationRegex (fileStart name) rest := by
  unfold fileStart
  refine NoMatch.append ?_ (NoMatch.append ?_ ?_)
  · simp [NoMatch, fileOpen, operationRegex, opOpen, dropPrefix?]
  · exact noMatch_of_plainName _ operationRegex_none _ _ hn
  · simp [NoMatch, markClose, operationRegex, opOpen, dropPrefix?]

theorem withoutFiles_of_notFile (qs : List Piece) (hnf : ∀ p ∈ qs, p.notFile = true) :
    withoutFiles qs = qs := by
  induction qs with
  | nil => rfl
  | cons p qs ih =>
    have hf := hnf p (List.mem_cons_self p qs)
    have ih := ih fun q hq => hnf q (List.mem_cons_of_mem p hq)
    cases p with
    | prose t => rw [withoutFiles, ih]
    | file n b => simp [Piece.notFile] at hf
    | operation c => rw [withoutFiles, ih]

theorem piecesFiles_of_notFile (qs : List Piece) (hnf : ∀ p ∈ qs, p.notFile = true) :
    piecesFiles qs = [] := by
  induction qs with
  | nil => rfl
  | cons p qs ih =>
    have hf := hnf p (List.mem_cons_self p qs)
    have ih := ih fun q hq => hnf q (List.mem_cons_of_mem p hq)
    cases p with
    | prose t => rw [piecesFiles, ih]
    | file n b => simp [Piece.notFile] at hf
    | operation c => rw [piecesFiles, ih]

/-! ### Well-formed pieces followed by any text -/

theorem execAll_operationRegex_renderPieces_append (ps : List Piece) (tail : Str)
    (h : ∀ p ∈ ps, p.WellFormed) :
    ∀ pos, (execAll operationRegex pos 0 (renderPieces ps ++ tail)).map
        (fun m => Action.operation (trim m.groups))
      = piecesOperations ps
        ++ (execAll operationRegex (pos + (renderPieces ps).length) 0 tail).map
          (fun m => Action.operation (trim m.groups)) := by
  induction ps with
  | nil => intro pos; rfl
  | cons p ps ih =>
    intro pos
    have hp := h p (List.mem_cons_self p ps)
    have ih := ih fun q hq => h q (List.mem_cons_of_mem p hq)
    have hlen : pos + (renderPieces (p :: ps)).length
        = pos + p.render.length + (renderPieces ps).length := by
      rw [renderPieces, List.length_append, Nat.add_assoc]
    rw [hlen, renderPieces, List.append_assoc]
    cases p with
    | prose t =>
      rw [Piece.render,
        execAll_noMatch _ _ _ _ (noMatch_of_plainText _ operationRegex_none t _ hp), ih]
      rfl
    | file n b =>
      rw [Piece.render,
        execAll_noMatch _ _ _ _ (noMatch_operationRegex_fileDirective n b _ hp.1 hp.2), ih]
      rfl
    | operation c =>
      rw [Piece.render,
        execAll_match_append _ _ _ c pos (operationDirective_ne_nil c)
          (operationRegex_directive c _ hp), List.map_cons, ih]
      rfl

theorem execAll_fileRegex_renderPieces_append (ps : List Piece) (tail : Str)
    (h : ∀ p ∈ ps, p.WellFormed) :
    ∀ pos, (execAll fileRegex pos 0 (renderPieces ps ++ tail)).map
        (fun m => Action.file (trim m.groups.1) (trim m.groups.2))
      = piecesFiles ps
        ++ (execAll fileRegex (pos + (renderPieces ps).length) 0 tail).map
          (fun m => Action.file (trim m.groups.1) (trim m.groups.2)) := by
  induction ps with
  | nil => intro pos; rfl
  | cons p ps ih =>
    intro pos
    have hp := h p (List.mem_cons_self p ps)
    have ih := ih fun q hq => h q (List.mem_cons_of_mem p hq)
    have hlen : pos + (renderPieces (p :: ps)).length
        = pos + p.render.length + (renderPieces ps).length := by
      rw [renderPieces, List.length_append, Nat.add_assoc]
    rw [hlen, renderPieces, List.append_assoc]
    cases p with
    | prose t =>
      rw [Piece.render,
        execAll_noMatch _ _ _ _ (noMatch_of_plainText _ fileRegex_none t _ hp), ih]
      rfl
    | file n b =>
      rw [Piece.render,
        execAll_match_append _ _ _ (n, b) pos (fileDirective_ne_nil n b)
          (fileRegex_directive n b _ hp.1 hp.2), List.map_cons, ih]
      rfl
    | operation c =>
      rw [Piece.render,
        execAll_noMatch _ _ _ _ (noMatch_fileRegex_operationDirective c _ hp), ih]
      rfl

theorem replaceAll_fileRegex_renderPieces_append (ps : List Piece) (tail : Str)
    (h : ∀ p ∈ ps, p.WellFormed) :
    replaceAll fileRegex 0 (renderPieces ps ++ tail)
      = renderPieces (withoutFiles ps) ++ replaceAll fileRegex 0 tail := by
  induction ps with
  | nil => rfl
  | cons p ps ih =>
    have hp := h p (List.mem_cons_self p ps)
    have ih := ih fun q hq => h q (List.mem_cons_of_mem p hq)
    rw [renderPieces, List.append_assoc]
    cases p with
    | prose t =>
      rw [Piece.render,
        replaceAll_noMatch _ _ _ (noMatch_of_plainText _ fileRegex_none t _ hp), ih,
        withoutFiles, renderPieces, Piece.render, List.append_assoc]
    | file n b =>
      rw [Piece.render,
        replaceAll_match_append _ _ _ (n, b) (fileDirective_ne_nil n b)
          (fileRegex_directive n b _ hp.1 hp.2), ih, withoutFiles]
    | operation c =>
      rw [Piece.render,
        replaceAll_noMatch _ _ _ (noMatch_fileRegex_operationDirective c _ hp), ih,
        withoutFiles, renderPieces, Piece.render, List.append_assoc]

theorem replaceAll_operationRegex_withoutFiles_append (ps : List Piece) (tail : Str)
    (h : ∀ p ∈ ps, p.WellFormed) :
    replaceAll operationRegex 0 (renderPieces (withoutFiles ps) ++ tail)
      = proseOf ps ++ replaceAll operationRegex 0 tail := by
  induction ps with
  | nil => rfl
  | cons p ps ih =>
    have hp := h p (List.mem_cons_self p ps)
    have ih := ih fun q hq => h q (List.mem_cons_of_mem p hq)
    cases p with
    | prose t =>
      rw [withoutFiles, renderPieces, Piece.render, List.append_assoc,
        replaceAll_noMatch _ _ _ (noMatch_of_plainText _ operationRegex_none t _ hp), ih,
        proseOf, List.append_assoc]
    | file n b =>
      rw [withoutFiles, ih, proseOf]
    | operation c =>
      rw [withoutFiles, renderPieces, Piece.render, List.append_assoc,
        replaceAll_match_append _ _ _ c (operationDirective_ne_nil c)
          (operationRegex_directive c _ hp), ih, proseOf]

/-- A text of well-formed pieces with one unterminated start marker, after
which no file-write directive comes: what is extracted and what is shown. -/
theorem parse_unterminated (ps qs : List Piece) (name : Str)
    (hps : ∀ p ∈ ps, p.WellFormed) (hqs : ∀ p ∈ qs, p.WellFormed)
    (hnf : ∀ p ∈ qs, p.notFile = true) (hn : PlainName name) :
    extractFiles (renderPieces ps ++ (fileStart name ++ renderPieces qs)) = piecesFiles ps ∧
    extractOperations (renderPieces ps ++ (fileStart name ++ renderPieces qs))
      = piecesOperations ps ++ piecesOperations qs ∧
    cleanText (renderPieces ps ++ (fileStart name ++ renderPieces qs))
      = proseOf ps ++ (fileStart name ++ proseOf qs) := by
  have hno : ¬ fileEnd <:+: (fileStart name ++ renderPieces qs) ++ [] := by
    rw [List.append_nil]
    apply no_end_of_noMatch
    exact NoMatch.append (noMatch_endRegex_fileStart name _ hn)
      (noMatch_endRegex_renderPieces qs [] hqs hnf)
  have hnm : NoMatch fileRegex (fileStart name ++ renderPieces qs) [] :=
    noMatch_fileRegex_of_no_end _ [] hno
  have hfr : replaceAll fileRegex 0 (fileStart name ++ renderPieces qs)
      = fileStart name ++ renderPieces qs := by
    have := replaceAll_noMatch fileRegex _ [] hnm
    simpa [replaceAll] using this
  refine ⟨?_, ?_, ?_⟩
  · rw [extractFiles, execAll_fileRegex_renderPieces_append ps _ hps 0,
      execAll_of_noMatch_all _ _ hnm]
    simp
  · rw [extractOperations, execAll_operationRegex_renderPieces_append ps _ hps 0,
      execAll_noMatch _ _ _ _ (noMatch_operationRegex_fileStart name _ hn),
      execAll_operationRegex_renderPieces qs hqs]
  · rw [cleanText, replaceAll_fileRegex_renderPieces_append ps _ hps, hfr,
      replaceAll_operationRegex_withoutFiles_append ps _ hps,
      replaceAll_noMatch _ _ _ (noMatch_operationRegex_fileStart name _ hn)]
    have := replaceAll_operationRegex_withoutFiles qs hqs
    rw [withoutFiles_of_notFile qs hnf] at this
    rw [this]

theorem replaceAll_sublist {α : Type} (re : Str → Option (α × Str)) (s : Str) :
    ∀ k, (replaceAll re k s).Sublist s := by
  induction s with
  | nil => intro k; cases k <;> exact List.Sublist.slnil
  | cons c s ih =>
    intro k
    cases k with
    | succ k =>
      rw [replaceAll_cons_succ]
      exact (ih k).cons c
    | zero =>
      cases hre : re (c :: s) with
      | none =>
        rw [replaceAll_cons_none re c s hre]
        exact (ih 0).cons₂ c
      | some x =>
        rw [replaceAll_cons_some re c s x.2 x.1 hre]
        exact (ih _).cons c

theorem cleanText_sublist (text : Str) : (cleanText text).Sublist text :=
  (replaceAll_sublist operationRegex _ 0).trans (replaceAll_sublist fileRegex text 0)

theorem commandModelTurn_thrown (s : Session) (fs : FS) (response : Except Str Str) :
    (commandModelTurn s fs response).thrown = none := by
  cases response with
  | error m => rfl
  | ok raw =>
    simp only [commandModelTurn]
    repeat' split
    all_goals rfl

theorem commandModelTurn_no_directive (s : Session) (fs : FS) (raw : Str)
    (h : stagedBatch (replaceAll thinkRegex 0 raw) = []) :
    (commandModelTurn s fs (.ok raw)).session = s ∧
    (commandModelTurn s fs (.ok raw)).out
      = [Out.thinking]
        ++ (execAll thinkRegex 0 0 raw).map (fun m => Out.reasoning (trim m.groups))
        ++ [Out.modelText (replaceAll thinkRegex 0 raw), Out.prompt] := by
  simp only [stagedBatch, List.append_eq_nil] at h
  have hlen : ¬ ((extractFiles (replaceAll thinkRegex 0 raw)).length
      + (extractOperations (replaceAll thinkRegex 0 raw)).length > 0) := by
    simp [h.1, h.2]
  simp only [commandModelTurn, if_neg hlen]
  split <;> exact ⟨rfl, rfl⟩


/-! ### The chain of the slash commands -/

theorem commandSlash_pwd (fuel : Nat) (s : Session) (fs : FS) (cmd : Str)
    (h : commandOf cmd = "/pwd".toList) :
    commandSlash fuel s fs cmd = some (commandPwd s fs) := by
  unfold commandOf at h
  unfold commandSlash
  simp only [h]
  rfl

theorem commandSlash_ls (fuel : Nat) (s : Session) (fs : FS) (cmd : Str)
    (h : commandOf cmd = "/ls".toList) :
    commandSlash fuel s fs cmd = some (commandLs s fs) := by
  unfold commandOf at h
  unfold commandSlash
  simp only [h]
  rfl

theorem commandSlash_files (fuel : Nat) (s : Session) (fs : FS) (cmd : Str)
    (h : commandOf cmd = "/files".toList) :
    commandSlash fuel s fs cmd = some (commandLs s fs) := by
  unfold commandOf at h
  unfold commandSlash
  simp only [h]
  rfl

theorem commandSlash_cd (fuel : Nat) (s : Session) (fs : FS) (cmd : Str)
    (h : commandOf cmd = verbCd) :
    commandSlash fuel s fs cmd = some (commandCd s fs (argsOf cmd)) := by
  unfold commandOf at h
  unfold commandSlash
  simp only [h]
  rfl

theorem commandSlash_mkdir (fuel : Nat) (s : Session) (fs : FS) (cmd : Str)
    (h : commandOf cmd = verbMkdir) :
    commandSlash fuel s fs cmd = some (commandMkdir s fs (argsOf cmd)) := by
  unfold commandOf at h
  unfold commandSlash
  simp only [h]
  rfl

theorem commandSlash_cat (fuel : Nat) (s : Session) (fs : FS) (cmd : Str)
    (h : commandOf cmd = "/cat".toList) :
    commandSlash fuel s fs cmd = some (commandCat s fs (argsOf cmd)) := by
  unfold commandOf at h
  unfold commandSlash
  simp only [h]
  rfl

theorem commandSlash_view (fuel : Nat) (s : Session) (fs : FS) (cmd : Str)
    (h : commandOf cmd = "/view".toList) :
    commandSlash fuel s fs cmd = some (commandCat s fs (argsOf cmd)) := by
  unfold commandOf at h
  unfold commandSlash
  simp only [h]
  rfl

theorem commandSlash_clear (fuel : Nat) (s : Session) (fs : FS) (cmd : Str)
    (h : commandOf cmd = "/clear".toList) :
    commandSlash fuel s fs cmd = some (commandClear s fs) := by
  unfold commandOf at h
  unfold commandSlash
  simp only [h]
  rfl

theorem commandSlash_cls (fuel : Nat) (s : Session) (fs : FS) (cmd : Str)
    (h : commandOf cmd = "/cls".toList) :
    commandSlash fuel s fs cmd = some (commandClear s fs) := by
  unfold commandOf at h
  unfold commandSlash
  simp only [h]
  rfl

theorem commandSlash_touch (fuel : Nat) (s : Session) (fs : FS) (cmd : Str)
    (h : commandOf cmd = verbTouch) :
    commandSlash fuel s fs cmd = some (commandTouch s fs (argsOf cmd)) := by
  unfold commandOf at h
  unfold commandSlash
  simp only [h]
  rfl

theorem commandSlash_cp (fuel : Nat) (s : Session) (fs : FS) (cmd : Str)
    (h : commandOf cmd = verbCp) :
    commandSlash fuel s fs cmd = some (commandCp s fs (argsOf cmd)) := by
  unfold commandOf at h
  unfold commandSlash
  simp only [h]
  rfl

theorem commandSlash_copy (fuel : Nat) (s : Session) (fs : FS) (cmd : Str)
    (h : commandOf cmd = "/copy".toList) :
    commandSlash fuel s fs cmd = some (commandCp s fs (argsOf cmd)) := by
  unfold commandOf at h
  unfold commandSlash
  simp only [h]
  rfl

theorem commandSlash_mv (fuel : Nat) (s : Session) (fs : FS) (cmd : Str)
    (h : commandOf cmd = verbMv) :
    commandSlash fuel s fs cmd = some (commandMv s fs (argsOf cmd)) := by
  unfold commandOf at h
  unfold commandSlash
  simp only [h]
  rfl

theorem commandSlash_move (fuel : Nat) (s : Session) (fs : FS) (cmd : Str)
    (h : commandOf cmd = "/move".toList) :
    commandSlash fuel s fs cmd = some (commandMv s fs (argsOf cmd)) := by
  unfold commandOf at h
  unfold commandSlash
  simp only [h]
  rfl

theorem commandSlash_rename (fuel : Nat) (s : Session) (fs : FS) (cmd : Str)
    (h : commandOf cmd = "/rename".toList) :
    commandSlash fuel s fs cmd = some (commandMv s fs (argsOf cmd)) := by
  unfold commandOf at h
  unfold commandSlash
  simp only [h]
  rfl

theorem commandSlash_find (fuel : Nat) (s : Session) (fs : FS) (cmd : Str)
    (h : commandOf cmd = "/find".toList) :
    commandSlash fuel s fs cmd = some (commandFind s fs (argsOf cmd)) := by
  unfold commandOf at h
  unfold commandSlash
  simp only [h]
  rfl

theorem commandSlash_search (fuel : Nat) (s : Session) (fs : FS) (cmd : Str)
    (h : commandOf cmd = "/search".toList) :
    commandSlash fuel s fs cmd = some (commandFind s fs (argsOf cmd)) := by
  unfold commandOf at h
  unfold commandSlash
  simp only [h]
  rfl

theorem commandSlash_echo (fuel : Nat) (s : Session) (fs : FS) (cmd : Str)
    (h : commandOf cmd = "/echo".toList) :
    commandSlash fuel s fs cmd = some (commandEcho s fs (argsOf cmd)) := by
  unfold commandOf at h
  unfold commandSlash
  simp only [h]
  rfl

theorem commandSlash_tree (fuel : Nat) (s : Session) (fs : FS) (cmd : Str)
    (h : commandOf cmd = "/tree".toList) :
    commandSlash fuel s fs cmd = commandTree fuel s fs := by
  unfold commandOf at h
  unfold commandSlash
  simp only [h]
  rfl

theorem commandSlash_rm (fuel : Nat) (s : Session) (fs : FS) (cmd : Str)
    (h : commandOf cmd = verbRm) :
    commandSlash fuel s fs cmd = some (commandRm s fs (argsOf cmd)) := by
  unfold commandOf at h
  unfold commandSlash
  simp only [h]
  rfl

theorem commandSlash_del (fuel : Nat) (s : Session) (fs : FS) (cmd : Str)
    (h : commandOf cmd = "/del".toList) :
    commandSlash fuel s fs cmd = some (commandRm s fs (argsOf cmd)) := by
  unfold commandOf at h
  unfold commandSlash
  simp only [h]
  rfl

theorem commandSlash_rmdir (fuel : Nat) (s : Session) (fs : FS) (cmd : Str)
    (h : commandOf cmd = verbRmdir) :
    commandSlash fuel s fs cmd = some (commandRmdir s fs (argsOf cmd)) := by
  unfold commandOf at h
  unfold commandSlash
  simp only [h]
  rfl

theorem commandSlash_help (fuel : Nat) (s : Session) (fs : FS) (cmd : Str)
    (h : commandOf cmd = "/help".toList) :
    commandSlash fuel s fs cmd = some (commandHelp s fs) := by
  unfold commandOf at h
  unfold commandSlash
  simp only [h]
  rfl

theorem commandSlash_question (fuel : Nat) (s : Session) (fs : FS) (cmd : Str)
    (h : commandOf cmd = "/?".toList) :
    commandSlash fuel s fs cmd = some (commandHelp s fs) := by
  unfold commandOf at h
  unfold commandSlash
  simp only [h]
  rfl

theorem commandSlash_unknown (fuel : Nat) (s : Session) (fs : FS) (cmd : Str)
    (h : commandOf cmd ∉ userVerbs) :
    commandSlash fuel s fs cmd = some (commandUnknown s fs (tokenOf cmd)) := by
  simp only [userVerbs, List.mem_cons, List.mem_singleton, not_or, List.not_mem_nil,
    not_false_eq_true, and_true] at h
  unfold commandOf at h
  unfold commandSlash tokenOf
  simp only [h, if_false, false_or]

/-! ### The slash commands and the session -/

theorem commandPwd_frame (s : Session) (fs : FS) (p : List Action) :
    (commandPwd s fs).session = s ∧
    commandPwd { s with pendingFiles := p } fs
      = { commandPwd s fs with session := { s with pendingFiles := p } } :=
  ⟨rfl, rfl⟩

theorem commandLs_frame (s : Session) (fs : FS) (p : List Action) :
    (commandLs s fs).session = s ∧
    commandLs { s with pendingFiles := p } fs
      = { commandLs s fs with session := { s with pendingFiles := p } } := by
  simp only [commandLs, caught, reply]
  constructor
  · repeat' split
    all_goals rfl
  · repeat' split
    all_goals rfl

theorem commandMkdir_frame (s : Session) (fs : FS) (args : List Str) (p : List Action) :
    (commandMkdir s fs args).session = s ∧
    commandMkdir { s with pendingFiles := p } fs args
      = { commandMkdir s fs args with session := { s with pendingFiles := p } } := by
  simp only [commandMkdir, caught, reply]
  constructor
  · repeat' split
    all_goals rfl
  · repeat' split
    all_goals rfl

theorem commandCat_frame (s : Session) (fs : FS) (args : List Str) (p : List Action) :
    (commandCat s fs args).session = s ∧
    commandCat { s with pendingFiles := p } fs args
      = { commandCat s fs args with session := { s with pendingFiles := p } } := by
  simp only [commandCat, caught, reply]
  constructor
  · repeat' split
    all_goals rfl
  · repeat' split
    all_goals rfl

theorem commandClear_frame (s : Session) (fs : FS) (p : List Action) :
    (commandClear s fs).session = s ∧
    commandClear { s with pendingFiles := p } fs
      = { commandClear s fs with session := { s with pendingFiles := p } } :=
  ⟨rfl, rfl⟩

theorem commandTouch_frame (s : Session) (fs : FS) (args : List Str) (p : List Action) :
    (commandTouch s fs args).session = s ∧
    commandTouch { s with pendingFiles := p } fs args
      = { commandTouch s fs args with session := { s with pendingFiles := p } } := by
  simp only [commandTouch, caught, reply]
  constructor
  · repeat' split
    all_goals rfl
  · repeat' split
    all_goals rfl

theorem commandCp_frame (s : Session) (fs : FS) (args : List Str) (p : List Action) :
    (commandCp s fs args).session = s ∧
    commandCp { s with pendingFiles := p } fs args
      = { commandCp s fs args with session := { s with pendingFiles := p } } := by
  unfold commandCp
  simp only [caught, reply]
  constructor
  · repeat' split
    all_goals rfl
  · repeat' split
    all_goals rfl

theorem commandMv_frame (s : Session) (fs : FS) (args : List Str) (p : List Action) :
    (commandMv s fs args).session = s ∧
    commandMv { s with pendingFiles := p } fs args
      = { commandMv s fs args with session := { s with pendingFiles := p } } := by
  unfold commandMv
  simp only [caught, reply]
  constructor
  · repeat' split
    all_goals rfl
  · repeat' split
    all_goals rfl

theorem commandFind_frame (s : Session) (fs : FS) (args : List Str) (p : List Action) :
    (commandFind s fs args).session = s ∧
    commandFind { s with pendingFiles := p } fs args
      = { commandFind s fs args with session := { s with pendingFiles := p } } := by
  simp only [commandFind, caught, reply]
  constructor
  · repeat' split
    all_goals rfl
  · repeat' split
    all_goals rfl

theorem commandEcho_frame (s : Session) (fs : FS) (args : List Str) (p : List Action) :
    (commandEcho s fs args).session = s ∧
    commandEcho { s with pendingFiles := p } fs args
      = { commandEcho s fs args with session := { s with pendingFiles := p } } :=
  ⟨rfl, rfl⟩

theorem commandRm_frame (s : Session) (fs : FS) (args : List Str) (p : List Action) :
    (commandRm s fs args).session = s ∧
    commandRm { s with pendingFiles := p } fs args
      = { commandRm s fs args with session := { s with pendingFiles := p } } := by
  simp only [commandRm, caught, reply]
  constructor
  · repeat' split
    all_goals rfl
  · repeat' split
    all_goals rfl

theorem commandRmdir_frame (s : Session) (fs : FS) (args : List Str) (p : List Action) :
    (commandRmdir s fs args).session = s ∧
    commandRmdir { s with pendingFiles := p } fs args
      = { commandRmdir s fs args with session := { s with pendingFiles := p } } := by
  simp only [commandRmdir, caught, reply]
  constructor
  · repeat' split
    all_goals rfl
  · repeat' split
    all_goals rfl

theorem commandHelp_frame (s : Session) (fs : FS) (p : List Action) :
    (commandHelp s fs).session = s ∧
    commandHelp { s with pendingFiles := p } fs
      = { commandHelp s fs with session := { s with pendingFiles := p } } :=
  ⟨rfl, rfl⟩

theorem commandUnknown_frame (s : Session) (fs : FS) (command : Str) (p : List Action) :
    (commandUnknown s fs command).session = s ∧
    commandUnknown { s with pendingFiles := p } fs command
      = { commandUnknown s fs command with session := { s with pendingFiles := p } } :=
  ⟨rfl, rfl⟩

theorem commandTree_frame (fuel : Nat) (s : Session) (fs : FS) (p : List Action) :
    (∀ r, commandTree fuel s fs = some r → r.session = s) ∧
    commandTree fuel { s with pendingFiles := p } fs
      = (commandTree fuel s fs).map
          fun r => { r with session := { r.session with pendingFiles := p } } := by
  simp only [commandTree, commandTreeWith, caught, reply]
  constructor
  · intro r
    split <;> intro h
    · cases h
    · cases h; rfl
    · cases h; rfl
  · split <;> rfl

/-- The target of `/cd`: the parent for `..`, the resolved path otherwise. -/
theorem commandCd_frame (s : Session) (fs : FS) (args : List Str) (p : List Action) :
    (commandCd s fs args).session.pendingFiles = s.pendingFiles ∧
    (commandCd s fs args).session.currentMode = s.currentMode ∧
    (commandCd s fs args).fs = fs ∧
    ((commandCd s fs args).session.workingDirectory ≠ s.workingDirectory →
      args ≠ [] ∧
      isDirectory fs (commandCd s fs args).session.workingDirectory = true ∧
      (commandCd s fs args).session.workingDirectory
        = (if args.head? = some ['.', '.'] then pathDirname s.workingDirectory
           else pathResolve s.workingDirectory (join ' ' args))) ∧
    commandCd { s with pendingFiles := p } fs args
      = { commandCd s fs args with
          session := { (commandCd s fs args).session with pendingFiles := p } } := by
  by_cases h0 : args.length = 0
  · have e : ∀ t : Session, commandCd t fs args
        = { session := t, fs := fs,
            out := [Out.usage ['/', 'c', 'd', ' ', '<', 'd', 'i', 'r', 'e', 'c', 't', 'o', 'r',
              'y', '>'], Out.prompt],
            spawned := [], thrown := none, visited := [] } := fun t => by
      unfold commandCd
      rw [if_pos h0]
    rw [e s, e { s with pendingFiles := p }]
    exact ⟨rfl, rfl, rfl, fun h => absurd rfl h, rfl⟩
  · have hne : args ≠ [] := fun h => h0 (by rw [h]; rfl)
    by_cases hd : (existsSync fs (if args.head? = some ['.', '.'] then pathDirname s.workingDirectory
        else pathResolve s.workingDirectory (join ' ' args)) &&
      isDirectory fs (if args.head? = some ['.', '.'] then pathDirname s.workingDirectory
        else pathResolve s.workingDirectory (join ' ' args))) = true
    · have e : ∀ q : List Action, commandCd { s with pendingFiles := q } fs args
          = { session := { s with
                workingDirectory := (if args.head? = some ['.', '.']
                  then pathDirname s.workingDirectory
                  else pathResolve s.workingDirectory (join ' ' args)),
                pendingFiles := q },
              fs := fs,
              out := [Out.changedTo (if args.head? = some ['.', '.']
                  then pathDirname s.workingDirectory
                  else pathResolve s.workingDirectory (join ' ' args)), Out.prompt],
              spawned := [], thrown := none, visited := [] } := fun q => by
        unfold commandCd
        rw [if_neg h0]
        exact if_pos hd
      have es := e s.pendingFiles
      change commandCd s fs args = _ at es
      rw [es, e p]
      simp only [Bool.and_eq_true] at hd
      exact ⟨rfl, rfl, rfl, fun _ => ⟨hne, hd.2, rfl⟩, rfl⟩
    · have e : ∀ t : Session, t.workingDirectory = s.workingDirectory → commandCd t fs args
          = { session := t, fs := fs, out := [Out.userDirectoryNotFound, Out.prompt],
              spawned := [], thrown := none, visited := [] } := fun t ht => by
        unfold commandCd
        rw [if_neg h0, ht]
        exact if_neg hd
      rw [e s rfl, e { s with pendingFiles := p } rfl]
      exact ⟨rfl, rfl, rfl, fun h => absurd rfl h, rfl⟩

/-- A branch that leaves the session alone, as a step of the chain. -/
theorem frame_of_branch (f : Session → Result) (s : Session) (p : List Action) (P : Result → Prop)
    (h : (f s).session = s ∧
      f { s with pendingFiles := p } = { f s with session := { s with pendingFiles := p } }) :
    (∀ r, some (f s) = some r →
      r.session.pendingFiles = s.pendingFiles ∧ r.session.currentMode = s.currentMode ∧
      (r.session.workingDirectory ≠ s.workingDirectory → P r)) ∧
    some (f { s with pendingFiles := p })
      = (some (f s)).map fun r => { r with session := { r.session with pendingFiles := p } } := by
  constructor
  · intro r hr
    cases hr
    rw [h.1]
    exact ⟨rfl, rfl, fun hne => absurd rfl hne⟩
  · rw [h.2, Option.map_some']
    congr 2
    rw [h.1]


theorem commandSlash_frame (fuel : Nat) (s : Session) (fs : FS) (cmd : Str) (p : List Action) :
    (∀ r, commandSlash fuel s fs cmd = some r →
      r.session.pendingFiles = s.pendingFiles ∧ r.session.currentMode = s.currentMode ∧
      (r.session.workingDirectory ≠ s.workingDirectory →
        commandOf cmd = verbCd ∧ argsOf cmd ≠ [] ∧
        isDirectory fs r.session.workingDirectory = true ∧
        r.session.workingDirectory
          = (if (argsOf cmd).head? = some ['.', '.'] then pathDirname s.workingDirectory
             else pathResolve s.workingDirectory (join ' ' (argsOf cmd))))) ∧
    commandSlash fuel { s with pendingFiles := p } fs cmd
      = (commandSlash fuel s fs cmd).map
          fun r => { r with session := { r.session with pendingFiles := p } } := by
  by_cases hmem : commandOf cmd ∈ userVerbs
  · simp only [userVerbs, List.mem_cons, List.mem_singleton, List.not_mem_nil, or_false] at hmem
    rcases hmem with h | h | h | h | h | h | h | h | h | h | h | h | h | h | h | h | h | h | h | h | h | h | h | h
    · rw [commandSlash_pwd fuel s fs cmd h,
        commandSlash_pwd fuel { s with pendingFiles := p } fs cmd h]
      exact frame_of_branch (fun s => commandPwd s fs) s p _ (commandPwd_frame s fs p)
    · rw [commandSlash_ls fuel s fs cmd h,
        commandSlash_ls fuel { s with pendingFiles := p } fs cmd h]
      exact frame_of_branch (fun s => commandLs s fs) s p _ (commandLs_frame s fs p)
    · rw [commandSlash_files fuel s fs cmd h,
        commandSlash_files fuel { s with pendingFiles := p } fs cmd h]
      exact frame_of_branch (fun s => commandLs s fs) s p _ (commandLs_frame s fs p)
    · rw [commandSlash_cd fuel s fs cmd h,
        commandSlash_cd fuel { s with pendingFiles := p } fs cmd h]
      have hc := commandCd_frame s fs (argsOf cmd) p
      refine ⟨?_, ?_⟩
      · intro r hr
        cases hr
        exact ⟨hc.1, hc.2.1, fun hne => ⟨h, hc.2.2.2.1 hne⟩⟩
      · rw [hc.2.2.2.2, Option.map_some']
    · rw [commandSlash_mkdir fuel s fs cmd h,
        commandSlash_mkdir fuel { s with pendingFiles := p } fs cmd h]
      exact frame_of_branch (fun s => commandMkdir s fs _) s p _ (commandMkdir_frame s fs _ p)
    · rw [commandSlash_cat fuel s fs cmd h,
        commandSlash_cat fuel { s with pendingFiles := p } fs cmd h]
      exact frame_of_branch (fun s => commandCat s fs _) s p _ (commandCat_frame s fs _ p)
    · rw [commandSlash_view fuel s fs cmd h,
        commandSlash_view fuel { s with pendingFiles := p } fs cmd h]
      exact frame_of_branch (fun s => commandCat s fs _) s p _ (commandCat_frame s fs _ p)
    · rw [commandSlash_clear fuel s fs cmd h,
        commandSlash_clear fuel { s with pendingFiles := p } fs cmd h]
      exact frame_of_branch (fun s => commandClear s fs) s p _ (commandClear_frame s fs p)
    · rw [commandSlash_cls fuel s fs cmd h,
        commandSlash_cls fuel { s with pendingFiles := p } fs cmd h]
      exact frame_of_branch (fun s => commandClear s fs) s p _ (commandClear_frame s fs p)
    · rw [commandSlash_touch fuel s fs cmd h,
        commandSlash_touch fuel { s with pendingFiles := p } fs cmd h]
      exact frame_of_branch (fun s => commandTouch s fs _) s p _ (commandTouch_frame s fs _ p)
    · rw [commandSlash_cp fuel s fs cmd h,
        commandSlash_cp fuel { s with pendingFiles := p } fs cmd h]
      exact frame_of_branch (fun s => commandCp s fs _) s p _ (commandCp_frame s fs _ p)
    · rw [commandSlash_copy fuel s fs cmd h,
        commandSlash_copy fuel { s with pendingFiles := p } fs cmd h]
      exact frame_of_branch (fun s => commandCp s fs _) s p _ (commandCp_frame s fs _ p)
    · rw [commandSlash_mv fuel s fs cmd h,
        commandSlash_mv fuel { s with pendingFiles := p } fs cmd h]
      exact frame_of_branch (fun s => commandMv s fs _) s p _ (commandMv_frame s fs _ p)
    · rw [commandSlash_move fuel s fs cmd h,
        commandSlash_move fuel { s with pendingFiles := p } fs cmd h]
      exact frame_of_branch (fun s => commandMv s fs _) s p _ (commandMv_frame s fs _ p)
    · rw [commandSlash_rename fuel s fs cmd h,
        commandSlash_rename fuel { s with pendingFiles := p } fs cmd h]
      exact frame_of_branch (fun s => commandMv s fs _) s p _ (commandMv_frame s fs _ p)
    · rw [commandSlash_find fuel s fs cmd h,
        commandSlash_find fuel { s with pendingFiles := p } fs cmd h]
      exact frame_of_branch (fun s => commandFind s fs _) s p _ (commandFind_frame s fs _ p)
    · rw [commandSlash_search fuel s fs cmd h,
        commandSlash_search fuel { s with pendingFiles := p } fs cmd h]
      exact frame_of_branch (fun s => commandFind s fs _) s p _ (commandFind_frame s fs _ p)
    · rw [commandSlash_echo fuel s fs cmd h,
        commandSlash_echo fuel { s with pendingFiles := p } fs cmd h]
      exact frame_of_branch (fun s => commandEcho s fs _) s p _ (commandEcho_frame s fs _ p)
    · rw [commandSlash_tree fuel s fs cmd h,
        commandSlash_tree fuel { s with pendingFiles := p } fs cmd h]
      have ht := commandTree_frame fuel s fs p
      refine ⟨?_, ht.2⟩
      intro r hr
      rw [ht.1 r hr]
      exact ⟨rfl, rfl, fun hne => absurd rfl hne⟩
    · rw [commandSlash_rm fuel s fs cmd h,
        commandSlash_rm fuel { s with pendingFiles := p } fs cmd h]
      exact frame_of_branch (fun s => commandRm s fs _) s p _ (commandRm_frame s fs _ p)
    · rw [commandSlash_del fuel s fs cmd h,
        commandSlash_del fuel { s with pendingFiles := p } fs cmd h]
      exact frame_of_branch (fun s => commandRm s fs _) s p _ (commandRm_frame s fs _ p)
    · rw [commandSlash_rmdir fuel s fs cmd h,
        commandSlash_rmdir fuel { s with pendingFiles := p } fs cmd h]
      exact frame_of_branch (fun s => commandRmdir s fs _) s p _ (commandRmdir_frame s fs _ p)
    · rw [commandSlash_help fuel s fs cmd h,
        commandSlash_help fuel { s with pendingFiles := p } fs cmd h]
      exact frame_of_branch (fun s => commandHelp s fs) s p _ (commandHelp_frame s fs p)
    · rw [commandSlash_question fuel s fs cmd h,
        commandSlash_question fuel { s with pendingFiles := p } fs cmd h]
      exact frame_of_branch (fun s => commandHelp s fs) s p _ (commandHelp_frame s fs p)
  · rw [commandSlash_unknown fuel s fs cmd hmem,
      commandSlash_unknown fuel { s with pendingFiles := p } fs cmd hmem]
    exact frame_of_branch (fun s => commandUnknown s fs _) s p _
      (commandUnknown_frame s fs _ p)

/-- Every slash command but `/tree` returns, whatever the bound on the depth. -/
theorem commandSlash_isSome (fuel : Nat) (s : Session) (fs : FS) (cmd : Str)
    (hn : commandOf cmd ≠ "/tree".toList) : (commandSlash fuel s fs cmd).isSome = true := by
  by_cases hmem : commandOf cmd ∈ userVerbs
  · simp only [userVerbs, List.mem_cons, List.mem_singleton, List.not_mem_nil, or_false] at hmem
    rcases hmem with h | h | h | h | h | h | h | h | h | h | h | h | h | h | h | h | h | h | h | h | h | h | h | h
    · rw [commandSlash_pwd fuel s fs cmd h]
      rfl
    · rw [commandSlash_ls fuel s fs cmd h]
      rfl
    · rw [commandSlash_files fuel s fs cmd h]
      rfl
    · rw [commandSlash_cd fuel s fs cmd h]
      rfl
    · rw [commandSlash_mkdir fuel s fs cmd h]
      rfl
    · rw [commandSlash_cat fuel s fs cmd h]
      rfl
    · rw [commandSlash_view fuel s fs cmd h]
      rfl
    · rw [commandSlash_clear fuel s fs cmd h]
      rfl
    · rw [commandSlash_cls fuel s fs cmd h]
      rfl
    · rw [commandSlash_touch fuel s fs cmd h]
      rfl
    · rw [commandSlash_cp fuel s fs cmd h]
      rfl
    · rw [commandSlash_copy fuel s fs cmd h]
      rfl
    · rw [commandSlash_mv fuel s fs cmd h]
      rfl
    · rw [commandSlash_move fuel s fs cmd h]
      rfl
    · rw [commandSlash_rename fuel s fs cmd h]
      rfl
    · rw [commandSlash_find fuel s fs cmd h]
      rfl
    · rw [commandSlash_search fuel s fs cmd h]
      rfl
    · rw [commandSlash_echo fuel s fs cmd h]
      rfl
    · exact absurd h hn
    · rw [commandSlash_rm fuel s fs cmd h]
      rfl
    · rw [commandSlash_del fuel s fs cmd h]
      rfl
    · rw [commandSlash_rmdir fuel s fs cmd h]
      rfl
    · rw [commandSlash_help fuel s fs cmd h]
      rfl
    · rw [commandSlash_question fuel s fs cmd h]
      rfl
  · rw [commandSlash_unknown fuel s fs cmd hmem]
    rfl



/-! ### The slash commands and the approved operations -/

theorem operationBody_mkdir (cmd : Str) (args : List Str) (st : ExecState) :
    operationBody cmd verbMkdir args st
      = (mkdirSync st.fs (pathJoin st.workingDirectory (join ' ' args))).map fun fs =>
          { st with fs := fs, out := st.out ++ [Out.executed cmd] } := rfl

theorem operationBody_touch (cmd : Str) (args : List Str) (st : ExecState) :
    operationBody cmd verbTouch args st
      = (writeFileAt st.fs st.workingDirectory (join ' ' args) []).map fun fs =>
          { st with fs := fs, out := st.out ++ [Out.executed cmd] } := rfl

theorem operationBody_cp (cmd : Str) (args : List Str) (st : ExecState) :
    operationBody cmd verbCp args st
      = (pathJoinArg st.workingDirectory args[0]?).bind fun source =>
        (pathJoinArg st.workingDirectory args[1]?).bind fun dest =>
        (copyFileSync st.fs source dest).map fun fs =>
          { st with fs := fs, out := st.out ++ [Out.executed cmd] } := rfl

theorem operationBody_mv (cmd : Str) (args : List Str) (st : ExecState) :
    operationBody cmd verbMv args st
      = (pathJoinArg st.workingDirectory args[0]?).bind fun source =>
        (pathJoinArg st.workingDirectory args[1]?).bind fun dest =>
        (renameSync st.fs source dest).map fun fs =>
          { st with fs := fs, out := st.out ++ [Out.executed cmd] } := rfl

theorem operationBody_rm (cmd : Str) (args : List Str) (st : ExecState) :
    operationBody cmd verbRm args st
      = .ok { st with spawned := st.spawned ++
          [Spawn.deleteFile (pathJoin st.workingDirectory (join ' ' args)) (join ' ' args) cmd] } :=
  rfl

theorem operationBody_rmdir (cmd : Str) (args : List Str) (st : ExecState) :
    operationBody cmd verbRmdir args st
      = .ok { st with spawned := st.spawned ++
          [Spawn.deleteDirectory (pathJoin st.workingDirectory (join ' ' args))
            (join ' ' args) cmd] } :=
  rfl

/-- The approval of a batch of one operation, in terms of `runOperation`. -/
theorem approvalResponse_single_operation (s : Session) (fs : FS) (cmd : Str) :
    (approvalResponse true { s with pendingFiles := [Action.operation cmd] } fs).fs
      = (runOperation cmd { ExecState.init s fs with visited := [Action.operation cmd] }).fs ∧
    (approvalResponse true
        { s with pendingFiles := [Action.operation cmd] } fs).session.workingDirectory
      = (runOperation cmd
          { ExecState.init s fs with visited := [Action.operation cmd] }).workingDirectory ∧
    (approvalResponse true { s with pendingFiles := [Action.operation cmd] } fs).spawned
      = (runOperation cmd
          { ExecState.init s fs with visited := [Action.operation cmd] }).spawned :=
  ⟨rfl, rfl, rfl⟩

theorem commandCd_eq_operation (s : Session) (fs : FS) (cmd : Str) (st : ExecState)
    (hwd : st.workingDirectory = s.workingDirectory) (hfs : st.fs = fs)
    (h : commandOf cmd = verbCd) (ha : argsOf cmd ≠ []) :
    (commandCd s fs (argsOf cmd)).fs = (runOperation cmd st).fs ∧
    (commandCd s fs (argsOf cmd)).session.workingDirectory
      = (runOperation cmd st).workingDirectory := by
  subst hfs
  unfold commandOf at h
  have h0 : ¬ (argsOf cmd).length = 0 := fun h0 => ha (List.length_eq_zero.mp h0)
  rw [runOperation_cd st cmd h]
  unfold commandCd
  rw [if_neg h0, hwd]
  unfold argsOf
  generalize (if (split ' ' (trim cmd)).tail.head? = some ['.', '.']
      then pathDirname s.workingDirectory
      else pathResolve s.workingDirectory (join ' ' (split ' ' (trim cmd)).tail)) = target
  by_cases hd : isDirectory st.fs target = true
  · have he := isDirectory_existsSync _ _ hd
    simp [hd, he]
  · simp [hd, hwd]

theorem commandMkdir_eq_operation (s : Session) (fs : FS) (cmd : Str) (st : ExecState)
    (hwd : st.workingDirectory = s.workingDirectory) (hfs : st.fs = fs)
    (h : commandOf cmd = verbMkdir) (ha : argsOf cmd ≠ []) :
    (commandMkdir s fs (argsOf cmd)).fs = (runOperation cmd st).fs ∧
    (commandMkdir s fs (argsOf cmd)).session.workingDirectory
      = (runOperation cmd st).workingDirectory := by
  subst hfs
  unfold commandOf at h
  have h0 : ¬ (argsOf cmd).length = 0 := fun h0 => ha (List.length_eq_zero.mp h0)
  unfold commandMkdir
  rw [if_neg h0]
  unfold argsOf
  simp only [runOperation, h, operationBody_mkdir, hwd]
  cases mkdirSync st.fs (pathJoin s.workingDirectory (join ' ' (split ' ' (trim cmd)).tail)) with
  | error e => exact ⟨rfl, rfl⟩
  | ok fs1 => exact ⟨rfl, rfl⟩

theorem commandTouch_eq_operation (s : Session) (fs : FS) (cmd : Str) (st : ExecState)
    (hwd : st.workingDirectory = s.workingDirectory) (hfs : st.fs = fs)
    (h : commandOf cmd = verbTouch) (ha : argsOf cmd ≠ []) :
    (commandTouch s fs (argsOf cmd)).fs = (runOperation cmd st).fs ∧
    (commandTouch s fs (argsOf cmd)).session.workingDirectory
      = (runOperation cmd st).workingDirectory := by
  subst hfs
  unfold commandOf at h
  have h0 : ¬ (argsOf cmd).length = 0 := fun h0 => ha (List.length_eq_zero.mp h0)
  unfold commandTouch
  rw [if_neg h0]
  unfold argsOf
  simp only [runOperation, h, operationBody_touch, hwd]
  cases writeFileAt st.fs s.workingDirectory (join ' ' (split ' ' (trim cmd)).tail) [] with
  | error e => exact ⟨rfl, rfl⟩
  | ok fs1 => exact ⟨rfl, rfl⟩

theorem copyFileSync_missing (fs : FS) (src dest : Path) (h : existsSync fs src = false) :
    ∃ e, copyFileSync fs src dest = .error e := by
  unfold existsSync at h
  unfold copyFileSync
  cases pathFault src with
  | some e => exact ⟨e, rfl⟩
  | none =>
    cases hg : fs.get src with
    | none => exact ⟨Errno.ENOENT, rfl⟩
    | some n => rw [hg] at h; cases h

theorem renameSync_missing (fs : FS) (src dest : Path) (h : existsSync fs src = false) :
    ∃ e, renameSync fs src dest = .error e := by
  unfold existsSync at h
  unfold renameSync
  cases pathFault src with
  | some e => exact ⟨e, rfl⟩
  | none =>
    cases pathFault dest with
    | some e => exact ⟨e, rfl⟩
    | none =>
      unfold renameNodes
      cases hg : fs.get src with
      | none => exact ⟨Errno.ENOENT, rfl⟩
      | some n => rw [hg] at h; cases h

theorem commandCp_eq_operation (s : Session) (fs : FS) (cmd : Str) (st : ExecState)
    (hwd : st.workingDirectory = s.workingDirectory) (hfs : st.fs = fs)
    (h : commandOf cmd = verbCp) (ha : 2 ≤ (argsOf cmd).length) :
    (commandCp s fs (argsOf cmd)).fs = (runOperation cmd st).fs ∧
    (commandCp s fs (argsOf cmd)).session.workingDirectory
      = (runOperation cmd st).workingDirectory := by
  subst hfs
  unfold commandOf at h
  unfold argsOf at ha ⊢
  simp only [runOperation, h, operationBody_cp, hwd]
  generalize (split ' ' (trim cmd)).tail = args at ha ⊢
  match args, ha with
  | source :: dest :: rest, _ =>
    simp only [commandCp, List.getElem?_cons_zero, List.getElem?_cons_succ, pathJoinArg,
      Except.bind]
    by_cases he : existsSync st.fs (pathJoin s.workingDirectory source) = true
    · rw [if_pos he]
      cases copyFileSync st.fs (pathJoin s.workingDirectory source)
          (pathJoin s.workingDirectory dest) with
      | error e => exact ⟨rfl, rfl⟩
      | ok fs1 => exact ⟨rfl, rfl⟩
    · obtain ⟨e, hce⟩ := copyFileSync_missing st.fs (pathJoin s.workingDirectory source)
        (pathJoin s.workingDirectory dest) (by simpa using he)
      rw [if_neg he, hce]
      exact ⟨rfl, rfl⟩

theorem commandMv_eq_operation (s : Session) (fs : FS) (cmd : Str) (st : ExecState)
    (hwd : st.workingDirectory = s.workingDirectory) (hfs : st.fs = fs)
    (h : commandOf cmd = verbMv) (ha : 2 ≤ (argsOf cmd).length) :
    (commandMv s fs (argsOf cmd)).fs = (runOperation cmd st).fs ∧
    (commandMv s fs (argsOf cmd)).session.workingDirectory
      = (runOperation cmd st).workingDirectory := by
  subst hfs
  unfold commandOf at h
  unfold argsOf at ha ⊢
  simp only [runOperation, h, operationBody_mv, hwd]
  generalize (split ' ' (trim cmd)).tail = args at ha ⊢
  match args, ha with
  | source :: dest :: rest, _ =>
    simp only [commandMv, List.getElem?_cons_zero, List.getElem?_cons_succ, pathJoinArg,
      Except.bind]
    by_cases he : existsSync st.fs (pathJoin s.workingDirectory source) = true
    · rw [if_pos he]
      cases renameSync st.fs (pathJoin s.workingDirectory source)
          (pathJoin s.workingDirectory dest) with
      | error e => exact ⟨rfl, rfl⟩
      | ok fs1 => exact ⟨rfl, rfl⟩
    · obtain ⟨e, hce⟩ := renameSync_missing st.fs (pathJoin s.workingDirectory source)
        (pathJoin s.workingDirectory dest) (by simpa using he)
      rw [if_neg he, hce]
      exact ⟨rfl, rfl⟩



/-! ### An operation directive inside a file body -/

theorem infix_dropWhile (x b : Str) (c : Char) (hx : x.head? = some c)
    (hc : isJsWhitespace c = false) (h : x <:+: b) : x <:+: b.dropWhile isJsWhitespace := by
  induction b with
  | nil =>
    have := List.eq_nil_of_infix_nil h
    rw [this] at hx
    cases hx
  | cons d b ih =>
    rw [List.dropWhile_cons]
    split
    · rename_i hd
      rcases List.infix_cons_iff.mp h with hp | hi
      · obtain ⟨t, ht⟩ := hp
        cases x with
        | nil => cases hx
        | cons y x =>
          simp only [List.cons_append, List.cons.injEq] at ht
          simp only [List.head?_cons, Option.some.injEq] at hx
          rw [← ht.1, hx, hc] at hd
          cases hd
      · exact ih hi
    · exact h

/-- A text that begins and ends with a character that is no white space stays
inside the text it lies in when that text is trimmed. -/
theorem infix_trim (x b : Str) (c d : Char) (hx : x.head? = some c)
    (hc : isJsWhitespace c = false) (hl : x.getLast? = some d)
    (hd : isJsWhitespace d = false) (h : x <:+: b) : x <:+: trim b := by
  have h1 := infix_dropWhile x b c hx hc h
  have h2 : x.reverse <:+: (b.dropWhile isJsWhitespace).reverse := List.reverse_infix.mpr h1
  have h3 := infix_dropWhile x.reverse _ d (by rw [List.head?_reverse]; exact hl) hd h2
  have h4 := List.reverse_infix.mpr h3
  rw [List.reverse_reverse] at h4
  exact h4

theorem operationDirective_infix_trim (command body : Str)
    (h : operationDirective command <:+: body) : operationDirective command <:+: trim body := by
  refine infix_trim _ _ '<' '>' rfl (by decide) ?_ (by decide) h
  unfold operationDirective markClose
  rw [← List.append_assoc]
  simp

/-- A loop over operations alone never throws: each of them is visited. -/
theorem runBatch_operations (ops : List Action)
    (h : ∀ a ∈ ops, ∃ c, a = Action.operation c) :
    ∀ st : ExecState, ∃ st1, runBatch ops st = .ok st1 ∧ st1.visited = st.visited ++ ops := by
  induction ops with
  | nil => intro st; exact ⟨st, rfl, by simp⟩
  | cons a ops ih =>
    intro st
    obtain ⟨c, hc⟩ := h a (List.mem_cons_self a ops)
    subst hc
    obtain ⟨st1, h1, h2⟩ := ih (fun b hb => h b (List.mem_cons_of_mem _ hb))
      (runOperation c { st with visited := st.visited ++ [Action.operation c] })
    refine ⟨st1, ?_, ?_⟩
    · simp only [runBatch, runAction]
      exact h1
    · rw [h2, (runOperation_frame _ _).1]
      simp

/-- The operations of a staged batch are visited whatever the writes do. -/
theorem approvalResponse_visits_operations (s : Session) (fs : FS) (text : Str)
    (hs : s.pendingFiles = stagedBatch text) :
    ∀ a ∈ extractOperations text, a ∈ (approvalResponse true s fs).visited := by
  intro a ha
  have hops : ∀ b ∈ extractOperations text, ∃ c, b = Action.operation c := by
    intro b hb
    simp only [extractOperations, List.mem_map] at hb
    obtain ⟨m, -, hm⟩ := hb
    exact ⟨_, hm.symm⟩
  obtain ⟨st1, h1, h2⟩ := runBatch_operations _ hops (ExecState.init s fs)
  have hrb : runBatch (extractOperations text ++ extractFiles text) (ExecState.init s fs)
      = runBatch (extractFiles text) st1 := by
    rw [runBatch_append, h1]
  simp only [approvalResponse, if_true, hs, stagedBatch]
  rw [hrb]
  simp only [ExecState.init, List.nil_append] at h2
  cases hrun : runBatch (extractFiles text) st1 with
  | ok st2 =>
    have hv := runBatch_ok_visited _ _ _ hrun
    show a ∈ st2.visited
    rw [hv, h2]
    exact List.mem_append_left _ ha
  | error e =>
    obtain ⟨err, st2⟩ := e
    obtain ⟨pre, b, post, -, hvis⟩ := runBatch_error_visited _ _ _ _ hrun
    show a ∈ st2.visited
    rw [hvis, h2]
    exact List.mem_append_left _ ha



/-! ### The recursion of `showTree` -/

theorem pathJoin_name (dir : Path) (seg : Str)
    (h : seg ≠ [] ∧ seg ≠ ['.'] ∧ seg ≠ ['.', '.'] ∧ '/' ∉ seg) :
    pathJoin dir seg = dir ++ [seg] := by
  have hd : split '/' seg = [seg] :=
    split_of_no_sep _ _ fun c hc e => h.2.2.2 (e ▸ hc)
  rw [pathJoin, hd]
  simp [normalize, h.1, h.2.1, h.2.2.1]

theorem FS.length_le_depth (fs : FS) : ∀ e ∈ fs, e.1.length ≤ FS.depth fs := by
  induction fs with
  | nil => intro e he; cases he
  | cons a fs ih =>
    intro e he
    simp only [FS.depth, List.map_cons, List.foldr_cons]
    rcases List.mem_cons.1 he with rfl | he
    · exact Nat.le_max_left _ _
    · exact (ih e he).trans (Nat.le_max_right _ _)

theorem FS.get_length_le (fs : FS) (p : Path) (n : Node) (h : fs.get p = some n) :
    p.length ≤ FS.depth fs := by
  simp only [FS.get, Option.map_eq_some'] at h
  obtain ⟨e, he, -⟩ := h
  have hm := List.mem_of_find?_eq_some he
  have hp := List.find?_some he
  simp only [decide_eq_true_eq] at hp
  rw [← hp]
  exact FS.length_le_depth fs e hm

theorem mem_readdirSync (fs : FS) (dir : Path) (files : List Str) (file : Str)
    (h : readdirSync fs dir = .ok files) (hf : file ∈ files) :
    ∃ e ∈ fs, file ∈ e.1 := by
  unfold readdirSync at h
  split at h
  · simp only [Except.ok.injEq] at h
    rw [← h, (List.perm_insertionSort _ _).mem_iff, List.mem_dedup, List.mem_filterMap] at hf
    obtain ⟨e, he, hfe⟩ := hf
    refine ⟨e, he, ?_⟩
    split at hfe
    · exact List.mem_of_mem_getLast? hfe
    · cases hfe
  · cases h
  · cases h

theorem statSync_ok_true (fs : FS) (p : Path) (h : statSync fs p = .ok true) :
    fs.get p = some Node.dir := by
  unfold statSync at h
  split at h
  · assumption
  · cases h
  · cases h

/-- The loop of `showTree` returns or throws when every descent it starts
does. -/
theorem showTreeLoop_ne_outOfFuel (stat : Path → Except Errno Bool)
    (descend : Path → Str → List Out → TreeRun) (dir : Path) (indent : Str)
    (files : List Str)
    (h : ∀ file ∈ files, stat (pathJoin dir file) = .ok true →
      ∀ ind out, descend (pathJoin dir file) ind out ≠ TreeRun.outOfFuel) :
    ∀ out, showTreeLoop stat descend dir indent files out ≠ TreeRun.outOfFuel := by
  induction files with
  | nil => intro out; simp [showTreeLoop]
  | cons file rest ih =>
    intro out
    have ih := ih fun f hf => h f (List.mem_cons_of_mem _ hf)
    rw [showTreeLoop]
    cases hs : stat (pathJoin dir file) with
    | error e => simp
    | ok isDir =>
      simp only []
      split
      · rename_i hcond
        have hd : stat (pathJoin dir file) = .ok true := by rw [hs, hcond.1]
        have hne := h file (List.mem_cons_self _ _) hd
          (indent ++ (if rest.isEmpty then "    ".toList else "│   ".toList))
          (out ++ [Out.treeLine indent rest.isEmpty isDir file])
        cases hdesc : descend (pathJoin dir file)
            (indent ++ (if rest.isEmpty then "    ".toList else "│   ".toList))
            (out ++ [Out.treeLine indent rest.isEmpty isDir file]) with
        | outOfFuel => exact absurd hdesc hne
        | thrown e out1 => simp
        | done out1 => exact ih out1
      · exact ih _

/-- The recursion of `showTree` ends when `readdir` gives names and `stat`
refuses every path of more than `limit` segments: each descent makes the
path one segment longer. -/
theorem showTree_terminates (readdir : Path → Except Errno (List Str))
    (stat : Path → Except Errno Bool) (limit : Nat)
    (hnames : ∀ dir files, readdir dir = .ok files →
      ∀ f ∈ files, f ≠ [] ∧ f ≠ ['.'] ∧ f ≠ ['.', '.'] ∧ '/' ∉ f)
    (hlimit : ∀ p, stat p = .ok true → p.length ≤ limit) :
    ∀ (fuel : Nat) (dir : Path) (indent : Str) (out : List Out),
      1 ≤ fuel → limit + 2 ≤ dir.length + fuel →
      showTree readdir stat fuel dir indent out ≠ TreeRun.outOfFuel := by
  intro fuel
  induction fuel with
  | zero => intro dir indent out h1; cases h1
  | succ k ih =>
    intro dir indent out _ hk
    rw [showTree]
    cases hr : readdir dir with
    | error e => simp
    | ok files =>
      simp only []
      apply showTreeLoop_ne_outOfFuel
      intro file hfile hstat ind out1
      have hj := pathJoin_name dir file (hnames dir files hr file hfile)
      have hlen := hlimit _ hstat
      rw [hj, List.length_append, List.length_singleton] at hlen
      rw [hj]
      apply ih
      · omega
      · rw [List.length_append, List.length_singleton]
        omega

/-- On a filesystem of plain names `showTree` returns or throws once the
bound on the depth exceeds what is left of the depth of the filesystem. -/
theorem showTree_ne_outOfFuel (fs : FS) (hfs : FS.PlainNames fs) :
    ∀ (fuel : Nat) (dir : Path) (indent : Str) (out : List Out),
      1 ≤ fuel → FS.depth fs + 2 ≤ dir.length + fuel →
      showTree (readdirSync fs) (statSync fs) fuel dir indent out ≠ TreeRun.outOfFuel :=
  showTree_terminates (readdirSync fs) (statSync fs) (FS.depth fs)
    (fun dir files hr file hfile => by
      obtain ⟨e, he, hfe⟩ := mem_readdirSync fs dir files file hr hfile
      exact hfs e he file hfe)
    (fun p hstat => FS.get_length_le fs _ _ (statSync_ok_true fs _ hstat))

theorem commandTreeWith_result (readdir : Path → Except Errno (List Str))
    (stat : Path → Except Errno Bool) (fuel : Nat) (s : Session) (fs : FS) (r : Result)
    (h : commandTreeWith readdir stat fuel s fs = some r) :
    r.fs = fs ∧ r.session = s ∧ r.thrown = none ∧ r.spawned = [] ∧
    r.out.getLast? = some Out.prompt := by
  unfold commandTreeWith at h
  split at h
  · cases h
  · cases h
    refine ⟨rfl, rfl, rfl, rfl, ?_⟩
    simp [caught, reply]
  · cases h
    refine ⟨rfl, rfl, rfl, rfl, ?_⟩
    simp [reply]

theorem commandTreeWith_isSome (readdir : Path → Except Errno (List Str))
    (stat : Path → Except Errno Bool) (limit : Nat)
    (hnames : ∀ dir files, readdir dir = .ok files →
      ∀ f ∈ files, f ≠ [] ∧ f ≠ ['.'] ∧ f ≠ ['.', '.'] ∧ '/' ∉ f)
    (hlimit : ∀ p, stat p = .ok true → p.length ≤ limit)
    (s : Session) (fs : FS) (fuel : Nat) (h : limit + 2 ≤ fuel) :
    (commandTreeWith readdir stat fuel s fs).isSome = true := by
  have hne := showTree_terminates readdir stat limit hnames hlimit fuel s.workingDirectory []
    [Out.treeHeader, Out.treeRoot (pathBasename s.workingDirectory)] (by omega) (by omega)
  unfold commandTreeWith
  split
  · rename_i hh
    exact absurd hh hne
  · rfl
  · rfl

theorem commandTree_isSome (fs : FS) (hfs : FS.PlainNames fs) (s : Session) (fuel : Nat)
    (h : FS.depth fs + 2 ≤ fuel) : (commandTree fuel s fs).isSome = true :=
  commandTreeWith_isSome (readdirSync fs) (statSync fs) (FS.depth fs)
    (fun dir files hr file hfile => by
      obtain ⟨e, he, hfe⟩ := mem_readdirSync fs dir files file hr hfile
      exact hfs e he file hfe)
    (fun p hstat => FS.get_length_le fs _ _ (statSync_ok_true fs _ hstat)) s fs fuel h

/-- The loop of `showTree` with a deeper recursion below it gives the same
when the loop with the shallower one ends. -/
theorem showTreeLoop_congr (stat : Path → Except Errno Bool)
    (descend deeper : Path → Str → List Out → TreeRun) (dir : Path) (indent : Str)
    (hd : ∀ p ind o, descend p ind o ≠ TreeRun.outOfFuel → deeper p ind o = descend p ind o)
    (files : List Str) :
    ∀ out, showTreeLoop stat descend dir indent files out ≠ TreeRun.outOfFuel →
      showTreeLoop stat deeper dir indent files out
        = showTreeLoop stat descend dir indent files out := by
  induction files with
  | nil => intro out _; rfl
  | cons file rest ih =>
    intro out hne
    rw [showTreeLoop] at hne ⊢
    rw [showTreeLoop]
    cases hs : stat (pathJoin dir file) with
    | error e => rfl
    | ok isDir =>
      rw [hs] at hne
      simp only [] at hne ⊢
      split
      · rename_i hcond
        rw [if_pos hcond] at hne
        cases hdesc : descend (pathJoin dir file)
            (indent ++ (if rest.isEmpty then "    ".toList else "│   ".toList))
            (out ++ [Out.treeLine indent rest.isEmpty isDir file]) with
        | outOfFuel => rw [hdesc] at hne; exact absurd rfl hne
        | thrown e out1 =>
          rw [hd _ _ _ (by rw [hdesc]; simp), hdesc]
        | done out1 =>
          rw [hdesc] at hne
          rw [hd _ _ _ (by rw [hdesc]; simp), hdesc]
          exact ih out1 hne
      · rename_i hcond
        rw [if_neg hcond] at hne
        exact ih _ hne

/-- A run of `showTree` that ends is the same with more depth allowed. -/
theorem showTree_succ (readdir : Path → Except Errno (List Str))
    (stat : Path → Except Errno Bool) :
    ∀ (fuel : Nat) (dir : Path) (indent : Str) (out : List Out),
      showTree readdir stat fuel dir indent out ≠ TreeRun.outOfFuel →
      showTree readdir stat (fuel + 1) dir indent out
        = showTree readdir stat fuel dir indent out := by
  intro fuel
  induction fuel with
  | zero => intro dir indent out h; exact absurd rfl h
  | succ k ih =>
    intro dir indent out h
    have e1 : showTree readdir stat (k + 1) dir indent out
        = match readdir dir with
          | .error e => TreeRun.thrown e out
          | .ok files => showTreeLoop stat (showTree readdir stat k) dir indent files out := rfl
    have e2 : showTree readdir stat (k + 1 + 1) dir indent out
        = match readdir dir with
          | .error e => TreeRun.thrown e out
          | .ok files =>
            showTreeLoop stat (showTree readdir stat (k + 1)) dir indent files out := rfl
    rw [e1] at h
    rw [e1, e2]
    cases hr : readdir dir with
    | error e => rfl
    | ok files =>
      rw [hr] at h
      exact showTreeLoop_congr stat _ _ dir indent (fun p ind o hne => ih p ind o hne) files out h

theorem showTree_mono (readdir : Path → Except Errno (List Str))
    (stat : Path → Except Errno Bool) (fuel : Nat) (dir : Path) (indent : Str) (out : List Out)
    (h : showTree readdir stat fuel dir indent out ≠ TreeRun.outOfFuel) :
    ∀ k, showTree readdir stat (fuel + k) dir indent out
      = showTree readdir stat fuel dir indent out := by
  intro k
  induction k with
  | zero => rfl
  | succ k ih =>
    rw [← Nat.add_assoc, showTree_succ readdir stat (fuel + k) dir indent out (by rw [ih]; exact h),
      ih]

/-- A `/tree` that returns gives the same with more depth allowed. -/
theorem commandTreeWith_mono (readdir : Path → Except Errno (List Str))
    (stat : Path → Except Errno Bool) (fuel : Nat) (s : Session) (fs : FS) (r : Result)
    (h : commandTreeWith readdir stat fuel s fs = some r) :
    ∀ k, commandTreeWith readdir stat (fuel + k) s fs = some r := by
  intro k
  have hne : showTree readdir stat fuel s.workingDirectory []
      [Out.treeHeader, Out.treeRoot (pathBasename s.workingDirectory)] ≠ TreeRun.outOfFuel := by
    intro e
    unfold commandTreeWith at h
    rw [e] at h
    cases h
  rw [← h]
  unfold commandTreeWith
  rw [showTree_mono readdir stat fuel _ _ _ hne k]

theorem loopReaddir_names (dir : Path) (files : List Str) (h : loopReaddir dir = .ok files) :
    ∀ f ∈ files, f ≠ [] ∧ f ≠ ['.'] ∧ f ≠ ['.', '.'] ∧ '/' ∉ f := by
  unfold loopReaddir at h
  split at h
  · split at h
    · cases h
      intro f hf
      rw [List.mem_singleton] at hf
      rw [hf]
      decide
    · cases h
  · cases h

theorem loopStat_length (p : Path) (h : loopStat p = .ok true) : p.length ≤ 41 := by
  unfold loopStat at h
  split at h
  · split at h
    · rename_i hl
      cases p with
      | nil => simp
      | cons a p =>
        simp only [List.tail_cons] at hl
        simp only [List.length_cons]
        omega
    · cases h
  · cases h

/-- The loop of `showTree` on a name `node_modules` or `.git`: the line is
sent and the loop goes on with the next name, without a descent. -/
theorem showTreeLoop_skips (stat : Path → Except Errno Bool)
    (descend : Path → Str → List Out → TreeRun) (dir : Path) (indent : Str)
    (file : Str) (rest : List Str) (out : List Out)
    (h : file = "node_modules".toList ∨ file = ".git".toList) :
    showTreeLoop stat descend dir indent (file :: rest) out
      = match stat (pathJoin dir file) with
        | .error e => TreeRun.thrown e out
        | .ok isDir =>
          showTreeLoop stat descend dir indent rest
            (out ++ [Out.treeLine indent rest.isEmpty isDir file]) := by
  rw [showTreeLoop]
  cases stat (pathJoin dir file) with
  | error e => rfl
  | ok isDir =>
    simp only []
    rw [if_neg]
    rintro ⟨-, h1, h2⟩
    rcases h with h | h
    · exact h1 h
    · exact h2 h



/-! ### A file-write directive with an operation directive in its body -/

theorem lazyAny_noMatch (body rest : Str) (h : NoMatch endRegex body (fileEnd ++ rest)) :
    ∀ acc, lazyAny fileEnd (body ++ (fileEnd ++ rest)) acc = some (acc ++ body, rest) := by
  induction body with
  | nil =>
    intro acc
    simp [fileEnd, lazyAny, dropPrefix?]
  | cons c body ih =>
    intro acc
    obtain ⟨h1, h2⟩ := h
    have hnone : dropPrefix? fileEnd (c :: (body ++ (fileEnd ++ rest))) = none := by
      simpa [endRegex] using h1
    rw [List.cons_append, lazyAny, hnone]
    simp only
    rw [ih h2]
    simp

theorem lazyDotFile_noMatch (name body rest : Str) (hn : PlainName name)
    (hb : NoMatch endRegex body (fileEnd ++ rest)) :
    ∀ acc, lazyDotFile (name ++ (markClose ++ (body ++ (fileEnd ++ rest)))) acc
      = some (acc ++ name, body, rest) := by
  induction name with
  | nil =>
    intro acc
    have := lazyAny_noMatch body rest hb []
    simp only [List.nil_append] at this
    simp [markClose, lazyDotFile, dropPrefix?, this]
  | cons c name ih =>
    intro acc
    obtain ⟨_, h2, h3⟩ := hn c (List.mem_cons_self c name)
    have hc : ¬ '>' = c := fun e => h2 e.symm
    rw [List.cons_append, lazyDotFile]
    simp only [markClose, dropPrefix?, hc, if_false, h3, Option.bind]
    rw [← markClose, ih (fun d hd => hn d (List.mem_cons_of_mem c hd))]
    simp

theorem fileRegex_directive_noMatch (name body rest : Str) (hn : PlainName name)
    (hb : NoMatch endRegex body (fileEnd ++ rest)) :
    fileRegex (fileDirective name body ++ rest) = some ((name, body), rest) := by
  have e : fileDirective name body ++ rest
      = fileOpen ++ (name ++ (markClose ++ (body ++ (fileEnd ++ rest)))) := by
    simp [fileDirective]
  rw [e, fileRegex, dropPrefix?_append]
  simp [lazyDotFile_noMatch name body rest hn hb []]

/-- The scan for files over a file-write directive whose body holds an
operation directive between two plain texts. -/
theorem execAll_fileRegex_nested (name before command after rest : Str) (pos : Nat)
    (hn : PlainName name) (hb : PlainText before) (hc : PlainName command)
    (ha : PlainText after) :
    execAll fileRegex pos 0
        (fileDirective name (before ++ (operationDirective command ++ after)) ++ rest)
      = ⟨pos, (name, before ++ (operationDirective command ++ after))⟩
        :: execAll fileRegex
          (pos + (fileDirective name (before ++ (operationDirective command ++ after))).length)
          0 rest := by
  apply execAll_match_append _ _ _ _ pos (fileDirective_ne_nil _ _)
  apply fileRegex_directive_noMatch _ _ _ hn
  refine NoMatch.append ?_ (NoMatch.append ?_ ?_)
  · exact noMatch_of_plainText _ endRegex_none _ _ hb
  · exact noMatch_endRegex_operationDirective _ _ hc
  · exact noMatch_of_plainText _ endRegex_none _ _ ha

/-- The scan for operations over the same directive: it finds the operation
directive in the body. -/
theorem execAll_operationRegex_nested (name before command after rest : Str) (pos : Nat)
    (hn : PlainName name) (hb : PlainText before) (hc : PlainName command)
    (ha : PlainText after) :
    execAll operationRegex pos 0
        (fileDirective name (before ++ (operationDirective command ++ after)) ++ rest)
      = ⟨pos + (fileStart name ++ before).length, command⟩
        :: execAll operationRegex
          (pos + (fileStart name ++ before).length + (operationDirective command).length
            + (after ++ fileEnd).length)
          0 rest := by
  have e : fileDirective name (before ++ (operationDirective command ++ after)) ++ rest
      = (fileStart name ++ before)
        ++ (operationDirective command ++ ((after ++ fileEnd) ++ rest)) := by
    simp [fileDirective, fileStart]
  rw [e, execAll_noMatch _ _ _ pos, execAll_match_append _ _ _ command _
    (operationDirective_ne_nil command) (operationRegex_directive command _ hc),
    execAll_noMatch]
  · refine NoMatch.append (noMatch_of_plainText _ operationRegex_none _ _ ha) ?_
    simp [NoMatch, fileEnd, operationRegex, opOpen, dropPrefix?]
  · exact NoMatch.append (noMatch_operationRegex_fileStart name _ hn)
      (noMatch_of_plainText _ operationRegex_none _ _ hb)

/-- The batch staged from well-formed pieces around one file-write directive
whose body holds an operation directive. -/
theorem stagedBatch_nested (ps qs : List Piece) (name before command after : Str)
    (hps : ∀ p ∈ ps, p.WellFormed) (hqs : ∀ p ∈ qs, p.WellFormed)
    (hn : PlainName name) (hb : PlainText before) (hc : PlainName command)
    (ha : PlainText after) :
    extractOperations (renderPieces ps
        ++ (fileDirective name (before ++ (operationDirective command ++ after))
          ++ renderPieces qs))
      = piecesOperations ps ++ Action.operation (trim command) :: piecesOperations qs ∧
    extractFiles (renderPieces ps
        ++ (fileDirective name (before ++ (operationDirective command ++ after))
          ++ renderPieces qs))
      = piecesFiles ps
        ++ Action.file (trim name) (trim (before ++ (operationDirective command ++ after)))
          :: piecesFiles qs := by
  constructor
  · rw [extractOperations, execAll_operationRegex_renderPieces_append ps _ hps 0,
      execAll_operationRegex_nested name before command after _ _ hn hb hc ha, List.map_cons,
      execAll_operationRegex_renderPieces qs hqs]
  · rw [extractFiles, execAll_fileRegex_renderPieces_append ps _ hps 0,
      execAll_fileRegex_nested name before command after _ _ hn hb hc ha, List.map_cons,
      execAll_fileRegex_renderPieces qs hqs]


/-! ## The claims -/

/-- C1: in agent mode, for every model text (taken without its `<think>`
blocks, as the handler does) with at least one directive, the staged batch is
the operations found by `operationRegex` followed by the files found by
`fileRegex`; each of the two lists is in the order of the text (the indices of its matches increase, and each match is a match of the
regex at its index), however the two kinds are interleaved. On approval the
loop visits the actions from the first on in exactly this order: what it has
visited is always an initial part of the staged batch, and it is the whole
batch when no error leaves the handler. -/
theorem commandModelTurn_stages_operations_then_files (s : Session) (fs fs1 : FS) (raw : Str)
    (hmode : s.currentMode = modeAgent)
    (hne : stagedBatch (replaceAll thinkRegex 0 raw) ≠ []) :
    (commandModelTurn s fs (.ok raw)).session.pendingFiles
      = (execAll operationRegex 0 0 (replaceAll thinkRegex 0 raw)).map
          (fun m => Action.operation (trim m.groups))
        ++ (execAll fileRegex 0 0 (replaceAll thinkRegex 0 raw)).map
          (fun m => Action.file (trim m.groups.1) (trim m.groups.2)) ∧
    (execAll operationRegex 0 0 (replaceAll thinkRegex 0 raw)).Pairwise
      (fun a b => a.index < b.index) ∧
    (execAll fileRegex 0 0 (replaceAll thinkRegex 0 raw)).Pairwise
      (fun a b => a.index < b.index) ∧
    (∀ m ∈ execAll operationRegex 0 0 (replaceAll thinkRegex 0 raw),
      ∃ rest, operationRegex ((replaceAll thinkRegex 0 raw).drop m.index)
        = some (m.groups, rest)) ∧
    (∀ m ∈ execAll fileRegex 0 0 (replaceAll thinkRegex 0 raw),
      ∃ rest, fileRegex ((replaceAll thinkRegex 0 raw).drop m.index)
        = some (m.groups, rest)) ∧
    (approvalResponse true (commandModelTurn s fs (.ok raw)).session fs1).visited
      <+: (commandModelTurn s fs (.ok raw)).session.pendingFiles ∧
    ((approvalResponse true (commandModelTurn s fs (.ok raw)).session fs1).thrown = none →
      (approvalResponse true (commandModelTurn s fs (.ok raw)).session fs1).visited
        = (commandModelTurn s fs (.ok raw)).session.pendingFiles) := by
  have hstage := (commandModelTurn_staged s fs raw hmode hne).2
  refine ⟨hstage, execAll_pairwise _ _ 0 0, execAll_pairwise _ _ 0 0, ?_, ?_, ?_, ?_⟩
  · intro m hm
    simpa using execAll_sound operationRegex _ 0 0 m hm
  · intro m hm
    simpa using execAll_sound fileRegex _ 0 0 m hm
  · exact approvalResponse_visited_prefix _ _
  · exact approvalResponse_visited_all _ _

/-- Witness of C1: a text with a file-write directive before an operation
directive stages the operation first, and the approved loop visits the
operation and then the file write. -/
theorem commandModelTurn_stages_operations_then_files_witness :
    (commandModelTurn ⟨modeAgent, sampleDir, []⟩ sampleFs
      (.ok "<<<FILE: a.txt>>>hi<<<END>>> then <<<OPERATION: /cd site>>>".toList)).session.pendingFiles
      = [Action.operation "/cd site".toList, Action.file "a.txt".toList "hi".toList] ∧
    (approvalResponse true
      (commandModelTurn ⟨modeAgent, sampleDir, []⟩ sampleFs
        (.ok "<<<FILE: a.txt>>>hi<<<END>>> then <<<OPERATION: /cd site>>>".toList)).session
      sampleFs).visited
      = [Action.operation "/cd site".toList, Action.file "a.txt".toList "hi".toList] :=
  have h := commandModelTurn_stages_operations_then_files ⟨modeAgent, sampleDir, []⟩
    sampleFs sampleFs "<<<FILE: a.txt>>>hi<<<END>>> then <<<OPERATION: /cd site>>>".toList
    rfl (by decide)
  ⟨h.1.trans (by decide), (h.2.2.2.2.2.2 (by decide)).trans (h.1.trans (by decide))⟩

/-- C2: a model turn applies nothing. Whatever the model answers, the handler
leaves the filesystem and the working directory as they were, starts no
process, visits no action and throws nothing; the pending batch changes only
in agent mode and only when the text has at least one directive (then it
becomes the staged batch), so in any other mode it stays as it was; and a
reject decision of `approvalResponse` applies nothing either, which leaves the
approve branch of `approvalResponse` as the only place where staged actions
run. -/
theorem commandModelTurn_applies_nothing (s : Session) (fs : FS) (response : Except Str Str) :
    (commandModelTurn s fs response).fs = fs ∧
    (commandModelTurn s fs response).spawned = [] ∧
    (commandModelTurn s fs response).visited = [] ∧
    (commandModelTurn s fs response).thrown = none ∧
    (commandModelTurn s fs response).session.workingDirectory = s.workingDirectory ∧
    ((commandModelTurn s fs response).session.pendingFiles ≠ s.pendingFiles →
      s.currentMode = modeAgent ∧
      ∃ raw, response = .ok raw ∧ stagedBatch (replaceAll thinkRegex 0 raw) ≠ [] ∧
        (commandModelTurn s fs response).session.pendingFiles
          = stagedBatch (replaceAll thinkRegex 0 raw)) ∧
    (s.currentMode ≠ modeAgent →
      (commandModelTurn s fs response).session.pendingFiles = s.pendingFiles) ∧
    (∀ (s1 : Session) (fs1 : FS),
      (approvalResponse false s1 fs1).fs = fs1 ∧
      (approvalResponse false s1 fs1).spawned = [] ∧
      (approvalResponse false s1 fs1).session.workingDirectory = s1.workingDirectory) := by
  refine ⟨?_, ?_, ?_, ?_, ?_, ?_, ?_, ?_⟩
  all_goals try (cases response <;> simp only [commandModelTurn] <;> (repeat' split) <;> rfl)
  · cases response with
    | error m => simp [commandModelTurn]
    | ok raw =>
      simp only [commandModelTurn]
      split
      · next hmode =>
        split
        · next hpos =>
          intro _
          refine ⟨hmode, raw, rfl, ?_, rfl⟩
          intro hnil
          simp only [stagedBatch] at hnil
          rw [List.append_eq_nil] at hnil
          simp [hnil.1, hnil.2] at hpos
        · intro h; exact absurd rfl h
      · intro h; exact absurd rfl h
  · intro hmode
    cases response with
    | error m => rfl
    | ok raw => simp [commandModelTurn, hmode]
  · intro s1 fs1
    simp [approvalResponse]

/-- Witness of C2: the same text stages a batch in agent mode and nothing in
chat mode. -/
theorem commandModelTurn_applies_nothing_witness :
    (commandModelTurn ⟨modeAgent, sampleDir, []⟩ sampleFs
        (.ok "ok <<<OPERATION: /cd site>>>".toList)).session.pendingFiles ≠ [] ∧
    (commandModelTurn ⟨"chat".toList, sampleDir, []⟩ sampleFs
        (.ok "ok <<<OPERATION: /cd site>>>".toList)).session.pendingFiles = [] :=
  ⟨by decide,
   (commandModelTurn_applies_nothing ⟨"chat".toList, sampleDir, []⟩ sampleFs
      (.ok "ok <<<OPERATION: /cd site>>>".toList)).2.2.2.2.2.2.1 (by decide)⟩

/-- C3, at the model text with the two file-write directives `missing/a.txt`
and `b.txt`, staged in agent mode in `/w` (where `/w/missing` does not exist)
and approved: `writeFileSync` throws `ENOENT` at the first write, the error
leaves the handler uncaught, no outcome is sent, and the second write is never
visited, so `/w/b.txt` does not exist afterwards. -/
theorem approvalResponse_write_error_aborts_batch :
    (commandModelTurn ⟨modeAgent, sampleDir, []⟩ sampleFs
      (.ok "<<<FILE: missing/a.txt>>>x<<<END>>><<<FILE: b.txt>>>y<<<END>>>".toList)).session
      = ⟨modeAgent, sampleDir,
          [Action.file "missing/a.txt".toList "x".toList, Action.file "b.txt".toList "y".toList]⟩ ∧
    (approvalResponse true
      ⟨modeAgent, sampleDir,
        [Action.file "missing/a.txt".toList "x".toList, Action.file "b.txt".toList "y".toList]⟩
      sampleFs).thrown = some Errno.ENOENT ∧
    (approvalResponse true
      ⟨modeAgent, sampleDir,
        [Action.file "missing/a.txt".toList "x".toList, Action.file "b.txt".toList "y".toList]⟩
      sampleFs).visited = [Action.file "missing/a.txt".toList "x".toList] ∧
    (approvalResponse true
      ⟨modeAgent, sampleDir,
        [Action.file "missing/a.txt".toList "x".toList, Action.file "b.txt".toList "y".toList]⟩
      sampleFs).out = [] ∧
    (approvalResponse true
      ⟨modeAgent, sampleDir,
        [Action.file "missing/a.txt".toList "x".toList, Action.file "b.txt".toList "y".toList]⟩
      sampleFs).fs.get (pathJoin sampleDir "b.txt".toList) = none := by
  decide

/-- C4 fails as stated: removing the directive `<<<OPERATION: x>>>` from
`<<<OPER<<<OPERATION: x>>>ATION: /rm y>>>` joins the two sides into the
directive `<<<OPERATION: /rm y>>>`, so parsing the cleaned text gives the
batch with the operation `/rm y`. -/
theorem stagedBatch_cleanText_not_empty :
    cleanText "<<<OPER<<<OPERATION: x>>>ATION: /rm y>>>".toList
      = "<<<OPERATION: /rm y>>>".toList ∧
    stagedBatch (cleanText "<<<OPER<<<OPERATION: x>>>ATION: /rm y>>>".toList)
      = [Action.operation "/rm y".toList] := by
  decide

/-- C4, amended: for every text made of prose and well-formed directives,
where prose and file bodies have no `<<<` and no `<` at their end, and names
and commands have no `<`, no `>` and no line terminator, the cleaned text is
the prose alone, and parsing the cleaned text finds no file-write directive
and no operation directive: the batch is empty. -/
theorem stagedBatch_cleanText_renderPieces (ps : List Piece) (h : ∀ p ∈ ps, p.WellFormed) :
    cleanText (renderPieces ps) = proseOf ps ∧
    extractFiles (cleanText (renderPieces ps)) = [] ∧
    extractOperations (cleanText (renderPieces ps)) = [] ∧
    stagedBatch (cleanText (renderPieces ps)) = [] := by
  have hf : extractFiles (proseOf ps) = [] := by
    rw [extractFiles, execAll_of_noMatch_all _ _ (noMatch_proseOf _ fileRegex_none ps h)]
    rfl
  have ho : extractOperations (proseOf ps) = [] := by
    rw [extractOperations,
      execAll_of_noMatch_all _ _ (noMatch_proseOf _ operationRegex_none ps h)]
    rfl
  rw [cleanText_renderPieces ps h]
  exact ⟨rfl, hf, ho, by rw [stagedBatch, hf, ho]; rfl⟩

/-- Witness of C4, amended: prose, a file-write directive and an operation
directive. -/
theorem stagedBatch_cleanText_renderPieces_witness :
    stagedBatch (cleanText (renderPieces
      [Piece.prose "Done: ".toList, Piece.file "a.txt".toList "<b>hi</b>".toList,
       Piece.operation "/cd site".toList])) = [] :=
  (stagedBatch_cleanText_renderPieces
    [Piece.prose "Done: ".toList, Piece.file "a.txt".toList "<b>hi</b>".toList,
     Piece.operation "/cd site".toList]
    (by decide)).2.2.2

/-- C5 fails as stated: with the batch `/mkdir a` pending, a model turn whose
text holds `<<<OPERATION: /cd site>>>` raises no error and replaces the
pending batch; the earlier batch is not kept. -/
theorem commandModelTurn_restage_replaces :
    (commandModelTurn ⟨modeAgent, sampleDir, [Action.operation "/mkdir a".toList]⟩ sampleFs
      (.ok "<<<OPERATION: /cd site>>>".toList)).thrown = none ∧
    (commandModelTurn ⟨modeAgent, sampleDir, [Action.operation "/mkdir a".toList]⟩ sampleFs
      (.ok "<<<OPERATION: /cd site>>>".toList)).session.pendingFiles
      = [Action.operation "/cd site".toList] ∧
    (commandModelTurn ⟨modeAgent, sampleDir, [Action.operation "/mkdir a".toList]⟩ sampleFs
      (.ok "<<<OPERATION: /cd site>>>".toList)).session.pendingFiles
      ≠ [Action.operation "/mkdir a".toList] := by
  decide

/-- C5, amended: the session holds one list `pendingFiles`, and staging never
fails. In agent mode a model turn with at least one directive raises no error
and makes its batch the pending one, whatever was pending before, and the same
holds in the session left by any resolution (approve or reject). -/
theorem commandModelTurn_stage_always_succeeds (s : Session) (fs : FS) (raw : Str)
    (approved : Bool) (fs0 : FS)
    (hmode : s.currentMode = modeAgent)
    (hne : stagedBatch (replaceAll thinkRegex 0 raw) ≠ []) :
    (commandModelTurn s fs (.ok raw)).thrown = none ∧
    (commandModelTurn s fs (.ok raw)).session.pendingFiles
      = stagedBatch (replaceAll thinkRegex 0 raw) ∧
    (commandModelTurn (approvalResponse approved s fs0).session fs (.ok raw)).thrown = none ∧
    (commandModelTurn (approvalResponse approved s fs0).session fs (.ok raw)).session.pendingFiles
      = stagedBatch (replaceAll thinkRegex 0 raw) := by
  exact ⟨(commandModelTurn_staged s fs raw hmode hne).1,
    (commandModelTurn_staged s fs raw hmode hne).2,
    (commandModelTurn_staged _ fs raw ((approvalResponse_mode approved s fs0).trans hmode) hne).1,
    (commandModelTurn_staged _ fs raw ((approvalResponse_mode approved s fs0).trans hmode) hne).2⟩

/-- Witness of C5, amended: staging over the pending batch `/mkdir a`. -/
theorem commandModelTurn_stage_always_succeeds_witness :
    (commandModelTurn ⟨modeAgent, sampleDir, [Action.operation "/mkdir a".toList]⟩ sampleFs
      (.ok "<<<OPERATION: /cd site>>>".toList)).session.pendingFiles
      = stagedBatch (replaceAll thinkRegex 0 "<<<OPERATION: /cd site>>>".toList) :=
  (commandModelTurn_stage_always_succeeds
    ⟨modeAgent, sampleDir, [Action.operation "/mkdir a".toList]⟩ sampleFs
    "<<<OPERATION: /cd site>>>".toList false sampleFs rfl (by decide)).2.1

/-- C6, at the model text with the file-write directive named `site`, staged
in agent mode in `/w` (where `/w/site` is an existing directory) and approved:
`writeFileSync` throws `EISDIR`, the handler is left before
`pendingFiles = []`, and the batch is still pending afterwards. -/
theorem approvalResponse_write_error_keeps_pending :
    (commandModelTurn ⟨modeAgent, sampleDir, []⟩ sampleFs
      (.ok "<<<FILE: site>>>x<<<END>>>".toList)).session
      = ⟨modeAgent, sampleDir, [Action.file "site".toList "x".toList]⟩ ∧
    (approvalResponse true ⟨modeAgent, sampleDir, [Action.file "site".toList "x".toList]⟩
      sampleFs).thrown = some Errno.EISDIR ∧
    (approvalResponse true ⟨modeAgent, sampleDir, [Action.file "site".toList "x".toList]⟩
      sampleFs).session.pendingFiles = [Action.file "site".toList "x".toList] := by
  decide

/-- C7: a reject decision applies nothing. Whatever batch is pending, the
handler leaves the filesystem and the working directory as they were, starts
no process and visits no action, sends the line "Cancelled. No actions
performed." and the prompt (no count of files or operations), and leaves the
pending batch empty. -/
theorem approvalResponse_reject (s : Session) (fs : FS) :
    (approvalResponse false s fs).fs = fs ∧
    (approvalResponse false s fs).session.workingDirectory = s.workingDirectory ∧
    (approvalResponse false s fs).session.pendingFiles = [] ∧
    (approvalResponse false s fs).out = [Out.cancelled, Out.prompt] ∧
    (approvalResponse false s fs).spawned = [] ∧
    (approvalResponse false s fs).visited = [] ∧
    (approvalResponse false s fs).thrown = none := by
  simp [approvalResponse]

/-- C8: an approved operation whose verb is `/cd`, run with working directory
`D`. The target is the parent of `D` when the first argument is `..`, and the
arguments joined by a space and resolved against `D` otherwise. The operation
never throws and leaves the filesystem alone; when the target is a directory
the working directory becomes the target and the line `EXECUTED` is sent, and
otherwise the working directory stays `D` and the one line `Directory not
found` is sent. -/
theorem runAction_cd (st : ExecState) (raw : Str)
    (hverb : toLowerCase ((split ' ' (trim raw)).headD []) = verbCd) :
    ∃ st1, runAction (Action.operation raw) st = .ok st1 ∧
      st1.fs = st.fs ∧ st1.spawned = st.spawned ∧
      (isDirectory st.fs
          (if (split ' ' (trim raw)).tail.head? = some ['.', '.']
            then pathDirname st.workingDirectory
            else pathResolve st.workingDirectory (join ' ' (split ' ' (trim raw)).tail)) = true →
        st1.workingDirectory =
          (if (split ' ' (trim raw)).tail.head? = some ['.', '.']
            then pathDirname st.workingDirectory
            else pathResolve st.workingDirectory (join ' ' (split ' ' (trim raw)).tail)) ∧
        st1.out = st.out ++ [Out.executed (trim raw)]) ∧
      (isDirectory st.fs
          (if (split ' ' (trim raw)).tail.head? = some ['.', '.']
            then pathDirname st.workingDirectory
            else pathResolve st.workingDirectory (join ' ' (split ' ' (trim raw)).tail)) = false →
        st1.workingDirectory = st.workingDirectory ∧
        st1.out = st.out ++ [Out.directoryNotFound (join ' ' (split ' ' (trim raw)).tail)]) := by
  refine ⟨_, rfl, ?_⟩
  simp only [runOperation, hverb, operationBody, if_true]
  generalize (if (split ' ' (trim raw)).tail.head? = some ['.', '.']
      then pathDirname st.workingDirectory
      else pathResolve st.workingDirectory (join ' ' (split ' ' (trim raw)).tail)) = target
  by_cases hd : isDirectory st.fs target = true
  · have he := isDirectory_existsSync _ _ hd
    simp [hd, he]
  · simp only [Bool.not_eq_true] at hd
    simp [hd]

/-- Witness of C8: `/cd nope` in `/w`, where `/w/nope` does not exist, sends
one `Directory not found` line and leaves the working directory at `/w`. -/
theorem runAction_cd_witness :
    isDirectory sampleFs (pathResolve sampleDir "nope".toList) = false ∧
    ∃ st1, runAction (Action.operation "/cd nope".toList)
        ⟨sampleDir, sampleFs, 0, 0, [], [], []⟩ = .ok st1 ∧
      st1.workingDirectory = sampleDir ∧
      st1.out = [Out.directoryNotFound "nope".toList] := by
  refine ⟨by decide, ?_⟩
  obtain ⟨st1, h1, _, _, _, h5⟩ :=
    runAction_cd ⟨sampleDir, sampleFs, 0, 0, [], [], []⟩ "/cd nope".toList (by decide)
  exact ⟨st1, h1, h5 (by decide)⟩

/-- C9 fails as stated: for `d = site` and the file name `n = img`, where
`/w/site/img` is an existing directory, the approved write throws `EISDIR` and
no file with the content is at `W/d/n` afterwards. -/
theorem approve_cd_then_write_on_directory :
    (commandModelTurn ⟨modeAgent, sampleDir, []⟩ sampleFs
        (.ok "<<<OPERATION: /cd site>>><<<FILE: img>>>x<<<END>>>".toList)).session.pendingFiles
      = [Action.operation "/cd site".toList, Action.file "img".toList "x".toList] ∧
    (approvalResponse true
      (commandModelTurn ⟨modeAgent, sampleDir, []⟩ sampleFs
        (.ok "<<<OPERATION: /cd site>>><<<FILE: img>>>x<<<END>>>".toList)).session
      sampleFs).thrown = some Errno.EISDIR ∧
    (approvalResponse true
      (commandModelTurn ⟨modeAgent, sampleDir, []⟩ sampleFs
        (.ok "<<<OPERATION: /cd site>>><<<FILE: img>>>x<<<END>>>".toList)).session
      sampleFs).fs.get (pathJoin (pathResolve sampleDir "site".toList) "img".toList)
      ≠ some (Node.file "x".toList) := by
  decide

/-- C9, amended: let `d` and `n` be plain names, `d` an existing subdirectory
of the working directory `W`, and `W/d/n` no directory and a path that the
system accepts (no NUL character, no name of more than 255 bytes, no more
than 4095 bytes in all). For a text made of
the directive `<<<OPERATION: /cd d>>>` and the file-write directive for
`(n, c)`, in either order, with plain prose around and between them, a plain
body `c` and no `<think>`, the staged batch is the `/cd` and then the write
of `c` trimmed; approving it throws nothing, leaves the working directory at
`W/d`, writes `c` trimmed at `W/d/n`, and leaves `W/n` as it was. -/
theorem approve_cd_then_write (s : Session) (fs0 fs : FS) (d n c p0 p1 p2 text : Str)
    (hmode : s.currentMode = modeAgent)
    (htext :
      text = renderPieces [Piece.prose p0, Piece.operation (cdCommand d), Piece.prose p1,
        Piece.file n c, Piece.prose p2] ∨
      text = renderPieces [Piece.prose p0, Piece.file n c, Piece.prose p1,
        Piece.operation (cdCommand d), Piece.prose p2])
    (hthink : ¬ thinkOpen <:+: text)
    (hp0 : PlainText p0) (hp1 : PlainText p1) (hp2 : PlainText p2) (hc : PlainText c)
    (hd : PlainSegment d) (hn : PlainSegment n)
    (hdir : isDirectory fs (pathResolve s.workingDirectory d) = true)
    (hvalid : pathFault (pathJoin (pathResolve s.workingDirectory d) n) = none)
    (hfile : fs.get (pathJoin (pathResolve s.workingDirectory d) n) ≠ some Node.dir) :
    (commandModelTurn s fs0 (.ok text)).session.pendingFiles
      = [Action.operation (cdCommand d), Action.file n (trim c)] ∧
    (approvalResponse true (commandModelTurn s fs0 (.ok text)).session fs).thrown = none ∧
    (approvalResponse true (commandModelTurn s fs0 (.ok text)).session fs).session.workingDirectory
      = pathResolve s.workingDirectory d ∧
    (approvalResponse true (commandModelTurn s fs0 (.ok text)).session fs).fs.get
        (pathJoin (pathResolve s.workingDirectory d) n) = some (Node.file (trim c)) ∧
    (approvalResponse true (commandModelTurn s fs0 (.ok text)).session fs).fs.get
        (pathJoin s.workingDirectory n) = fs.get (pathJoin s.workingDirectory n) ∧
    (approvalResponse true (commandModelTurn s fs0 (.ok text)).session fs).out
      = [Out.executed (cdCommand d), Out.saved n, Out.completed 1 1, Out.prompt] := by
  have hclean : replaceAll thinkRegex 0 text = text :=
    replaceAll_thinkRegex_of_no_think text hthink
  have hbatch : stagedBatch text = [Action.operation (cdCommand d), Action.file n (trim c)] := by
    rcases htext with e | e
    · rw [e, stagedBatch_renderPieces]
      · simp [piecesOperations, piecesFiles, hd.trim_cd, hn.trim_eq]
      · intro p hp
        simp only [List.mem_cons, List.mem_singleton, List.not_mem_nil, or_false] at hp
        rcases hp with rfl | rfl | rfl | rfl | rfl
        · exact hp0
        · exact hd.cd_plainName
        · exact hp1
        · exact ⟨hn.plainName, hc⟩
        · exact hp2
    · rw [e, stagedBatch_renderPieces]
      · simp [piecesOperations, piecesFiles, hd.trim_cd, hn.trim_eq]
      · intro p hp
        simp only [List.mem_cons, List.mem_singleton, List.not_mem_nil, or_false] at hp
        rcases hp with rfl | rfl | rfl | rfl | rfl
        · exact hp0
        · exact ⟨hn.plainName, hc⟩
        · exact hp1
        · exact hd.cd_plainName
        · exact hp2
  have hne : stagedBatch (replaceAll thinkRegex 0 text) ≠ [] := by
    rw [hclean, hbatch]
    simp
  have hpend := (commandModelTurn_staged s fs0 text hmode hne).2
  rw [hclean, hbatch] at hpend
  have hwd := commandModelTurn_workingDirectory s fs0 (.ok text)
  rw [hd.pathResolve, hn.pathJoin] at hfile hvalid
  rw [hd.pathResolve] at hdir
  have hres := approvalResponse_cd_write (commandModelTurn s fs0 (.ok text)).session fs d n
    (trim c) hpend hd hn (by rw [hwd]; exact hdir) (by rw [hwd]; exact hvalid)
    (by rw [hwd]; exact hfile)
  rw [hres, hwd, hd.pathResolve, hn.pathJoin, hn.pathJoin]
  refine ⟨hpend, rfl, rfl, FS.get_set_self _ _ _, ?_, rfl⟩
  apply FS.get_set_of_ne
  intro e
  have := congrArg List.length e
  simp at this

/-- Witness of C9, amended: the file-write directive comes first in the text,
and the file is still written below `/w/site`. -/
theorem approve_cd_then_write_witness :
    (approvalResponse true
      (commandModelTurn ⟨modeAgent, sampleDir, []⟩ sampleFs
        (.ok "<<<FILE: i.htm>>> <p> <<<END>>>ok<<<OPERATION: /cd site>>>".toList)).session
      sampleFs).fs.get ["w".toList, "site".toList, "i.htm".toList]
        = some (Node.file "<p>".toList) ∧
    (approvalResponse true
      (commandModelTurn ⟨modeAgent, sampleDir, []⟩ sampleFs
        (.ok "<<<FILE: i.htm>>> <p> <<<END>>>ok<<<OPERATION: /cd site>>>".toList)).session
      sampleFs).session.workingDirectory = ["w".toList, "site".toList] :=
  have h := approve_cd_then_write ⟨modeAgent, sampleDir, []⟩ sampleFs sampleFs
    "site".toList "i.htm".toList " <p> ".toList [] "ok".toList []
    "<<<FILE: i.htm>>> <p> <<<END>>>ok<<<OPERATION: /cd site>>>".toList
    rfl (Or.inr (by decide)) (by decide) (by decide) (by decide) (by decide) (by decide)
    (by decide) (by decide) (by decide) (by decide) (by decide)
  ⟨h.2.2.2.1, h.2.2.1⟩

/-- C10 fails as stated: for the single file write `docs/calc.html` in `/w`,
where `/w/docs` does not exist, approval gives no summary of 1 file and 0
operations and no file with that content at `/w/docs/calc.html`. -/
theorem approvalResponse_single_write_missing_parent :
    ¬ (Out.completed 1 0 ∈
        (approvalResponse true
          ⟨modeAgent, sampleDir, [Action.file "docs/calc.html".toList "<html></html>".toList]⟩
          sampleFs).out ∧
      (approvalResponse true
          ⟨modeAgent, sampleDir, [Action.file "docs/calc.html".toList "<html></html>".toList]⟩
          sampleFs).fs.get (pathJoin sampleDir "docs/calc.html".toList)
        = some (Node.file "<html></html>".toList)) := by
  decide

/-- C10, amended: approving a batch of exactly one file write `(n, c)` in
working directory `W`, where `n` does not end in `/`, `W` joined with `n` is
a path that the system accepts (no NUL character, no name of more than 255
bytes, no more than 4095 bytes in all), is no directory, and is either an
existing file or lies in an existing directory, sends `SAVED`, the summary
of 1 file and 0 operations and the prompt; afterwards the file at `W` joined
with `n` holds exactly `c`, every other path is as before, the working
directory is unchanged and nothing is pending. -/
theorem approvalResponse_single_write (s : Session) (fs : FS) (n c : Str)
    (hbatch : s.pendingFiles = [Action.file n c])
    (hslash : joinedSlash n = false)
    (hvalid : pathFault (pathJoin s.workingDirectory n) = none)
    (hnodir : fs.get (pathJoin s.workingDirectory n) ≠ some Node.dir)
    (hparent : fs.get (pathJoin s.workingDirectory n) = none →
      isDirectory fs (pathJoin s.workingDirectory n).dropLast = true) :
    (approvalResponse true s fs).out = [Out.saved n, Out.completed 1 0, Out.prompt] ∧
    (approvalResponse true s fs).thrown = none ∧
    (approvalResponse true s fs).fs.get (pathJoin s.workingDirectory n) = some (Node.file c) ∧
    (∀ q, q ≠ pathJoin s.workingDirectory n →
      (approvalResponse true s fs).fs.get q = fs.get q) ∧
    (approvalResponse true s fs).session.workingDirectory = s.workingDirectory ∧
    (approvalResponse true s fs).session.pendingFiles = [] := by
  have hw : writeFileAt fs s.workingDirectory n c
      = .ok (fs.set (pathJoin s.workingDirectory n) (Node.file c)) := by
    rw [writeFileAt_of_no_slash _ _ _ _ hslash]
    exact writeFileSync_ok _ _ _ hvalid hnodir hparent
  have hrun : runBatch s.pendingFiles (ExecState.init s fs)
      = .ok { workingDirectory := s.workingDirectory,
              fs := fs.set (pathJoin s.workingDirectory n) (Node.file c),
              filesCount := 1, opsCount := 0, out := [Out.saved n], spawned := [],
              visited := [Action.file n c] } := by
    simp [hbatch, runBatch, runAction, ExecState.init, hw]
  have hres : approvalResponse true s fs =
      { session := { s with pendingFiles := [] },
        fs := fs.set (pathJoin s.workingDirectory n) (Node.file c),
        out := [Out.saved n, Out.completed 1 0, Out.prompt],
        spawned := [], thrown := none, visited := [Action.file n c] } := by
    simp [approvalResponse, hrun]
  rw [hres]
  exact ⟨rfl, rfl, FS.get_set_self _ _ _, fun q hq => FS.get_set_of_ne _ _ _ _ hq, rfl, rfl⟩

/-- Witness of C10, amended: the single write of `calc.html` in `/w`. -/
theorem approvalResponse_single_write_witness :
    (approvalResponse true
      ⟨modeAgent, sampleDir, [Action.file "calc.html".toList "<html></html>".toList]⟩
      sampleFs).out = [Out.saved "calc.html".toList, Out.completed 1 0, Out.prompt] ∧
    (approvalResponse true
      ⟨modeAgent, sampleDir, [Action.file "calc.html".toList "<html></html>".toList]⟩
      sampleFs).fs.get (pathJoin sampleDir "calc.html".toList)
        = some (Node.file "<html></html>".toList) :=
  have h := approvalResponse_single_write
    ⟨modeAgent, sampleDir, [Action.file "calc.html".toList "<html></html>".toList]⟩
    sampleFs "calc.html".toList "<html></html>".toList rfl (by decide) (by decide) (by decide)
    (fun _ => by decide)
  ⟨h.1, h.2.2.1⟩

/-- C11, at the model text with the operations `/cd nope` and `/frob x`, staged
in agent mode in `/w` (where `/w/nope` does not exist) and approved: the first
sends the failure line `Directory not found`, the second the warning `Unknown
operation`, and the summary still counts 2 operations, because `opsCount++`
follows the whole chain of branches inside the `try`. -/
theorem approvalResponse_counts_failed_operations :
    (commandModelTurn ⟨modeAgent, sampleDir, []⟩ sampleFs
      (.ok "<<<OPERATION: /cd nope>>><<<OPERATION: /frob x>>>".toList)).session
      = ⟨modeAgent, sampleDir,
          [Action.operation "/cd nope".toList, Action.operation "/frob x".toList]⟩ ∧
    (approvalResponse true
      ⟨modeAgent, sampleDir,
        [Action.operation "/cd nope".toList, Action.operation "/frob x".toList]⟩
      sampleFs).out
      = [Out.directoryNotFound "nope".toList, Out.unknownOperation "/frob x".toList,
         Out.completed 0 2, Out.prompt] := by
  decide

/-- C12, at the model text with the operations `/rm a.txt` and `/mkdir d`,
staged in agent mode in `/w` and approved: when the handler returns, it has
sent the outcome of `/mkdir d`, the summary (which counts both operations) and
the prompt, and nothing for `/rm a.txt`, whose process has only been started.
The one outcome of `/rm a.txt`, `Failed to delete` or `EXECUTED ... (moved to
Recycle Bin)`, is sent by the callback, after the summary and the prompt and
after the outcome of the later action. -/
theorem approvalResponse_rm_outcome_after_summary :
    (commandModelTurn ⟨modeAgent, sampleDir, []⟩ sampleFs
      (.ok "<<<OPERATION: /rm a.txt>>><<<OPERATION: /mkdir d>>>".toList)).session
      = ⟨modeAgent, sampleDir,
          [Action.operation "/rm a.txt".toList, Action.operation "/mkdir d".toList]⟩ ∧
    (approvalResponse true
      ⟨modeAgent, sampleDir,
        [Action.operation "/rm a.txt".toList, Action.operation "/mkdir d".toList]⟩
      sampleFs).out
      = [Out.executed "/mkdir d".toList, Out.completed 0 2, Out.prompt] ∧
    (approvalResponse true
      ⟨modeAgent, sampleDir,
        [Action.operation "/rm a.txt".toList, Action.operation "/mkdir d".toList]⟩
      sampleFs).spawned
      = [Spawn.deleteFile ["w".toList, "a.txt".toList] "a.txt".toList "/rm a.txt".toList] ∧
    (Spawn.deleteFile ["w".toList, "a.txt".toList] "a.txt".toList "/rm a.txt".toList).callback
        true = Out.failedToDelete "a.txt".toList ∧
    (Spawn.deleteFile ["w".toList, "a.txt".toList] "a.txt".toList "/rm a.txt".toList).callback
        false = Out.executedRecycleBin "/rm a.txt".toList := by
  decide

/-- C13: an approved batch `pre ++ operation :: post` in which the lower-cased
first token of the operation is none of the verbs that the loop knows, and
whose actions before the operation have run. The operation throws nothing and
sends exactly one line, the warning `Unknown operation`; it leaves the
filesystem, the working directory and the started processes as they were (it
is counted in `opsCount`), and the loop goes on with the remaining actions
`post` from that state. -/
theorem runBatch_unknown_operation (pre post : List Action) (raw : Str) (st st1 : ExecState)
    (hverb : toLowerCase ((split ' ' (trim raw)).headD []) ∉ knownVerbs)
    (hpre : runBatch pre st = .ok st1) :
    runAction (Action.operation raw) st1
      = .ok { st1 with out := st1.out ++ [Out.unknownOperation (trim raw)],
                       opsCount := st1.opsCount + 1,
                       visited := st1.visited ++ [Action.operation raw] } ∧
    runBatch (pre ++ Action.operation raw :: post) st
      = runBatch post
          { st1 with out := st1.out ++ [Out.unknownOperation (trim raw)],
                     opsCount := st1.opsCount + 1,
                     visited := st1.visited ++ [Action.operation raw] } := by
  have h1 : runAction (Action.operation raw) st1
      = .ok { st1 with out := st1.out ++ [Out.unknownOperation (trim raw)],
                       opsCount := st1.opsCount + 1,
                       visited := st1.visited ++ [Action.operation raw] } := by
    simp only [runAction, runOperation_unknown _ _ hverb]
  refine ⟨h1, ?_⟩
  rw [runBatch_append, hpre]
  simp only [runBatch, h1]

/-- Witness of C13: the batch `/ls` and then the file `a.txt` in `/w`; the file
is still written after the warning. -/
theorem runBatch_unknown_operation_witness :
    (approvalResponse true
      ⟨modeAgent, sampleDir, [Action.operation "/ls".toList, Action.file "a.txt".toList "x".toList]⟩
      sampleFs).out
      = [Out.unknownOperation "/ls".toList, Out.saved "a.txt".toList, Out.completed 1 1,
         Out.prompt] ∧
    runBatch ([] ++ Action.operation "/ls".toList :: [Action.file "a.txt".toList "x".toList])
        ⟨sampleDir, sampleFs, 0, 0, [], [], []⟩
      = runBatch [Action.file "a.txt".toList "x".toList]
          ⟨sampleDir, sampleFs, 0, 1, [Out.unknownOperation "/ls".toList], [],
            [Action.operation "/ls".toList]⟩ :=
  ⟨by decide,
   (runBatch_unknown_operation [] [Action.file "a.txt".toList "x".toList] "/ls".toList
      ⟨sampleDir, sampleFs, 0, 0, [], [], []⟩ ⟨sampleDir, sampleFs, 0, 0, [], [], []⟩
      (by decide) rfl).2⟩

/-- C14 fails as stated: the text `<<<FILE: a<<<OPERATION: /rm x>>>` is an
unterminated start marker, with no `<<<END>>>` after it, yet it stages the
operation `/rm x`, and the cleaned text keeps only `<<<FILE: a` of it. -/
theorem parse_unterminated_with_operation_inside :
    fileStart "a<<<OPERATION: /rm x".toList = "<<<FILE: a<<<OPERATION: /rm x>>>".toList ∧
    stagedBatch "<<<FILE: a<<<OPERATION: /rm x>>>".toList
      = [Action.operation "/rm x".toList] ∧
    cleanText "<<<FILE: a<<<OPERATION: /rm x>>>".toList = "<<<FILE: a".toList := by
  decide

/-- C14, amended. Extraction is total: a model turn throws nothing, whatever
the answer. Every file-write action comes from a match that runs from a start
marker through `<<<END>>>`, so no partial action is emitted. In a text of
well-formed pieces, an unterminated start marker `<<<FILE: name>>>` with a
plain name, after which no file-write directive comes, emits no action (the
batch is that of the pieces before and after it) and is left verbatim in the
cleaned text, between the prose before and the prose after it. And a text in
which neither regex matches leaves the session as it was and is shown
unchanged. -/
theorem parse_total_unterminated_inert (s : Session) (fs : FS) (response : Except Str Str)
    (raw text : Str) (ps qs : List Piece) (name : Str)
    (hps : ∀ p ∈ ps, p.WellFormed) (hqs : ∀ p ∈ qs, p.WellFormed)
    (hnf : ∀ p ∈ qs, p.notFile = true) (hn : PlainName name) :
    (commandModelTurn s fs response).thrown = none ∧
    (∀ m ∈ execAll fileRegex 0 0 text, ∃ rest,
      text.drop m.index
        = fileOpen ++ (m.groups.1 ++ (markClose ++ (m.groups.2 ++ (fileEnd ++ rest))))) ∧
    extractFiles (renderPieces ps ++ (fileStart name ++ renderPieces qs)) = piecesFiles ps ∧
    extractOperations (renderPieces ps ++ (fileStart name ++ renderPieces qs))
      = piecesOperations ps ++ piecesOperations qs ∧
    cleanText (renderPieces ps ++ (fileStart name ++ renderPieces qs))
      = proseOf ps ++ (fileStart name ++ proseOf qs) ∧
    (stagedBatch (replaceAll thinkRegex 0 raw) = [] →
      (commandModelTurn s fs (.ok raw)).session = s ∧
      (commandModelTurn s fs (.ok raw)).out
        = [Out.thinking]
          ++ (execAll thinkRegex 0 0 raw).map (fun m => Out.reasoning (trim m.groups))
          ++ [Out.modelText (replaceAll thinkRegex 0 raw), Out.prompt]) := by
  obtain ⟨h1, h2, h3⟩ := parse_unterminated ps qs name hps hqs hnf hn
  refine ⟨commandModelTurn_thrown s fs response, ?_, h1, h2, h3,
    commandModelTurn_no_directive s fs raw⟩
  intro m hm
  obtain ⟨rest, hr⟩ := execAll_sound fileRegex text 0 0 m hm
  exact ⟨rest, fileRegex_some _ _ _ _ (by simpa using hr)⟩

/-- Witness of C14, amended: an unterminated start marker after an operation
directive stays in the cleaned text, and alone it is shown unchanged. -/
theorem parse_total_unterminated_inert_witness :
    cleanText "ok <<<OPERATION: /cd site>>><<<FILE: a.txt>>> never closed".toList
      = "ok <<<FILE: a.txt>>> never closed".toList ∧
    (commandModelTurn ⟨modeAgent, sampleDir, []⟩ sampleFs
      (.ok "<<<FILE: a.txt>>> never closed".toList)).out
      = [Out.thinking, Out.modelText "<<<FILE: a.txt>>> never closed".toList, Out.prompt] :=
  have h := parse_total_unterminated_inert ⟨modeAgent, sampleDir, []⟩ sampleFs
    (.ok []) "<<<FILE: a.txt>>> never closed".toList []
    [Piece.prose "ok ".toList, Piece.operation "/cd site".toList]
    [Piece.prose " never closed".toList] "a.txt".toList
    (by decide) (by decide) (by decide) (by decide)
  ⟨h.2.2.2.2.1, (h.2.2.2.2.2 (by decide)).2⟩

/-- C15 fails as stated: in `<<<OPER<<<FILE: a>>>x<<<END>>>ATION: /rm y>>>` only
the file-write directive is extracted into the batch, but the cleaned text is
empty: removing the file-write directive joins its two sides into
`<<<OPERATION: /rm y>>>`, which the second replacement removes although it was
never extracted. -/
theorem cleanText_removes_joined_directive :
    stagedBatch "<<<OPER<<<FILE: a>>>x<<<END>>>ATION: /rm y>>>".toList
      = [Action.file "a".toList "x".toList] ∧
    cleanText "<<<OPER<<<FILE: a>>>x<<<END>>>ATION: /rm y>>>".toList = [] := by
  decide

/-- C15, amended: for every text the cleaned text is what remains of the text
after removals only (its characters are characters of the text, in order), and
for every text made of prose and well-formed directives the batch holds
exactly the directives and the cleaned text is exactly the prose, in order. -/
theorem cleanText_keeps_prose (text : Str) (ps : List Piece) (hwf : ∀ p ∈ ps, p.WellFormed) :
    (cleanText text).Sublist text ∧
    stagedBatch (renderPieces ps) = piecesOperations ps ++ piecesFiles ps ∧
    cleanText (renderPieces ps) = proseOf ps :=
  ⟨cleanText_sublist text, stagedBatch_renderPieces ps hwf, cleanText_renderPieces ps hwf⟩

/-- Witness of C15, amended: prose around a file-write directive and an
operation directive. -/
theorem cleanText_keeps_prose_witness :
    cleanText (renderPieces
      [Piece.prose "Done: ".toList, Piece.file "a.txt".toList "<b>hi</b>".toList,
       Piece.prose " and ".toList, Piece.operation "/cd site".toList, Piece.prose ".".toList])
      = "Done:  and .".toList :=
  (cleanText_keeps_prose []
    [Piece.prose "Done: ".toList, Piece.file "a.txt".toList "<b>hi</b>".toList,
     Piece.prose " and ".toList, Piece.operation "/cd site".toList, Piece.prose ".".toList]
    (by decide)).2.2

/-- C16 fails as stated: `<<<OPERATION: >>>` and `<<<FILE: >>>x<<<END>>>` are
staged with an empty command and an empty name, and the command `/cd  a`, with
two spaces, is staged and split by the executor into the arguments `""` and
`a`. -/
theorem stagedBatch_keeps_empty_directives :
    stagedBatch "<<<OPERATION: >>><<<FILE: >>>x<<<END>>>".toList
      = [Action.operation [], Action.file [] "x".toList] ∧
    stagedBatch "<<<OPERATION: /cd  a>>>".toList = [Action.operation "/cd  a".toList] ∧
    (split ' ' (trim "/cd  a".toList)).tail = [[], "a".toList] := by
  decide

/-- C16, amended: in every staged batch the name and the content of every
file-write action and the command of every operation action are trimmed, and
every match of the two regexes is staged: nothing is dropped, so names and
commands can be empty. -/
theorem stagedBatch_trimmed (text : Str) :
    (∀ n c, Action.file n c ∈ stagedBatch text → trim n = n ∧ trim c = c) ∧
    (∀ cmd, Action.operation cmd ∈ stagedBatch text → trim cmd = cmd) ∧
    (stagedBatch text).length
      = (execAll operationRegex 0 0 text).length + (execAll fileRegex 0 0 text).length := by
  refine ⟨?_, ?_, ?_⟩
  · intro n c h
    simp only [stagedBatch, extractOperations, extractFiles, List.mem_append, List.mem_map] at h
    rcases h with ⟨m, _, hm⟩ | ⟨m, _, hm⟩
    · cases hm
    · cases hm
      exact ⟨trim_trim _, trim_trim _⟩
  · intro cmd h
    simp only [stagedBatch, extractOperations, extractFiles, List.mem_append, List.mem_map] at h
    rcases h with ⟨m, _, hm⟩ | ⟨m, _, hm⟩
    · cases hm
      exact trim_trim _
    · cases hm
  · simp [stagedBatch, extractOperations, extractFiles]

/-- Witness of C16, amended: the empty name and the trimmed content `x`. -/
theorem stagedBatch_trimmed_witness :
    Action.file [] "x".toList ∈ stagedBatch "<<<OPERATION: >>><<<FILE: >>> x <<<END>>>".toList ∧
    trim ([] : Str) = [] ∧ trim "x".toList = "x".toList :=
  ⟨by decide,
   (stagedBatch_trimmed "<<<OPERATION: >>><<<FILE: >>> x <<<END>>>".toList).1 [] "x".toList
    (by decide)⟩

/-- C17 fails as stated: the executor splits `/cd  site`, with two spaces, into
the arguments `""` and `site`, so the approved operation looks for the
directory ` site` and fails where `/cd site` succeeds; and a tab separates
nothing, so `/cd<TAB>site` is an unknown operation. -/
theorem runOperation_splits_on_single_spaces :
    (split ' ' (trim "/cd  site".toList)).tail = [[], "site".toList] ∧
    (approvalResponse true ⟨modeAgent, sampleDir, [Action.operation "/cd  site".toList]⟩
      sampleFs).out
      = [Out.directoryNotFound " site".toList, Out.completed 0 1, Out.prompt] ∧
    (approvalResponse true ⟨modeAgent, sampleDir, [Action.operation "/cd site".toList]⟩
      sampleFs).out
      = [Out.executed "/cd site".toList, Out.completed 0 1, Out.prompt] ∧
    (approvalResponse true ⟨modeAgent, sampleDir, [Action.operation "/cd\tsite".toList]⟩
      sampleFs).out
      = [Out.unknownOperation "/cd\tsite".toList, Out.completed 0 1, Out.prompt] := by
  decide

/-- C17, amended: the staged command is the trimmed group of the match; the
executor trims it again (which changes nothing), splits it at every single
space, takes the lower-cased first part as the verb and the remaining parts as
the arguments. The parts joined by single spaces give back the command, no
part contains a space, and there is one part more than there are spaces: a run
of spaces gives empty parts, and tabs do not separate. -/
theorem runOperation_tokens (text raw : Str) (st : ExecState) :
    extractOperations text
      = (execAll operationRegex 0 0 text).map (fun m => Action.operation (trim m.groups)) ∧
    runOperation raw st
      = (match operationBody (trim raw) (toLowerCase ((split ' ' (trim raw)).headD []))
            (split ' ' (trim raw)).tail st with
        | .ok st1 => { st1 with opsCount := st1.opsCount + 1 }
        | .error e => { st with out := st.out ++ [Out.errorExecuting (trim raw) e] }) ∧
    runOperation (trim raw) st = runOperation raw st ∧
    join ' ' (split ' ' (trim raw)) = trim raw ∧
    (∀ p ∈ split ' ' (trim raw), ' ' ∉ p) ∧
    (split ' ' (trim raw)).length = (trim raw).count ' ' + 1 := by
  refine ⟨rfl, rfl, ?_, join_split _ _, split_no_sep _ _, split_length _ _⟩
  simp only [runOperation, trim_trim]

/-- Witness of C17, amended: `site` is a part of ` /cd  site ` and has no space. -/
theorem runOperation_tokens_witness :
    "site".toList ∈ split ' ' (trim " /cd  site ".toList) ∧ ' ' ∉ "site".toList :=
  ⟨by decide,
   (runOperation_tokens [] " /cd  site ".toList
      ⟨sampleDir, sampleFs, 0, 0, [], [], []⟩).2.2.2.2.1 "site".toList (by decide)⟩

/-- C18 fails as stated: two file-write directives named `site`, where
`/w/site` is an existing directory, are both staged, but the approved write
throws `EISDIR` and the path does not hold the content of the later
directive. -/
theorem approvalResponse_same_name_on_directory :
    (commandModelTurn ⟨modeAgent, sampleDir, []⟩ sampleFs
      (.ok "<<<FILE: site>>>a<<<END>>><<<FILE: site>>>b<<<END>>>".toList)).session.pendingFiles
      = [Action.file "site".toList "a".toList, Action.file "site".toList "b".toList] ∧
    (approvalResponse true
      ⟨modeAgent, sampleDir,
        [Action.file "site".toList "a".toList, Action.file "site".toList "b".toList]⟩
      sampleFs).thrown = some Errno.EISDIR ∧
    (approvalResponse true
      ⟨modeAgent, sampleDir,
        [Action.file "site".toList "a".toList, Action.file "site".toList "b".toList]⟩
      sampleFs).fs.get (pathJoin sampleDir "site".toList) ≠ some (Node.file "b".toList) := by
  decide

/-- C18, amended: for a text of well-formed pieces the parser emits one
file-write action for each file-write directive, in source order, also when
names are equal. And when an approved batch runs without an error, a
file-write action `(n, c)` that is followed only by file writes to other paths
(so the last one of those with its name) leaves the content `c` at the working
directory joined with `n`. -/
theorem approvalResponse_last_write_wins (ps : List Piece) (s : Session) (fs : FS)
    (pre post : List Action) (n c : Str)
    (hwf : ∀ p ∈ ps, p.WellFormed)
    (hbatch : s.pendingFiles = pre ++ Action.file n c :: post)
    (hfiles : ∀ a ∈ post, ∃ n1 c1, a = Action.file n1 c1)
    (hpath : ∀ n1 c1, Action.file n1 c1 ∈ post →
      pathJoin (approvalResponse true s fs).session.workingDirectory n1
        ≠ pathJoin (approvalResponse true s fs).session.workingDirectory n)
    (hok : (approvalResponse true s fs).thrown = none) :
    extractFiles (renderPieces ps) = piecesFiles ps ∧
    (approvalResponse true s fs).fs.get
        (pathJoin (approvalResponse true s fs).session.workingDirectory n)
      = some (Node.file c) := by
  refine ⟨execAll_fileRegex_renderPieces ps hwf 0, ?_⟩
  simp only [approvalResponse, if_true] at hok hpath ⊢
  cases hrun : runBatch s.pendingFiles (ExecState.init s fs) with
  | error e =>
    obtain ⟨err, st⟩ := e
    simp [hrun] at hok
  | ok st1 =>
    simp only [hrun] at hpath ⊢
    rw [hbatch] at hrun
    exact runBatch_last_write pre post n c _ st1 hfiles hpath hrun

/-- Witness of C18, amended: two directives named `a` with the contents `1` and
`2`; both are emitted, and `/w/a` holds `2`. -/
theorem approvalResponse_last_write_wins_witness :
    extractFiles (renderPieces
        [Piece.file "a".toList "1".toList, Piece.file "a".toList "2".toList])
      = [Action.file "a".toList "1".toList, Action.file "a".toList "2".toList] ∧
    (approvalResponse true
      ⟨modeAgent, sampleDir, [Action.file "a".toList "1".toList, Action.file "a".toList "2".toList]⟩
      sampleFs).fs.get ["w".toList, "a".toList] = some (Node.file "2".toList) :=
  approvalResponse_last_write_wins
    [Piece.file "a".toList "1".toList, Piece.file "a".toList "2".toList]
    ⟨modeAgent, sampleDir, [Action.file "a".toList "1".toList, Action.file "a".toList "2".toList]⟩
    sampleFs [Action.file "a".toList "1".toList] [] "a".toList "2".toList
    (by decide) rfl (by simp) (by simp) (by decide)

/-- C19: let every ancestor of the working directory `D` be a directory (the
root itself when `D` is the root). Then `/cd ..`, issued by the user or run as
an approved operation, sets the working directory to the parent of `D`;
repeated `k` times it leaves the working directory at `D` without its last `k`
segments, which is `D` or an ancestor of `D`, and which is the root from
`k = length D` on: the parent of the root is the root, so every further
`/cd ..` leaves the working directory there. -/
theorem cd_up_floor (fs : FS) (D : Path)
    (hanc : ∀ q ∈ (pathDirname D).inits, isDirectory fs q = true) :
    (∀ s : Session, s.workingDirectory = D →
      (commandCd s fs (split ' ' (trim cdUp)).tail).session.workingDirectory = pathDirname D ∧
      (commandCd s fs (split ' ' (trim cdUp)).tail).out
        = [Out.changedTo (pathDirname D), Out.prompt]) ∧
    (∀ st : ExecState, st.fs = fs → st.workingDirectory = D →
      (runOperation cdUp st).workingDirectory = pathDirname D ∧
      (runOperation cdUp st).out = st.out ++ [Out.executed cdUp]) ∧
    (∀ (k : Nat) (s : Session), s.workingDirectory = D →
      ((fun t => (commandCd t fs (split ' ' (trim cdUp)).tail).session)^[k] s).workingDirectory
        = D.take (D.length - k)) ∧
    (∀ (k : Nat) (st : ExecState), st.fs = fs → st.workingDirectory = D →
      ((runOperation cdUp)^[k] st).workingDirectory = D.take (D.length - k)) ∧
    pathDirname [] = [] ∧
    (∀ k, D.length ≤ k → D.take (D.length - k) = []) ∧
    (∀ k, D.take (D.length - k) <+: D) := by
  refine ⟨?_, ?_, ?_, ?_, rfl, ?_, ?_⟩
  · intro s hs
    subst hs
    rw [commandCd_up s fs (hanc _ ((List.mem_inits _ _).2 (List.prefix_refl _)))]
    exact ⟨rfl, rfl⟩
  · intro st hfs hwd
    subst hfs hwd
    rw [runOperation_up st (hanc _ ((List.mem_inits _ _).2 (List.prefix_refl _)))]
    exact ⟨rfl, rfl⟩
  · intro k s hs
    subst hs
    rw [commandCd_up_iterate fs k s hanc, pathDirname_iterate]
  · intro k st hfs hwd
    subst hfs hwd
    rw [runOperation_up_iterate k st hanc, pathDirname_iterate]
  · intro k hk
    simp [Nat.sub_eq_zero_of_le hk]
  · intro k
    exact List.take_prefix _ _

/-- Witness of C19: five times `/cd ..` from `/w/site` end at the root. -/
theorem cd_up_floor_witness :
    ((fun t => (commandCd t sampleFs (split ' ' (trim cdUp)).tail).session)^[5]
      ⟨modeAgent, ["w".toList, "site".toList], []⟩).workingDirectory = [] :=
  (cd_up_floor sampleFs ["w".toList, "site".toList] (by decide)).2.2.1 5
    ⟨modeAgent, ["w".toList, "site".toList], []⟩ rfl

/-- C20 fails as stated: with nothing pending, an approve decision sends only
the prompt and a reject decision sends the usual `Cancelled. No actions
performed.` line and the prompt; no warning about a missing batch is sent. -/
theorem approvalResponse_nothing_pending_no_warning :
    (approvalResponse true ⟨modeAgent, sampleDir, []⟩ sampleFs).out = [Out.prompt] ∧
    (approvalResponse false ⟨modeAgent, sampleDir, []⟩ sampleFs).out
      = [Out.cancelled, Out.prompt] := by
  decide

/-- C20, amended: when no batch is pending, the handler leaves the session
(pending batch, working directory, mode) and the filesystem as they were,
starts no process and throws nothing; it sends only the prompt on approve, and
the line `Cancelled. No actions performed.` and the prompt on reject. -/
theorem approvalResponse_nothing_pending (approved : Bool) (s : Session) (fs : FS)
    (h : s.pendingFiles = []) :
    (approvalResponse approved s fs).session = s ∧
    (approvalResponse approved s fs).fs = fs ∧
    (approvalResponse approved s fs).spawned = [] ∧
    (approvalResponse approved s fs).thrown = none ∧
    (approvalResponse approved s fs).out
      = (if approved then [Out.prompt] else [Out.cancelled, Out.prompt]) := by
  obtain ⟨mode, wd, pending⟩ := s
  simp only at h
  subst h
  cases approved <;> simp [approvalResponse, runBatch, ExecState.init]

/-- Witness of C20, amended: an approve decision with nothing pending. -/
theorem approvalResponse_nothing_pending_witness :
    (approvalResponse true ⟨modeAgent, sampleDir, []⟩ sampleFs).session
      = ⟨modeAgent, sampleDir, []⟩ :=
  (approvalResponse_nothing_pending true ⟨modeAgent, sampleDir, []⟩ sampleFs rfl).1


/-- C21: a command line that starts with `/` and whose lower-cased first token
is no verb or alias of the dispatcher is answered with the unknown-command
line for its first token (which the line shows in lower case), the hint and
the prompt. Nothing is thrown, the answer of the model is not asked for (the
result is the same whatever it would be), and the working directory, the
pending batch, the mode and the filesystem stay as they were. -/
theorem command_unknown_verb (fuel : Nat) (s : Session) (fs : FS) (cmd : Str)
    (response : Except Str Str) (hslash : cmd.head? = some '/')
    (hverb : commandOf cmd ∉ userVerbs) :
    command fuel s fs cmd response
      = some { session := s, fs := fs,
               out := [Out.unknownCommand (tokenOf cmd), Out.helpHint, Out.prompt],
               spawned := [], thrown := none, visited := [] } := by
  unfold command
  rw [if_pos hslash, commandSlash_unknown fuel s fs cmd hverb]
  rfl

/-- Witness of C21: the line `/Frob x` in the sample directory. -/
theorem command_unknown_verb_witness :
    command 0 ⟨modeAgent, sampleDir, [Action.operation "/rm a".toList]⟩ sampleFs
        "/Frob x".toList (.ok "<<<OPERATION: /rm b>>>".toList)
      = some { session := ⟨modeAgent, sampleDir, [Action.operation "/rm a".toList]⟩,
               fs := sampleFs,
               out := [Out.unknownCommand "/Frob".toList, Out.helpHint, Out.prompt],
               spawned := [], thrown := none, visited := [] } :=
  command_unknown_verb 0 ⟨modeAgent, sampleDir, [Action.operation "/rm a".toList]⟩ sampleFs
    "/Frob x".toList (.ok "<<<OPERATION: /rm b>>>".toList) (by decide) (by decide)

/-- C22: each of `/cd`, `/mkdir`, `/cat`, `/touch`, `/find`, `/rm`, `/rmdir`
without an argument, and each of `/cp`, `/mv` with fewer than two, sends the
usage line of the verb and the prompt and does nothing else: nothing is
thrown, nothing is started, and session and filesystem stay as they were.
`usageOf` gives the usage line of the verb and the number of arguments that
the verb asks for. -/
theorem command_usage (fuel : Nat) (s : Session) (fs : FS) (cmd : Str)
    (response : Except Str Str) (synopsis : Str) (required : Nat)
    (hslash : cmd.head? = some '/')
    (husage : usageOf (commandOf cmd) = some (synopsis, required))
    (hargs : (argsOf cmd).length < required) :
    command fuel s fs cmd response
      = some { session := s, fs := fs, out := [Out.usage synopsis, Out.prompt],
               spawned := [], thrown := none, visited := [] } := by
  unfold command
  rw [if_pos hslash]
  unfold usageOf at husage
  split_ifs at husage with h1 h2 h3 h4 h5 h6 h7 h8 h9
  all_goals
    simp only [Option.some.injEq, Prod.mk.injEq] at husage
    obtain ⟨hs, hr⟩ := husage
    subst hs hr
  · have h0 : (argsOf cmd).length = 0 := by omega
    rw [commandSlash_cd fuel s fs cmd h1]
    unfold commandCd
    rw [if_pos h0]
    rfl
  · have h0 : (argsOf cmd).length = 0 := by omega
    rw [commandSlash_mkdir fuel s fs cmd h2]
    unfold commandMkdir
    rw [if_pos h0]
    rfl
  · have h0 : (argsOf cmd).length = 0 := by omega
    rw [commandSlash_cat fuel s fs cmd h3]
    unfold commandCat
    rw [if_pos h0]
    rfl
  · have h0 : (argsOf cmd).length = 0 := by omega
    rw [commandSlash_touch fuel s fs cmd h4]
    unfold commandTouch
    rw [if_pos h0]
    rfl
  · have h0 : (argsOf cmd).length = 0 := by omega
    rw [commandSlash_find fuel s fs cmd h5]
    unfold commandFind
    rw [if_pos h0]
    rfl
  · have h0 : (argsOf cmd).length = 0 := by omega
    rw [commandSlash_rm fuel s fs cmd h6]
    unfold commandRm
    rw [if_pos h0]
    rfl
  · have h0 : (argsOf cmd).length = 0 := by omega
    rw [commandSlash_rmdir fuel s fs cmd h7]
    unfold commandRmdir
    rw [if_pos h0]
    rfl
  · rw [commandSlash_cp fuel s fs cmd h8]
    generalize argsOf cmd = args at hargs
    match args, hargs with
    | [], _ => rfl
    | [_], _ => rfl
  · rw [commandSlash_mv fuel s fs cmd h9]
    generalize argsOf cmd = args at hargs
    match args, hargs with
    | [], _ => rfl
    | [_], _ => rfl

/-- Witness of C22: the line `/cp a`, with one argument. -/
theorem command_usage_witness :
    command 0 ⟨modeAgent, sampleDir, []⟩ sampleFs "/cp a".toList (.ok [])
      = some { session := ⟨modeAgent, sampleDir, []⟩, fs := sampleFs,
               out := [Out.usage "/cp <source> <destination>".toList, Out.prompt],
               spawned := [], thrown := none, visited := [] } :=
  command_usage 0 ⟨modeAgent, sampleDir, []⟩ sampleFs "/cp a".toList (.ok [])
    "/cp <source> <destination>".toList 2 (by decide) (by decide) (by decide)



/-- C27: a command line that starts with `/` is run by the dispatcher at once
and leaves the approval gate alone. Every verb but `/tree` returns whatever
the bound on the depth of `showTree`; the pending batch and the mode after
the command are those before it; the command does not read the pending batch
(with another batch in place the result is the same, but for that batch);
and the working directory changes only when the verb is `/cd`, with an
argument, and the target is a directory, which is then the new working
directory. -/
theorem command_slash_leaves_pending (fuel : Nat) (s : Session) (fs : FS) (cmd : Str)
    (response : Except Str Str) (pending : List Action) (hslash : cmd.head? = some '/') :
    (commandOf cmd ≠ "/tree".toList → (command fuel s fs cmd response).isSome = true) ∧
    (∀ r, command fuel s fs cmd response = some r →
      r.session.pendingFiles = s.pendingFiles ∧ r.session.currentMode = s.currentMode ∧
      (r.session.workingDirectory ≠ s.workingDirectory →
        commandOf cmd = verbCd ∧ argsOf cmd ≠ [] ∧
        isDirectory fs r.session.workingDirectory = true ∧
        r.session.workingDirectory
          = (if (argsOf cmd).head? = some ['.', '.'] then pathDirname s.workingDirectory
             else pathResolve s.workingDirectory (join ' ' (argsOf cmd))))) ∧
    command fuel { s with pendingFiles := pending } fs cmd response
      = (command fuel s fs cmd response).map
          fun r => { r with session := { r.session with pendingFiles := pending } } := by
  unfold command
  rw [if_pos hslash, if_pos hslash]
  exact ⟨commandSlash_isSome fuel s fs cmd, commandSlash_frame fuel s fs cmd pending⟩

/-- Witness of C27: `/cd site` with one operation pending. -/
theorem command_slash_leaves_pending_witness :
    (command 0 ⟨modeAgent, sampleDir, [Action.operation "/rm a".toList]⟩ sampleFs
        "/cd site".toList (.ok [])).isSome = true ∧
    command 0 { (⟨modeAgent, sampleDir, [Action.operation "/rm a".toList]⟩ : Session) with
          pendingFiles := [] } sampleFs "/cd site".toList (.ok [])
      = (command 0 ⟨modeAgent, sampleDir, [Action.operation "/rm a".toList]⟩ sampleFs
          "/cd site".toList (.ok [])).map
          fun r => { r with session := { r.session with pendingFiles := [] } } :=
  have h := command_slash_leaves_pending 0
    ⟨modeAgent, sampleDir, [Action.operation "/rm a".toList]⟩ sampleFs "/cd site".toList
    (.ok []) [] (by decide)
  ⟨h.1 (by decide), h.2.2⟩

/-- C28: for each of `/cd`, `/mkdir`, `/touch`, `/cp`, `/mv`, a line that
begins with the verb and carries the arguments the verb asks for leaves the
same filesystem and the same working directory when it is issued as a user
command and when it is run as the only operation of an approved batch. -/
theorem command_same_as_approved_operation (fuel : Nat) (s : Session) (fs : FS) (cmd : Str)
    (response : Except Str Str) (synopsis : Str) (required : Nat)
    (hslash : cmd.head? = some '/')
    (hverb : commandOf cmd ∈ [verbCd, verbMkdir, verbTouch, verbCp, verbMv])
    (husage : usageOf (commandOf cmd) = some (synopsis, required))
    (hargs : required ≤ (argsOf cmd).length) :
    ∃ r, command fuel s fs cmd response = some r ∧
      r.fs = (approvalResponse true { s with pendingFiles := [Action.operation cmd] } fs).fs ∧
      r.session.workingDirectory
        = (approvalResponse true
            { s with pendingFiles := [Action.operation cmd] } fs).session.workingDirectory := by
  obtain ⟨hfs, hwd, -⟩ := approvalResponse_single_operation s fs cmd
  rw [hfs, hwd]
  unfold command
  rw [if_pos hslash]
  simp only [List.mem_cons, List.mem_singleton, List.not_mem_nil, or_false] at hverb
  rcases hverb with h | h | h | h | h
  · rw [h] at husage
    have hreq : required = 1 := by
      have : usageOf verbCd = some ("/cd <directory>".toList, 1) := rfl
      rw [this] at husage
      simp only [Option.some.injEq, Prod.mk.injEq] at husage
      exact husage.2.symm
    have ha : argsOf cmd ≠ [] := fun h0 => by rw [h0, hreq] at hargs; cases hargs
    exact ⟨_, commandSlash_cd fuel s fs cmd h, commandCd_eq_operation s fs cmd _ rfl rfl h ha⟩
  · rw [h] at husage
    have hreq : required = 1 := by
      have : usageOf verbMkdir = some ("/mkdir <directory_name>".toList, 1) := rfl
      rw [this] at husage
      simp only [Option.some.injEq, Prod.mk.injEq] at husage
      exact husage.2.symm
    have ha : argsOf cmd ≠ [] := fun h0 => by rw [h0, hreq] at hargs; cases hargs
    exact ⟨_, commandSlash_mkdir fuel s fs cmd h,
      commandMkdir_eq_operation s fs cmd _ rfl rfl h ha⟩
  · rw [h] at husage
    have hreq : required = 1 := by
      have : usageOf verbTouch = some ("/touch <filename>".toList, 1) := rfl
      rw [this] at husage
      simp only [Option.some.injEq, Prod.mk.injEq] at husage
      exact husage.2.symm
    have ha : argsOf cmd ≠ [] := fun h0 => by rw [h0, hreq] at hargs; cases hargs
    exact ⟨_, commandSlash_touch fuel s fs cmd h,
      commandTouch_eq_operation s fs cmd _ rfl rfl h ha⟩
  · rw [h] at husage
    have hreq : required = 2 := by
      have : usageOf verbCp = some ("/cp <source> <destination>".toList, 2) := rfl
      rw [this] at husage
      simp only [Option.some.injEq, Prod.mk.injEq] at husage
      exact husage.2.symm
    rw [hreq] at hargs
    exact ⟨_, commandSlash_cp fuel s fs cmd h,
      commandCp_eq_operation s fs cmd _ rfl rfl h hargs⟩
  · rw [h] at husage
    have hreq : required = 2 := by
      have : usageOf verbMv = some ("/mv <source> <destination>".toList, 2) := rfl
      rw [this] at husage
      simp only [Option.some.injEq, Prod.mk.injEq] at husage
      exact husage.2.symm
    rw [hreq] at hargs
    exact ⟨_, commandSlash_mv fuel s fs cmd h,
      commandMv_eq_operation s fs cmd _ rfl rfl h hargs⟩

/-- Witness of C28: `/mv site pages` in the sample directory. -/
theorem command_same_as_approved_operation_witness :
    ∃ r, command 0 ⟨modeAgent, sampleDir, []⟩ sampleFs "/mv site pages".toList (.ok [])
        = some r ∧
      r.fs = (approvalResponse true
        ⟨modeAgent, sampleDir, [Action.operation "/mv site pages".toList]⟩ sampleFs).fs ∧
      r.session.workingDirectory = (approvalResponse true
        ⟨modeAgent, sampleDir,
          [Action.operation "/mv site pages".toList]⟩ sampleFs).session.workingDirectory :=
  command_same_as_approved_operation 0 ⟨modeAgent, sampleDir, []⟩ sampleFs
    "/mv site pages".toList (.ok []) "/mv <source> <destination>".toList 2
    (by decide) (by decide) (by decide) (by decide)

/-- C25, at the approved operations `/rm $(rm -rf x)` and
`/rmdir a" & del b & "` in `/w`, and at the user command `/rm $(rm -rf x)`
where a file of that name exists: the command line that `exec` hands to the
shell holds the name as it was typed, between the double quotes of the
PowerShell script. Only apostrophes are doubled, as for the name `it's`; the
characters `$(`, `)` and the double quote, which a shell acts on, are passed
on as they are. -/
theorem rm_command_line_passes_shell_characters :
    (approvalResponse true
        ⟨modeAgent, sampleDir, [Action.operation "/rm $(rm -rf x)".toList]⟩
        sampleFs).spawned.map Spawn.shellCommand
      = ["powershell -Command ".toList ++ [Char.ofNat 34]
          ++ "Add-Type -AssemblyName Microsoft.VisualBasic; ".toList
          ++ "[Microsoft.VisualBasic.FileIO.FileSystem]::DeleteFile('/w/$(rm -rf x)', ".toList
          ++ "'OnlyErrorDialogs', 'SendToRecycleBin')".toList ++ [Char.ofNat 34]] ∧
    (approvalResponse true
        ⟨modeAgent, sampleDir,
          [Action.operation ("/rmdir a".toList ++ [Char.ofNat 34] ++ " & del b & ".toList
            ++ [Char.ofNat 34])]⟩
        sampleFs).spawned.map Spawn.shellCommand
      = ["powershell -Command ".toList ++ [Char.ofNat 34]
          ++ "Add-Type -AssemblyName Microsoft.VisualBasic; ".toList
          ++ "[Microsoft.VisualBasic.FileIO.FileSystem]::DeleteDirectory('/w/a".toList
          ++ [Char.ofNat 34] ++ " & del b & ".toList ++ [Char.ofNat 34]
          ++ "', 'OnlyErrorDialogs', 'SendToRecycleBin')".toList ++ [Char.ofNat 34]] ∧
    (command 0 ⟨modeChat, sampleDir, []⟩
        ((["w".toList, "$(rm -rf x)".toList], Node.file []) :: sampleFs)
        "/rm $(rm -rf x)".toList (.ok [])).map
        (fun r => r.spawned.map Spawn.shellCommand)
      = some ["powershell -Command ".toList ++ [Char.ofNat 34]
          ++ "Add-Type -AssemblyName Microsoft.VisualBasic; ".toList
          ++ "[Microsoft.VisualBasic.FileIO.FileSystem]::DeleteFile('/w/$(rm -rf x)', ".toList
          ++ "'OnlyErrorDialogs', 'SendToRecycleBin')".toList ++ [Char.ofNat 34]] ∧
    (approvalResponse true
        ⟨modeAgent, sampleDir, [Action.operation "/rm it's".toList]⟩
        sampleFs).spawned.map Spawn.shellCommand
      = ["powershell -Command ".toList ++ [Char.ofNat 34]
          ++ "Add-Type -AssemblyName Microsoft.VisualBasic; ".toList
          ++ "[Microsoft.VisualBasic.FileIO.FileSystem]::DeleteFile('/w/it''s', ".toList
          ++ "'OnlyErrorDialogs', 'SendToRecycleBin')".toList ++ [Char.ofNat 34]] :=
  ⟨rfl, rfl, rfl, rfl⟩

/-- C24, at the payload `admin` on a new connection: `switchMode` stores the
payload, so the mode is then neither `chat` nor `agent`. -/
theorem switchMode_any_payload :
    (switchMode (connection sampleDir) "admin".toList).currentMode = "admin".toList ∧
    (switchMode (connection sampleDir) "admin".toList).currentMode ≠ modeChat ∧
    (switchMode (connection sampleDir) "admin".toList).currentMode ≠ modeAgent := by
  decide

/-- C24, amended: a connection starts in the mode `chat`; `switchMode` stores
its payload as it comes and leaves the working directory and the pending
batch alone; and with a stored mode other than `agent` the model turn does
what it does in the mode `chat`: it stages nothing and shows the answer. -/
theorem switchMode_stores_payload (s : Session) (fs : FS) (dirname : Path) (newMode : Str)
    (response : Except Str Str) (hmode : newMode ≠ modeAgent) :
    (connection dirname).currentMode = modeChat ∧
    (switchMode s newMode).currentMode = newMode ∧
    (switchMode s newMode).workingDirectory = s.workingDirectory ∧
    (switchMode s newMode).pendingFiles = s.pendingFiles ∧
    (commandModelTurn (switchMode s newMode) fs response).session = switchMode s newMode ∧
    (commandModelTurn (switchMode s newMode) fs response).out
      = (commandModelTurn (switchMode s modeChat) fs response).out := by
  refine ⟨rfl, rfl, rfl, rfl, ?_, ?_⟩
  · cases response with
    | error m => rfl
    | ok raw =>
      have h : ¬ (switchMode s newMode).currentMode = modeAgent := hmode
      simp only [commandModelTurn, if_neg h]
  · cases response with
    | error m => rfl
    | ok raw =>
      have h : ¬ (switchMode s newMode).currentMode = modeAgent := hmode
      have h2 : ¬ (switchMode s modeChat).currentMode = modeAgent :=
        (by decide : ¬ modeChat = modeAgent)
      simp only [commandModelTurn, if_neg h, if_neg h2]

/-- Witness of C24, amended: the payload `admin`. -/
theorem switchMode_stores_payload_witness :
    (commandModelTurn (switchMode ⟨modeAgent, sampleDir, []⟩ "admin".toList) sampleFs
        (.ok "<<<OPERATION: /rm a>>>".toList)).session
      = switchMode ⟨modeAgent, sampleDir, []⟩ "admin".toList :=
  (switchMode_stores_payload ⟨modeAgent, sampleDir, []⟩ sampleFs sampleDir "admin".toList
    (.ok "<<<OPERATION: /rm a>>>".toList) (by decide)).2.2.2.2.1

/-- C30: after every run of the handler of `termOutput` the history has at
most 100 entries; when the history after the `push` has more than 100, the
handler leaves exactly its last 100, in their order; otherwise it leaves it
whole. The `push` adds one entry at the end, unless the cleaned text is
empty or is the prompt `$`, as for the data `$ ` and for empty data. -/
theorem termOutput_keeps_last_hundred (history : List HistoryEntry) (data : Str) (now : Nat) :
    (termOutput history data now).length ≤ 100 ∧
    termOutput history data now <:+ termOutputPush history data now ∧
    (100 < (termOutputPush history data now).length →
      (termOutput history data now).length = 100 ∧
      termOutput history data now
        = (termOutputPush history data now).drop
            ((termOutputPush history data now).length - 100)) ∧
    ((termOutputPush history data now).length ≤ 100 →
      termOutput history data now = termOutputPush history data now) ∧
    (cleanData data = [] ∨ cleanData data = ['$'] →
      termOutputPush history data now = history) ∧
    (cleanData data ≠ [] ∧ cleanData data ≠ ['$'] →
      termOutputPush history data now
        = history ++ [{ type := "output".toList, text := cleanData data, timestamp := now }]) ∧
    termOutputPush history "$ ".toList now = history ∧
    termOutputPush history [] now = history := by
  refine ⟨?_, ?_, ?_, ?_, ?_, ?_, ?_, ?_⟩
  · unfold termOutput
    simp only []
    split
    · rw [List.length_drop]
      omega
    · omega
  · unfold termOutput
    simp only []
    split
    · exact List.drop_suffix _ _
    · exact List.suffix_refl _
  · intro h
    unfold termOutput
    simp only []
    rw [if_pos h, List.length_drop]
    exact ⟨by omega, rfl⟩
  · intro h
    unfold termOutput
    simp only []
    rw [if_neg (by omega)]
  · intro h
    unfold termOutputPush
    rw [if_neg]
    rcases h with h | h
    · exact fun hh => hh.1 h
    · exact fun hh => hh.2 h
  · intro h
    unfold termOutputPush
    rw [if_pos h]
  · unfold termOutputPush
    rw [if_neg]
    decide
  · unfold termOutputPush
    rw [if_neg]
    decide

/-- C26, on a store with the chats `a` and `b` of which `a` is the current
one: `deleteChatFromStorage` of `a` returns `b` as the new current chat and
leaves the store as it was, so `getChat` still finds `a` and `getAllChats`
still lists it; the deletion of `b`, which is not the current chat, is
saved. -/
theorem deleteChatFromStorage_current_not_saved :
    deleteChatFromStorage sampleStore "a".toList "n".toList
      = (sampleStore,
         some { chatId := "b".toList, chat := some ⟨"b".toList, 1, [], modeChat, []⟩ }) ∧
    getChat (deleteChatFromStorage sampleStore "a".toList "n".toList).1 "a".toList
      = some ⟨"a".toList, 2, [], modeChat, []⟩ ∧
    (getAllChats (deleteChatFromStorage sampleStore "a".toList "n".toList).1).map Chat.id
      = ["a".toList, "b".toList] ∧
    getChat (deleteChatFromStorage sampleStore "b".toList "n".toList).1 "b".toList = none ∧
    (getAllChats (deleteChatFromStorage sampleStore "b".toList "n".toList).1).map Chat.id
      = ["a".toList] := by
  decide



/-- C29 fails as stated: in the text
`<<<FILE: a>>><<<OPERATION: x <<<OPERATION: c>>> z<<<END>>>` the marker
`<<<OPERATION: c>>>` lies inside the body of the file-write directive that
the scan for files finds, and the content of the file-write action holds it
as it was written; but the scan for operations starts its match at the
earlier `<<<OPERATION: `, so the operation that is staged has the command
`x <<<OPERATION: c`, and no operation with the command `c` is staged. -/
theorem operation_inside_file_body_not_staged :
    stagedBatch "<<<FILE: a>>><<<OPERATION: x <<<OPERATION: c>>> z<<<END>>>".toList
      = [Action.operation "x <<<OPERATION: c".toList,
         Action.file "a".toList "<<<OPERATION: x <<<OPERATION: c>>> z".toList] ∧
    operationDirective "c".toList <:+: "<<<OPERATION: x <<<OPERATION: c>>> z".toList ∧
    Action.operation "c".toList
      ∉ stagedBatch "<<<FILE: a>>><<<OPERATION: x <<<OPERATION: c>>> z<<<END>>>".toList := by
  decide

/-- C29, amended: the operations are extracted from the whole text, file
bodies included. Let a text be made of well-formed pieces around one
file-write directive with a plain name, whose body is a plain text, the
marker `<<<OPERATION: command>>>` with a plain command, and a plain text.
Then the scan for operations finds the marker and the scan for files finds
the directive: the staged batch is the operations of the pieces with the
operation `command` (trimmed, as every staged command is) at its place, and
then the file writes of the pieces with the write of this directive at its
place, whose content is the trimmed body and still holds the marker as it
was written. On approval the operation is run whatever the writes do, and
the file-write action is reached as well unless a write throws. -/
theorem operation_inside_file_body (s : Session) (fs : FS) (ps qs : List Piece)
    (name before command after : Str)
    (hps : ∀ p ∈ ps, p.WellFormed) (hqs : ∀ p ∈ qs, p.WellFormed)
    (hn : PlainName name) (hb : PlainText before) (hc : PlainName command)
    (ha : PlainText after)
    (hs : s.pendingFiles = stagedBatch (renderPieces ps
      ++ (fileDirective name (before ++ (operationDirective command ++ after))
        ++ renderPieces qs))) :
    stagedBatch (renderPieces ps
        ++ (fileDirective name (before ++ (operationDirective command ++ after))
          ++ renderPieces qs))
      = (piecesOperations ps ++ Action.operation (trim command) :: piecesOperations qs)
        ++ (piecesFiles ps
          ++ Action.file (trim name) (trim (before ++ (operationDirective command ++ after)))
            :: piecesFiles qs) ∧
    operationDirective command <:+: trim (before ++ (operationDirective command ++ after)) ∧
    Action.operation (trim command) ∈ (approvalResponse true s fs).visited ∧
    ((approvalResponse true s fs).thrown = none →
      Action.file (trim name) (trim (before ++ (operationDirective command ++ after)))
        ∈ (approvalResponse true s fs).visited) := by
  obtain ⟨hops, hfiles⟩ := stagedBatch_nested ps qs name before command after hps hqs hn hb hc ha
  have hbatch : stagedBatch (renderPieces ps
        ++ (fileDirective name (before ++ (operationDirective command ++ after))
          ++ renderPieces qs))
      = (piecesOperations ps ++ Action.operation (trim command) :: piecesOperations qs)
        ++ (piecesFiles ps
          ++ Action.file (trim name) (trim (before ++ (operationDirective command ++ after)))
            :: piecesFiles qs) := by
    rw [stagedBatch, hops, hfiles]
  refine ⟨hbatch, ?_, ?_, ?_⟩
  · apply operationDirective_infix_trim
    exact ⟨before, after, by simp⟩
  · apply approvalResponse_visits_operations s fs _ hs
    rw [hops]
    simp
  · intro hth
    rw [approvalResponse_visited_all s fs hth, hs, hbatch]
    simp

/-- Witness of C29, amended: prose, then a file whose body holds the marker
`<<<OPERATION: /rm y>>>`. -/
theorem operation_inside_file_body_witness :
    stagedBatch "ok <<<FILE: a>>>x <<<OPERATION: /rm y>>> z<<<END>>>".toList
      = [Action.operation "/rm y".toList,
         Action.file "a".toList "x <<<OPERATION: /rm y>>> z".toList] ∧
    Action.operation "/rm y".toList ∈ (approvalResponse true
      ⟨modeAgent, sampleDir,
        stagedBatch "ok <<<FILE: a>>>x <<<OPERATION: /rm y>>> z<<<END>>>".toList⟩
      sampleFs).visited :=
  have h := operation_inside_file_body
    ⟨modeAgent, sampleDir,
      stagedBatch "ok <<<FILE: a>>>x <<<OPERATION: /rm y>>> z<<<END>>>".toList⟩ sampleFs
    [Piece.prose "ok ".toList] [] "a".toList "x ".toList "/rm y".toList " z".toList
    (by decide) (by decide) (by decide) (by decide) (by decide) (by decide) rfl
  ⟨h.1, h.2.2.1⟩

/-- C23, in the directory `/w` whose one name `loop` is a symbolic link to
`/w` itself: `showTree` does not treat the directory it came from as a leaf.
It descends into it again at each of the depths 0 to 39 and sends a line for
`loop` each time, until `statSync` refuses the path with its 41 links; the
run ends with the error `ELOOP`, not with the tree of one line that a guard
would give. -/
theorem showTree_descends_into_visited :
    loopReaddir sampleDir = .ok ["loop".toList] ∧
    loopStat (pathJoin sampleDir "loop".toList) = .ok true ∧
    loopLines.length = 40 ∧
    showTree loopReaddir loopStat 50 sampleDir [] [] = TreeRun.thrown Errno.ELOOP loopLines :=
  ⟨rfl, rfl, rfl, rfl⟩

/-- C23, amended: `/tree` returns on every directory structure, links
included, because `readdirSync` gives names, each descent makes the path one
name longer, and `statSync` refuses every path beyond a bound (of `limit`
names: more than 40 links, or a path too long for the system): for every
bound on the depth of the recursion above `limit + 1` the handler returns,
with the same result for every larger bound, nothing thrown out of it, the
session and the filesystem as they were and the prompt sent last. On the
modelled filesystem, which has no links, the bound is its depth. The loop of
`showTree` sends the line of a name `node_modules` or `.git` and goes on
with the next name without a descent. But `showTree` keeps no record of the
directories it has visited: in the directory with a link to itself it
descends 40 times and ends with the error `ELOOP`. -/
theorem tree_terminates (readdir : Path → Except Errno (List Str))
    (stat : Path → Except Errno Bool) (limit : Nat) (s : Session) (fs : FS) (cmd : Str)
    (response : Except Str Str)
    (hnames : ∀ dir files, readdir dir = .ok files →
      ∀ f ∈ files, f ≠ [] ∧ f ≠ ['.'] ∧ f ≠ ['.', '.'] ∧ '/' ∉ f)
    (hlimit : ∀ p, stat p = .ok true → p.length ≤ limit)
    (hslash : cmd.head? = some '/')
    (hverb : commandOf cmd = "/tree".toList) (hfs : FS.PlainNames fs) :
    (∀ fuel, limit + 2 ≤ fuel →
      ∃ r, commandTreeWith readdir stat fuel s fs = some r ∧
        (∀ k, commandTreeWith readdir stat (fuel + k) s fs = some r) ∧
        r.fs = fs ∧ r.session = s ∧ r.thrown = none ∧ r.spawned = [] ∧
        r.out.getLast? = some Out.prompt) ∧
    (∀ fuel, FS.depth fs + 2 ≤ fuel →
      ∃ r, command fuel s fs cmd response = some r ∧
        (∀ k, command (fuel + k) s fs cmd response = some r) ∧
        r.fs = fs ∧ r.session = s ∧ r.thrown = none ∧ r.spawned = [] ∧
        r.out.getLast? = some Out.prompt) ∧
    (∀ (stat : Path → Except Errno Bool) (descend : Path → Str → List Out → TreeRun)
        (dir : Path) (indent file : Str) (rest : List Str) (out : List Out),
      file = "node_modules".toList ∨ file = ".git".toList →
      showTreeLoop stat descend dir indent (file :: rest) out
        = match stat (pathJoin dir file) with
          | .error e => TreeRun.thrown e out
          | .ok isDir =>
            showTreeLoop stat descend dir indent rest
              (out ++ [Out.treeLine indent rest.isEmpty isDir file])) ∧
    (∀ fuel, 41 ≤ fuel →
      showTree loopReaddir loopStat fuel sampleDir [] []
        = TreeRun.thrown Errno.ELOOP loopLines) := by
  refine ⟨?_, ?_, ?_, ?_⟩
  · intro fuel hfuel
    have hsome := commandTreeWith_isSome readdir stat limit hnames hlimit s fs fuel hfuel
    cases hr : commandTreeWith readdir stat fuel s fs with
    | none => rw [hr] at hsome; cases hsome
    | some r =>
      exact ⟨r, rfl, commandTreeWith_mono readdir stat fuel s fs r hr,
        commandTreeWith_result readdir stat fuel s fs r hr⟩
  · intro fuel hfuel
    have hsome := commandTree_isSome fs hfs s fuel hfuel
    have hcmd : ∀ n, command n s fs cmd response
        = commandTreeWith (readdirSync fs) (statSync fs) n s fs := by
      intro n
      unfold command
      rw [if_pos hslash, commandSlash_tree n s fs cmd hverb]
      rfl
    unfold commandTree at hsome
    cases hr : commandTreeWith (readdirSync fs) (statSync fs) fuel s fs with
    | none => rw [hr] at hsome; cases hsome
    | some r =>
      refine ⟨r, by rw [hcmd, hr], fun k => ?_, commandTreeWith_result _ _ fuel s fs r hr⟩
      rw [hcmd]
      exact commandTreeWith_mono _ _ fuel s fs r hr k
  · intro stat descend dir indent file rest out h
    exact showTreeLoop_skips stat descend dir indent file rest out h
  · intro fuel hfuel
    have h41 : showTree loopReaddir loopStat 41 sampleDir [] []
        = TreeRun.thrown Errno.ELOOP loopLines := rfl
    obtain ⟨k, rfl⟩ := Nat.exists_eq_add_of_le hfuel
    rw [showTree_mono loopReaddir loopStat 41 sampleDir [] [] (by rw [h41]; simp) k, h41]

/-- Witness of C23, amended: `/tree` in the directory with the link to
itself, where `statSync` refuses paths of more than 41 names, and in the
sample directory. -/
theorem tree_terminates_witness :
    (∃ r, commandTreeWith loopReaddir loopStat 43 ⟨modeAgent, sampleDir, []⟩ sampleFs = some r ∧
      (∀ k, commandTreeWith loopReaddir loopStat (43 + k) ⟨modeAgent, sampleDir, []⟩ sampleFs
        = some r) ∧
      r.fs = sampleFs ∧ r.session = ⟨modeAgent, sampleDir, []⟩ ∧ r.thrown = none ∧
      r.spawned = [] ∧ r.out.getLast? = some Out.prompt) ∧
    (∃ r, command 5 ⟨modeAgent, sampleDir, []⟩ sampleFs "/tree".toList (.ok []) = some r ∧
      (∀ k, command (5 + k) ⟨modeAgent, sampleDir, []⟩ sampleFs "/tree".toList (.ok [])
        = some r) ∧
      r.fs = sampleFs ∧ r.session = ⟨modeAgent, sampleDir, []⟩ ∧ r.thrown = none ∧
      r.spawned = [] ∧ r.out.getLast? = some Out.prompt) :=
  have h := tree_terminates loopReaddir loopStat 41 ⟨modeAgent, sampleDir, []⟩ sampleFs
    "/tree".toList (.ok []) loopReaddir_names loopStat_length (by decide) (by decide) (by decide)
  ⟨h.1 43 (by decide), h.2.1 5 (by decide)⟩

end DualTerminal
